import Mathlib

/-!
# tkdiff: the line-based differencing engine of `src/file_tools/tkdiff.c`

A shallow embedding of the comparison policy (`preprocess_line`, `compare_lines`),
the LCS table builder (`compute_lcs`), the edit script extractor (`extract_diff`),
the statistics pass (`compute_stats`) and the renderers `show_unified_diff`,
`show_side_by_side_diff`, `show_stats` and `show_brief`, followed by theorems about them.

Conventions of the embedding
* a line (`char *`, NUL-terminated) is the list of its bytes, each a `Nat`;
* a `FileInfo` is represented by its `lines` array, a `List Line`; its
  `line_count` is the length of that list (`read_file` keeps them equal);
* `int` values are `Nat`: every index and table entry of the code stays within
  `0 .. line_count`, and counters are only decremented when positive;
* the `int **` table is a `List (List Nat)`, read with `tbl` and written with `tbl_set`;
* the linked list of `DiffChunk` nodes is a `List DiffChunk` (the `next` pointers);
  a `NULL` line array is the empty list;
* the counters of `compute_stats` are sums of line counts, and `Nat` as well;
* a renderer returns the list of its output steps, each a `printf` or `color_print`
  call with its arguments, instead of writing text;
* the functions named `_checked` are `compute_lcs` and the loop of `extract_diff` again,
  with every array access returning `none` outside the bounds of its array.
-/

namespace TkDiff

/-- A line of a file: the bytes of a C string. -/
abbrev Line := List Nat

/-- The bytes of an ASCII string literal, used to write examples. -/
def str (s : String) : Line := s.toList.map Char.toNat

/-- The enum `DiffType`. -/
inductive DiffType where
  | DIFF_EQUAL
  | DIFF_INSERT
  | DIFF_DELETE
  | DIFF_CHANGE
deriving DecidableEq, Repr

open DiffType

/-- The struct `DiffChunk`, without its `next` pointer. -/
structure DiffChunk where
  type : DiffType
  file1_start : Nat
  file1_end : Nat
  file2_start : Nat
  file2_end : Nat
  lines1 : List Line
  lines2 : List Line
  line_count1 : Nat
  line_count2 : Nat
deriving DecidableEq, Repr

/-- The struct `Options`. -/
structure Options where
  color_output : Bool
  context_lines : Int
  unified_diff : Bool
  side_by_side : Bool
  ignore_case : Bool
  ignore_whitespace : Bool
  show_stats : Bool
  brief : Bool
  recursive : Bool
  help : Bool
  version : Bool
deriving DecidableEq, Repr

/-- The options set by `init_options`, the colour flag being a parameter
(it is read from the terminal). -/
def init_options (color : Bool) : Options :=
  { color_output := color, context_lines := 3, unified_diff := true, side_by_side := false,
    ignore_case := false, ignore_whitespace := false, show_stats := false, brief := false,
    recursive := false, help := false, version := false }

/-- The libc predicate `isspace` on an `unsigned char`, in the C locale. -/
def isspace (c : Nat) : Bool := c == 32 || (9 ≤ c && c ≤ 13)

/-- The libc function `tolower` on an `unsigned char`, in the C locale. -/
def tolower (c : Nat) : Nat := if 65 ≤ c ∧ c ≤ 90 then c + 32 else c

/-- The function `preprocess_line`: drop the whitespace bytes when `ignore_whitespace`
is set, then lower-case every byte when `ignore_case` is set. -/
def preprocess_line (line : Line) (opts : Options) : Line :=
  let processed := if opts.ignore_whitespace then line.filter (fun c => !isspace c) else line
  if opts.ignore_case then processed.map tolower else processed

/-- The function `compare_lines`: `strcmp` of the preprocessed copies when a flag is
set, `strcmp` of the lines themselves otherwise. -/
def compare_lines (line1 line2 : Line) (opts : Options) : Bool :=
  if opts.ignore_whitespace || opts.ignore_case then
    decide (preprocess_line line1 opts = preprocess_line line2 opts)
  else
    decide (line1 = line2)

/-- The element `lines[k]` of a line array. -/
def line_at (lines : List Line) (k : Nat) : Line := lines.getD k []

/-- The read `lcs[i][j]`. -/
def tbl (lcs : List (List Nat)) (i j : Nat) : Nat := (lcs.getD i []).getD j 0

/-- The write `lcs[i][j] = v`. -/
def tbl_set (lcs : List (List Nat)) (i j v : Nat) : List (List Nat) :=
  lcs.set i ((lcs.getD i []).set j v)

/-- The body of the inner loop of `compute_lcs` at cell `(i, j)`. -/
def lcs_cell (A B : List Line) (opts : Options) (i : Nat) (lcs : List (List Nat)) (j : Nat) :
    List (List Nat) :=
  if compare_lines (line_at A (i - 1)) (line_at B (j - 1)) opts then
    tbl_set lcs i j (tbl lcs (i - 1) (j - 1) + 1)
  else
    tbl_set lcs i j (if tbl lcs (i - 1) j > tbl lcs i (j - 1) then tbl lcs (i - 1) j
      else tbl lcs i (j - 1))

/-- The inner loop `for (int j = 1; j <= n; j++)` of `compute_lcs` for row `i`. -/
def lcs_row (A B : List Line) (opts : Options) (lcs : List (List Nat)) (i : Nat) :
    List (List Nat) :=
  (List.range' 1 B.length).foldl (lcs_cell A B opts i) lcs

/-- The function `compute_lcs`: allocate `(m+1) x (n+1)` zeros, then fill rows `1 .. m`. -/
def compute_lcs (A B : List Line) (opts : Options) : List (List Nat) :=
  (List.range' 1 A.length).foldl (lcs_row A B opts)
    (List.replicate (A.length + 1) (List.replicate (B.length + 1) 0))

/-- The three branches of the loop body of `extract_diff` at cell `(i, j)`: the chunk
that is filled in and the new values of `i` and `j`. The source has no final `else`:
when no branch is taken the chunk stays uninitialised, which is `none` here. -/
def new_chunk (A B : List Line) (lcs : List (List Nat)) (opts : Options) (i j : Nat) :
    Option (DiffChunk × Nat × Nat) :=
  if i > 0 ∧ j > 0 ∧ compare_lines (line_at A (i - 1)) (line_at B (j - 1)) opts = true then
    some ({ type := DIFF_EQUAL, file1_start := i, file1_end := i, file2_start := j,
            file2_end := j, lines1 := [line_at A (i - 1)], line_count1 := 1,
            lines2 := [], line_count2 := 0 }, i - 1, j - 1)
  else if j > 0 ∧ (i = 0 ∨ tbl lcs i (j - 1) ≥ tbl lcs (i - 1) j) then
    some ({ type := DIFF_INSERT, file1_start := i, file1_end := i, file2_start := j,
            file2_end := j, lines1 := [], line_count1 := 0,
            lines2 := [line_at B (j - 1)], line_count2 := 1 }, i, j - 1)
  else if i > 0 ∧ (j = 0 ∨ tbl lcs i (j - 1) < tbl lcs (i - 1) j) then
    some ({ type := DIFF_DELETE, file1_start := i, file1_end := i, file2_start := j,
            file2_end := j, lines1 := [line_at A (i - 1)], line_count1 := 1,
            lines2 := [], line_count2 := 0 }, i - 1, j)
  else none

/-- The block "extend the previous chunk" of `extract_diff`: the node `tail` after the
new one-line `chunk`, of the same type, has been merged into it. The new line array
holds the first `line_count` lines of the old one followed by the chunk's line. -/
def merge_chunk (tail chunk : DiffChunk) : DiffChunk :=
  if chunk.type = DIFF_EQUAL then
    { tail with file1_start := chunk.file1_start, file2_start := chunk.file2_start,
                lines1 := tail.lines1.take tail.line_count1 ++ [line_at chunk.lines1 0],
                line_count1 := tail.line_count1 + 1 }
  else if chunk.type = DIFF_INSERT then
    { tail with file2_start := chunk.file2_start,
                lines2 := tail.lines2.take tail.line_count2 ++ [line_at chunk.lines2 0],
                line_count2 := tail.line_count2 + 1 }
  else if chunk.type = DIFF_DELETE then
    { tail with file1_start := chunk.file1_start,
                lines1 := tail.lines1.take tail.line_count1 ++ [line_at chunk.lines1 0],
                line_count1 := tail.line_count1 + 1 }
  else tail

/-- The list held by `extract_diff` while it runs. The pointers `head` and `tail` are
`NULL` together (`none`). The pointer `tail` is set once, when the first node is created
(`head = tail = chunk`), and every later node is linked in front of `head`; so `tail`
stays the last node of the list: `some (front, tail)` is the list `front` followed by the
node `tail`. -/
abbrev ChunkList := Option (List DiffChunk × DiffChunk)

/-- The list that starts at `head`. -/
def head_list : ChunkList → List DiffChunk
  | none => []
  | some (front, tail) => front ++ [tail]

/-- The second half of the loop body of `extract_diff`: merge the new chunk into `tail`
when `tail` exists and has the chunk's type, else make it the only node when the list is
empty, else link it in front of `head`. -/
def add_chunk (s : ChunkList) (chunk : DiffChunk) : ChunkList :=
  match s with
  | none => some ([], chunk)
  | some (front, tail) =>
    if tail.type = chunk.type ∧
        (chunk.type = DIFF_EQUAL ∨ chunk.type = DIFF_INSERT ∨ chunk.type = DIFF_DELETE) then
      some (front, merge_chunk tail chunk)
    else
      some (chunk :: front, tail)

/-- The loop `while (i > 0 || j > 0)` of `extract_diff`, run for at most `fuel`
iterations. The result is `none` when the fuel runs out before the loop ends, or when
an iteration takes no branch. -/
def extract_loop (A B : List Line) (lcs : List (List Nat)) (opts : Options) :
    Nat → Nat → Nat → ChunkList → Option (List DiffChunk)
  | 0, i, j, s => if i > 0 ∨ j > 0 then none else some (head_list s)
  | fuel + 1, i, j, s =>
    if i > 0 ∨ j > 0 then
      match new_chunk A B lcs opts i j with
      | none => none
      | some (chunk, i', j') => extract_loop A B lcs opts fuel i' j' (add_chunk s chunk)
    else some (head_list s)

/-- The function `extract_diff`, started at `(i, j) = (m, n)` with an empty list. The
fuel `m + n` is enough for every input (`extract_diff_total`). -/
def extract_diff (A B : List Line) (lcs : List (List Nat)) (opts : Options) :
    Option (List DiffChunk) :=
  extract_loop A B lcs opts (A.length + B.length) A.length B.length none

/-- The three counters of `compute_stats`. -/
structure Stats where
  inserts : Nat
  deletes : Nat
  changes : Nat
deriving DecidableEq, Repr

/-- The loop body of `compute_stats` for one chunk. -/
def stats_step (st : Stats) (current : DiffChunk) : Stats :=
  if current.type = DIFF_INSERT then { st with inserts := st.inserts + current.line_count2 }
  else if current.type = DIFF_DELETE then { st with deletes := st.deletes + current.line_count1 }
  else if current.type = DIFF_CHANGE then
    { st with changes := st.changes + (current.line_count1 + current.line_count2) / 2 }
  else st

/-- The function `compute_stats`: the three counters start at 0 and the list is walked
once. -/
def compute_stats (diff : List DiffChunk) : Stats :=
  diff.foldl stats_step { inserts := 0, deletes := 0, changes := 0 }

/-- The whole comparison of `compare_files`: the table, then the script. -/
def diff_script (A B : List Line) (opts : Options) : Option (List DiffChunk) :=
  extract_diff A B (compute_lcs A B opts) opts


/-- The colour macros of `colors.h` that `tkdiff.c` passes to its output calls. -/
inductive Color where
  | COLOR_RESET
  | COLOR_BRIGHT_RED
  | COLOR_BRIGHT_GREEN
  | COLOR_BRIGHT_YELLOW
  | COLOR_BRIGHT_BLUE
  | COLOR_BRIGHT_MAGENTA
  | COLOR_BRIGHT_CYAN
deriving DecidableEq, Repr

open Color

/-- One output step of `show_unified_diff`, with the arguments of the call.
* `file_header second color`: the line `--- name<TAB>time` of the first file, or the line
  `+++ name<TAB>time` of the second one (`second`), with or without the colour of the marker;
* `hunk_header color start1 count1 start2 count2`: the line `@@ -%d,%d +%d,%d @@`;
* `record color mark line`: the line `%c %s`, wrapped in `color` and `COLOR_RESET` when
  a colour is given. -/
inductive UnifiedOut where
  | file_header (second : Bool) (color : Bool)
  | hunk_header (color : Bool) (start1 count1 start2 count2 : Nat)
  | record (color : Option Color) (mark : Char) (line : Line)
deriving DecidableEq, Repr

/-- The call that prints one line of a hunk: with the colour when `color_output` is set
(the colour is never `NULL` in a branch), without it otherwise. -/
def print_record (opts : Options) (color : Color) (mark : Char) (line : Line) : UnifiedOut :=
  if opts.color_output then UnifiedOut.record (some color) mark line
  else UnifiedOut.record none mark line

/-- The inner loop `while (i < count1 || j < count2)` of `show_unified_diff` for the chunk
`current`, run for at most `fuel` iterations. The first branch prints `lines1[i]` with
the mark `!` and advances `i` only. The result is `none` when the fuel runs out before
the loop ends, or when an iteration takes no branch. -/
def unified_records (current : DiffChunk) (opts : Options) :
    Nat → Nat → Nat → Option (List UnifiedOut)
  | 0, i, j => if i < current.line_count1 ∨ j < current.line_count2 then none else some []
  | fuel + 1, i, j =>
    if i < current.line_count1 ∨ j < current.line_count2 then
      if i < current.line_count1 ∧ j < current.line_count2 then
        (unified_records current opts fuel (i + 1) j).map fun r =>
          print_record opts COLOR_BRIGHT_YELLOW '!' (line_at current.lines1 i) :: r
      else if i < current.line_count1 then
        (unified_records current opts fuel (i + 1) j).map fun r =>
          print_record opts COLOR_BRIGHT_RED '-' (line_at current.lines1 i) :: r
      else if j < current.line_count2 then
        (unified_records current opts fuel i (j + 1)).map fun r =>
          print_record opts COLOR_BRIGHT_GREEN '+' (line_at current.lines2 j) :: r
      else none
    else some []

/-- The loop `while (current)` of `show_unified_diff`: an Equal chunk is skipped, any
other chunk prints its header and then its lines. The fuel `count1 + count2` of the
inner loop is enough for every chunk (`unified_records_total`). -/
def unified_chunks (opts : Options) : List DiffChunk → Option (List UnifiedOut)
  | [] => some []
  | current :: next =>
    if current.type = DIFF_EQUAL then unified_chunks opts next
    else
      match unified_records current opts (current.line_count1 + current.line_count2) 0 0,
          unified_chunks opts next with
      | some records, some rest =>
        some (UnifiedOut.hunk_header opts.color_output current.file1_start
          current.line_count1 current.file2_start current.line_count2 :: (records ++ rest))
      | _, _ => none

/-- The function `show_unified_diff`: the two file header lines, then the chunks. -/
def show_unified_diff (diff : List DiffChunk) (opts : Options) : Option (List UnifiedOut) :=
  (unified_chunks opts diff).map fun r =>
    UnifiedOut.file_header false opts.color_output ::
      UnifiedOut.file_header true opts.color_output :: r

/-- One output step of `show_stats`; `color` tells which of the two modes printed it.
* `title`: the heading line; `rule`: the line of `═`; `blank`: an empty line;
* `file_line which count`: the line of file 1 or 2 with its name and `line_count`;
* `identical`: the line saying that the files are identical;
* `inserted n`, `deleted n`, `changed n`: the line of one counter;
* `total n`: the line of `total_changes`. -/
inductive StatsOut where
  | title (color : Bool)
  | rule
  | file_line (color : Bool) (which : Nat) (line_count : Nat)
  | blank
  | identical (color : Bool)
  | inserted (color : Bool) (n : Nat)
  | deleted (color : Bool) (n : Nat)
  | changed (color : Bool) (n : Nat)
  | total (color : Bool) (n : Nat)
deriving DecidableEq, Repr

/-- The function `show_stats`. The two modes (`color_output` set or not) print the same
lines, one through `color_print`, the other through `printf`. -/
def show_stats (A B : List Line) (diff : List DiffChunk) (opts : Options) : List StatsOut :=
  let st := compute_stats diff
  let total_changes := st.inserts + st.deletes + st.changes
  let color := opts.color_output
  [StatsOut.title color, StatsOut.rule, StatsOut.file_line color 1 A.length,
    StatsOut.file_line color 2 B.length, StatsOut.blank] ++
  (if total_changes = 0 then [StatsOut.identical color]
   else
    (if st.inserts > 0 then [StatsOut.inserted color st.inserts] else []) ++
    (if st.deletes > 0 then [StatsOut.deleted color st.deletes] else []) ++
    (if st.changes > 0 then [StatsOut.changed color st.changes] else []) ++
    [StatsOut.blank, StatsOut.total color total_changes]) ++
  [StatsOut.blank]

/-- The line printed by `show_brief`: the two files are the same, or they differ. -/
inductive BriefOut where
  | same (color : Bool)
  | different (color : Bool)
deriving DecidableEq, Repr

/-- The function `show_brief`. -/
def show_brief (diff : List DiffChunk) (opts : Options) : BriefOut :=
  let st := compute_stats diff
  if st.inserts = 0 ∧ st.deletes = 0 ∧ st.changes = 0 then BriefOut.same opts.color_output
  else BriefOut.different opts.color_output

/-- One output step of `show_side_by_side_diff`.
* `title color`: the line of the two file names, each printed with `%-*s` at the width;
* `rule color length`: the line of `length` rule characters;
* `row color left right`: the line `left | right`, where `left` and `right` are the two
  columns as `%-*s` prints them; `color` is the colour of the row in colour mode. -/
inductive SideOut where
  | title (color : Bool)
  | rule (color : Bool) (length : Nat)
  | row (color : Option Color) (left right : Line)
deriving DecidableEq, Repr

/-- The two statements `strncpy(str, line, width); str[width] = '\0';`: the string left
in the buffer is the first `width` bytes of the line, or the whole line when shorter. -/
def strncpy_line (line : Line) (width : Nat) : Line := line.take width

/-- The conversion `%-*s` of `printf`: the string, then spaces up to the width. -/
def left_justify (width : Nat) (s : Line) : Line := s ++ List.replicate (width - s.length) 32

/-- The colour argument of a row: the colour in colour mode, none otherwise. -/
def row_color (opts : Options) (color : Color) : Option Color :=
  if opts.color_output then some color else none

/-- The body of the loop `while (current)` of `show_side_by_side_diff` for one chunk: a
`for` loop over `lines1` (Equal, Delete) or over `lines2` (Insert), one row per index;
a chunk of another type prints nothing. -/
def side_rows (current : DiffChunk) (opts : Options) (width : Nat) : List SideOut :=
  if current.type = DIFF_EQUAL then
    (List.range current.line_count1).map fun i =>
      SideOut.row (row_color opts COLOR_BRIGHT_BLUE)
        (left_justify width (strncpy_line (line_at current.lines1 i) width))
        (left_justify width (strncpy_line (line_at current.lines1 i) width))
  else if current.type = DIFF_DELETE then
    (List.range current.line_count1).map fun i =>
      SideOut.row (row_color opts COLOR_BRIGHT_RED)
        (left_justify width (strncpy_line (line_at current.lines1 i) width))
        (left_justify width [])
  else if current.type = DIFF_INSERT then
    (List.range current.line_count2).map fun i =>
      SideOut.row (row_color opts COLOR_BRIGHT_GREEN)
        (left_justify width [])
        (left_justify width (strncpy_line (line_at current.lines2 i) width))
  else []

/-- The function `show_side_by_side_diff`, with `width = 40`: the title, the rule of
`width * 2 + 3` characters, then the rows of the chunks. -/
def show_side_by_side_diff (diff : List DiffChunk) (opts : Options) : List SideOut :=
  let width := 40
  [SideOut.title opts.color_output, SideOut.rule opts.color_output (width * 2 + 3)] ++
    diff.flatMap fun current => side_rows current opts width

/-- The read `lines[k]` with its bound checked: `none` past the end of the array. -/
def read_line (lines : List Line) (k : Nat) : Option Line := lines[k]?

/-- The read `lcs[i][j]` with both bounds checked. -/
def read_tbl (lcs : List (List Nat)) (i j : Nat) : Option Nat :=
  match lcs[i]? with
  | some row => row[j]?
  | none => none

/-- The write `lcs[i][j] = v` with both bounds checked. -/
def write_tbl (lcs : List (List Nat)) (i j v : Nat) : Option (List (List Nat)) :=
  match lcs[i]? with
  | some row => if j < row.length then some (lcs.set i (row.set j v)) else none
  | none => none

/-- The body of the inner loop of `compute_lcs` with every index checked: `none` when an
index `i - 1` or `j - 1` would be negative or an access falls outside its array. -/
def lcs_cell_checked (A B : List Line) (opts : Options) (i : Nat) (lcs : List (List Nat))
    (j : Nat) : Option (List (List Nat)) :=
  if i > 0 ∧ j > 0 then
    match read_line A (i - 1), read_line B (j - 1) with
    | some a, some b =>
      if compare_lines a b opts then
        match read_tbl lcs (i - 1) (j - 1) with
        | some v => write_tbl lcs i j (v + 1)
        | none => none
      else
        match read_tbl lcs (i - 1) j, read_tbl lcs i (j - 1) with
        | some x, some y => write_tbl lcs i j (if x > y then x else y)
        | _, _ => none
    | _, _ => none
  else none

/-- The inner loop of `compute_lcs` for row `i`, with every index checked. -/
def lcs_row_checked (A B : List Line) (opts : Options) (lcs : List (List Nat)) (i : Nat) :
    Option (List (List Nat)) :=
  (List.range' 1 B.length).foldlM (lcs_cell_checked A B opts i) lcs

/-- The function `compute_lcs` with every index checked. -/
def compute_lcs_checked (A B : List Line) (opts : Options) : Option (List (List Nat)) :=
  (List.range' 1 A.length).foldlM (lcs_row_checked A B opts)
    (List.replicate (A.length + 1) (List.replicate (B.length + 1) 0))

/-- The first condition of the loop body of `extract_diff`, evaluated left to right with
every index checked: `none` when an access falls outside its array. -/
def cond_equal_checked (A B : List Line) (opts : Options) (i j : Nat) : Option Bool :=
  if i > 0 ∧ j > 0 then
    match read_line A (i - 1), read_line B (j - 1) with
    | some a, some b => some (compare_lines a b opts)
    | _, _ => none
  else some false

/-- The second condition of the loop body, `j > 0 && (i == 0 || lcs[i][j-1] >= lcs[i-1][j])`,
evaluated left to right with every index checked. -/
def cond_insert_checked (lcs : List (List Nat)) (i j : Nat) : Option Bool :=
  if j > 0 then
    if i = 0 then some true
    else
      match read_tbl lcs i (j - 1), read_tbl lcs (i - 1) j with
      | some x, some y => some (decide (x ≥ y))
      | _, _ => none
  else some false

/-- The third condition of the loop body, `i > 0 && (j == 0 || lcs[i][j-1] < lcs[i-1][j])`,
evaluated left to right with every index checked. -/
def cond_delete_checked (lcs : List (List Nat)) (i j : Nat) : Option Bool :=
  if i > 0 then
    if j = 0 then some true
    else
      match read_tbl lcs i (j - 1), read_tbl lcs (i - 1) j with
      | some x, some y => some (decide (x < y))
      | _, _ => none
  else some false

/-- The three branches of the loop body of `extract_diff` with every index checked: `none`
when an access falls outside its array or when no branch is taken. -/
def new_chunk_checked (A B : List Line) (lcs : List (List Nat)) (opts : Options) (i j : Nat) :
    Option (DiffChunk × Nat × Nat) :=
  match cond_equal_checked A B opts i j with
  | none => none
  | some true =>
    match read_line A (i - 1) with
    | some a =>
      some ({ type := DIFF_EQUAL, file1_start := i, file1_end := i, file2_start := j,
              file2_end := j, lines1 := [a], line_count1 := 1,
              lines2 := [], line_count2 := 0 }, i - 1, j - 1)
    | none => none
  | some false =>
    match cond_insert_checked lcs i j with
    | none => none
    | some true =>
      match read_line B (j - 1) with
      | some b =>
        some ({ type := DIFF_INSERT, file1_start := i, file1_end := i, file2_start := j,
                file2_end := j, lines1 := [], line_count1 := 0,
                lines2 := [b], line_count2 := 1 }, i, j - 1)
      | none => none
    | some false =>
      match cond_delete_checked lcs i j with
      | none => none
      | some true =>
        match read_line A (i - 1) with
        | some a =>
          some ({ type := DIFF_DELETE, file1_start := i, file1_end := i, file2_start := j,
                  file2_end := j, lines1 := [a], line_count1 := 1,
                  lines2 := [], line_count2 := 0 }, i - 1, j)
        | none => none
      | some false => none

/-- The loop of `extract_diff` with every index of the loop body checked. -/
def extract_loop_checked (A B : List Line) (lcs : List (List Nat)) (opts : Options) :
    Nat → Nat → Nat → ChunkList → Option (List DiffChunk)
  | 0, i, j, s => if i > 0 ∨ j > 0 then none else some (head_list s)
  | fuel + 1, i, j, s =>
    if i > 0 ∨ j > 0 then
      match new_chunk_checked A B lcs opts i j with
      | none => none
      | some (chunk, i', j') =>
        extract_loop_checked A B lcs opts fuel i' j' (add_chunk s chunk)
    else some (head_list s)

/-- The function `extract_diff` with every index of the loop body checked. -/
def extract_diff_checked (A B : List Line) (lcs : List (List Nat)) (opts : Options) :
    Option (List DiffChunk) :=
  extract_loop_checked A B lcs opts (A.length + B.length) A.length B.length none

/-! ## Definitions used to state and prove the properties -/

/-- The table has `m + 1` rows of `n + 1` entries each. -/
def Shape (lcs : List (List Nat)) (m n : Nat) : Prop :=
  lcs.length = m + 1 ∧ ∀ i, i ≤ m → (lcs.getD i []).length = n + 1

/-- The recurrence that the table is meant to satisfy, as a function of the cell. It is
used to state the loop invariant of `compute_lcs`. -/
def lcsRec (A B : List Line) (opts : Options) : Nat → Nat → Nat
  | 0, _ => 0
  | _ + 1, 0 => 0
  | i + 1, j + 1 =>
    if compare_lines (line_at A i) (line_at B j) opts then lcsRec A B opts i j + 1
    else max (lcsRec A B opts i (j + 1)) (lcsRec A B opts (i + 1) j)

/-- The value of cell `(i', j')` when rows `< i` are filled and row `i` is filled up to
column `k`. -/
def filled (A B : List Line) (opts : Options) (i k i' j' : Nat) : Nat :=
  if i' < i ∨ (i' = i ∧ j' ≤ k) then lcsRec A B opts i' j' else 0

/-- The loop invariant of `compute_lcs`. -/
def LcsInv (A B : List Line) (opts : Options) (lcs : List (List Nat)) (i k : Nat) : Prop :=
  Shape lcs A.length B.length ∧
    ∀ i' j', i' ≤ A.length → j' ≤ B.length → tbl lcs i' j' = filled A B opts i k i' j'

/-- The index lists `is` (into `A`) and `js` (into `B`) are a common subsequence of the
first `i` lines of `A` and the first `j` lines of `B`: they have the same length, both
are strictly increasing, and the lines they pair compare equal under the policy. -/
@[reducible]
def CommonSubseq (A B : List Line) (opts : Options) (i j : Nat)
    (is js : List Nat) : Prop :=
  is.length = js.length ∧ is.Pairwise (· < ·) ∧ js.Pairwise (· < ·) ∧
    (∀ p ∈ is, p < i) ∧ (∀ q ∈ js, q < j) ∧
    ∀ pq ∈ is.zip js, compare_lines (line_at A pq.1) (line_at B pq.2) opts = true

/-- The chunk built by the first branch of the loop body at cell `(i, j)`. -/
def equal_chunk (A : List Line) (i j : Nat) : DiffChunk :=
  { type := DIFF_EQUAL, file1_start := i, file1_end := i, file2_start := j, file2_end := j,
    lines1 := [line_at A (i - 1)], line_count1 := 1, lines2 := [], line_count2 := 0 }

/-- The chunk built by the second branch of the loop body at cell `(i, j)`. -/
def insert_chunk (B : List Line) (i j : Nat) : DiffChunk :=
  { type := DIFF_INSERT, file1_start := i, file1_end := i, file2_start := j, file2_end := j,
    lines1 := [], line_count1 := 0, lines2 := [line_at B (j - 1)], line_count2 := 1 }

/-- The chunk built by the third branch of the loop body at cell `(i, j)`. -/
def delete_chunk (A : List Line) (i j : Nat) : DiffChunk :=
  { type := DIFF_DELETE, file1_start := i, file1_end := i, file2_start := j, file2_end := j,
    lines1 := [line_at A (i - 1)], line_count1 := 1, lines2 := [], line_count2 := 0 }

/-- A chunk as the loop body builds it: one line, of one of the three kinds. -/
def OneLine (c : DiffChunk) : Prop :=
  (c.type = DIFF_EQUAL ∧ c.line_count1 = 1 ∧ c.line_count2 = 0 ∧
      c.lines1.length = 1 ∧ c.lines2 = []) ∨
  (c.type = DIFF_INSERT ∧ c.line_count1 = 0 ∧ c.line_count2 = 1 ∧
      c.lines1 = [] ∧ c.lines2.length = 1) ∨
  (c.type = DIFF_DELETE ∧ c.line_count1 = 1 ∧ c.line_count2 = 0 ∧
      c.lines1.length = 1 ∧ c.lines2 = [])

/-- The one-line chunks built by the loop of `extract_diff` from cell `(i, j)` on, in the
order in which they are built (at most `fuel` of them). -/
def backtrack (A B : List Line) (lcs : List (List Nat)) (opts : Options) :
    Nat → Nat → Nat → List DiffChunk
  | 0, _, _ => []
  | fuel + 1, i, j =>
    if i > 0 ∨ j > 0 then
      match new_chunk A B lcs opts i j with
      | none => []
      | some (chunk, i', j') => chunk :: backtrack A B lcs opts fuel i' j'
    else []

/-- The table holds the recurrence values on `0..m` x `0..n`. -/
def TableOK (A B : List Line) (opts : Options) (lcs : List (List Nat)) : Prop :=
  ∀ i j, i ≤ A.length → j ≤ B.length → tbl lcs i j = lcsRec A B opts i j

/-- The number of chunks of type `t` in a list. -/
def count_type (t : DiffType) (l : List DiffChunk) : Nat :=
  l.countP (fun c => decide (c.type = t))

/-- The contribution of one chunk to the `inserts` counter. -/
def ins_of (c : DiffChunk) : Nat := if c.type = DIFF_INSERT then c.line_count2 else 0

/-- The contribution of one chunk to the `deletes` counter. -/
def del_of (c : DiffChunk) : Nat := if c.type = DIFF_DELETE then c.line_count1 else 0

/-- The contribution of one chunk to the `changes` counter. -/
def chg_of (c : DiffChunk) : Nat :=
  if c.type = DIFF_CHANGE then (c.line_count1 + c.line_count2) / 2 else 0

/-- The line arrays of a chunk hold as many lines as its counts say. -/
def ChunkOK (c : DiffChunk) : Prop :=
  c.lines1.length = c.line_count1 ∧ c.lines2.length = c.line_count2

/-- The lines stored in a chunk: the array `lines2` for an Insert chunk, the array `lines1`
for an Equal or a Delete chunk. -/
def stored_lines (c : DiffChunk) : List Line :=
  if c.type = DIFF_INSERT then c.lines2 else c.lines1

/-- The number of lines stored in the chunks of type `t` of a script. -/
def lines_of_kind (t : DiffType) (script : List DiffChunk) : Nat :=
  ((script.filter fun c => decide (c.type = t)).map fun c => (stored_lines c).length).sum

/-- The Equal chunks of the cells `(i, i)`, `(i-1, i-1)`, ..., `(1, 1)`. -/
def equal_run (A : List Line) : Nat → List DiffChunk
  | 0 => []
  | i + 1 => equal_chunk A (i + 1) (i + 1) :: equal_run A i

/-- The edit operations of the specification (its section 3), one line each, with
0-based line indices. -/
inductive EditOp where
  | Equal (a_idx b_idx : Nat)
  | Insert (b_idx : Nat)
  | Delete (a_idx : Nat)
deriving DecidableEq, Repr

/-- The list `ops`, read in file order from position `(i, j)`, consumes the lines of `A`
from `i` on and the lines of `B` from `j` on: an Equal takes one line of each, which must
compare equal under the policy, an Insert takes a line of `B`, a Delete a line of `A`,
and nothing is left at the end. -/
def consumes (A B : List Line) (opts : Options) : Nat → Nat → List EditOp → Bool
  | i, j, [] => decide (i = A.length ∧ j = B.length)
  | i, j, EditOp.Equal a b :: r =>
    decide (a = i ∧ b = j ∧ i < A.length ∧ j < B.length) &&
      compare_lines (line_at A i) (line_at B j) opts && consumes A B opts (i + 1) (j + 1) r
  | i, j, EditOp.Insert b :: r =>
    decide (b = j ∧ j < B.length) && consumes A B opts i (j + 1) r
  | i, j, EditOp.Delete a :: r =>
    decide (a = i ∧ i < A.length) && consumes A B opts (i + 1) j r

/-- The cost of an operation: 1 for an Insert or a Delete, 0 for an Equal. -/
def op_cost : EditOp → Nat
  | EditOp.Equal _ _ => 0
  | EditOp.Insert _ => 1
  | EditOp.Delete _ => 1

/-- The number of Insert and Delete operations of a list. -/
def edit_cost (ops : List EditOp) : Nat := (ops.map op_cost).sum

/-- The operation that a one-line chunk stands for: the kind of the chunk and the 0-based
indices of its line. -/
def chunk_op (c : DiffChunk) : Option EditOp :=
  match c.type with
  | DIFF_EQUAL => some (EditOp.Equal (c.file1_start - 1) (c.file2_start - 1))
  | DIFF_INSERT => some (EditOp.Insert (c.file2_start - 1))
  | DIFF_DELETE => some (EditOp.Delete (c.file1_start - 1))
  | DIFF_CHANGE => none

/-- The line that an operation carries: the line of `A` for an Equal or a Delete, the
line of `B` for an Insert. -/
def op_line (A B : List Line) : EditOp → Line
  | EditOp.Equal a _ => line_at A a
  | EditOp.Insert b => line_at B b
  | EditOp.Delete a => line_at A a

/-- The backtrack step as section 4.2 of the specification words it, with an
unconditional third case: the operation emitted at cell `(i, j)` and the next cell. -/
def spec_step (A B : List Line) (lcs : List (List Nat)) (opts : Options) (i j : Nat) :
    EditOp × Nat × Nat :=
  if i > 0 ∧ j > 0 ∧ compare_lines (line_at A (i - 1)) (line_at B (j - 1)) opts = true then
    (EditOp.Equal (i - 1) (j - 1), i - 1, j - 1)
  else if j > 0 ∧ (i = 0 ∨ tbl lcs i (j - 1) ≥ tbl lcs (i - 1) j) then
    (EditOp.Insert (j - 1), i, j - 1)
  else
    (EditOp.Delete (i - 1), i - 1, j)

/-- Replaying a script towards the second file: the stored lines of the Equal and Insert
chunks, in script order. -/
def replay_B (script : List DiffChunk) : List Line :=
  script.flatMap fun c =>
    if c.type = DIFF_EQUAL ∨ c.type = DIFF_INSERT then stored_lines c else []

/-- Replaying a script towards the first file: the stored lines of the Equal and Delete
chunks, in script order. -/
def replay_A (script : List DiffChunk) : List Line :=
  script.flatMap fun c =>
    if c.type = DIFF_EQUAL ∨ c.type = DIFF_DELETE then stored_lines c else []

/-- No chunk of the script has the type of the chunk that follows it. -/
@[reducible]
def NoAdjacentSameKind (script : List DiffChunk) : Prop :=
  ∀ p ∈ script.zip script.tail, p.1.type ≠ p.2.type

/-- The ranges `(start, end)`, taken in order, are increasing, pairwise disjoint and cover
`s .. k` exactly once: each is non-empty and starts right after the one before. -/
def tiles (k : Nat) : Nat → List (Nat × Nat) → Bool
  | s, [] => decide (s = k + 1)
  | s, r :: rs => decide (r.1 = s ∧ r.1 ≤ r.2) && tiles k (r.2 + 1) rs

/-- The file-1 ranges of the Equal and Delete chunks of a script, in script order. -/
def file1_ranges (script : List DiffChunk) : List (Nat × Nat) :=
  (script.filter fun c => c.type = DIFF_EQUAL ∨ c.type = DIFF_DELETE).map
    fun c => (c.file1_start, c.file1_end)

/-- The file-2 ranges of the Equal and Insert chunks of a script, in script order. -/
def file2_ranges (script : List DiffChunk) : List (Nat × Nat) :=
  (script.filter fun c => c.type = DIFF_EQUAL ∨ c.type = DIFF_INSERT).map
    fun c => (c.file2_start, c.file2_end)

/-- The chunk ranges of a script tile a first file of `m` lines and a second file of `n`
lines: the counts agree with the ranges, the ranges lie within the files, and the ranges
of each file, in script order, cover it exactly once. -/
@[reducible]
def TilesBothFiles (m n : Nat) (script : List DiffChunk) : Prop :=
  (∀ c ∈ script, c.type = DIFF_EQUAL ∨ c.type = DIFF_DELETE →
      c.line_count1 = c.file1_end - c.file1_start + 1 ∧ 1 ≤ c.file1_start ∧
        c.file1_start ≤ c.file1_end ∧ c.file1_end ≤ m) ∧
  (∀ c ∈ script, c.type = DIFF_INSERT →
      c.line_count2 = c.file2_end - c.file2_start + 1 ∧ 1 ≤ c.file2_start ∧
        c.file2_start ≤ c.file2_end ∧ c.file2_end ≤ n) ∧
  tiles m 1 (file1_ranges script) = true ∧ tiles n 1 (file2_ranges script) = true

/-- The number `L` is the length of a longest common subsequence of `A` and `B` under the
policy: some common subsequence has length `L` and none is longer. -/
def IsLcsLength (A B : List Line) (opts : Options) (L : Nat) : Prop :=
  (∃ is js, CommonSubseq A B opts A.length B.length is js ∧ is.length = L) ∧
    ∀ is js, CommonSubseq A B opts A.length B.length is js → is.length ≤ L

/-- The control of the loop of `extract_diff`, with a counter: started at cell `(i, j)`
having done `k` iterations, the number of iterations done and the cell reached when the
loop condition `i > 0 || j > 0` fails; `none` when the fuel runs out first or an
iteration takes no branch. -/
def loop_run (A B : List Line) (lcs : List (List Nat)) (opts : Options) :
    Nat → Nat → Nat → Nat → Option (Nat × Nat × Nat)
  | 0, k, i, j => if i > 0 ∨ j > 0 then none else some (k, i, j)
  | fuel + 1, k, i, j =>
    if i > 0 ∨ j > 0 then
      match new_chunk A B lcs opts i j with
      | none => none
      | some (_, i', j') => loop_run A B lcs opts fuel (k + 1) i' j'
    else some (k, i, j)

/-- Whitespace stripping in the words of the specification (section 4.3): all whitespace
characters are removed. -/
def strip_whitespace : Line → Line
  | [] => []
  | c :: r => if isspace c = true then strip_whitespace r else c :: strip_whitespace r

/-- Case folding in the words of the specification (section 4.3): every character is
lower-cased. -/
def case_fold : Line → Line
  | [] => []
  | c :: r => tolower c :: case_fold r

/-- The normalization of the specification (section 4.3): whitespace stripped when
`ignore_whitespace` is set, then case-folded when `ignore_case` is set. -/
def norm (opts : Options) (l : Line) : Line :=
  let stripped := if opts.ignore_whitespace = true then strip_whitespace l else l
  if opts.ignore_case = true then case_fold stripped else stripped

/-- The output of `show_stats` has the line that reports the files as identical. -/
def reports_identical (out : List StatsOut) : Prop :=
  ∃ color, StatsOut.identical color ∈ out

/-- The line of `show_brief` is the one that says "same". -/
def reports_same (b : BriefOut) : Prop := ∃ color, b = BriefOut.same color

/-- The line of `show_brief` is the one that says "different". -/
def reports_different (b : BriefOut) : Prop := ∃ color, b = BriefOut.different color

/-- The chunk holds lines of the files: an Equal or a Delete chunk holds lines of `A` in
`lines1` and nothing in `lines2`, an Insert chunk holds lines of `B` in `lines2` and
nothing in `lines1`. -/
def FromFiles (A B : List Line) (c : DiffChunk) : Prop :=
  ((c.type = DIFF_EQUAL ∨ c.type = DIFF_DELETE) ∧ (∀ l ∈ c.lines1, l ∈ A) ∧ c.lines2 = []) ∨
  (c.type = DIFF_INSERT ∧ (∀ l ∈ c.lines2, l ∈ B) ∧ c.lines1 = [])

/-- The Insert chunks of the cells `(0, j)`, `(0, j-1)`, ..., `(0, 1)`. -/
def insert_run (B : List Line) : Nat → List DiffChunk
  | 0 => []
  | j + 1 => insert_chunk B 0 (j + 1) :: insert_run B j

/-- The lines `B[j-1]`, `B[j-2]`, ..., `B[0]`. -/
def rev_lines (B : List Line) : Nat → List Line
  | 0 => []
  | j + 1 => line_at B j :: rev_lines B j

/-- The step is a hunk header line. -/
def is_hunk_header : UnifiedOut → Bool
  | UnifiedOut.hunk_header _ _ _ _ _ => true
  | _ => false

/-- The hunk header lines of an output, in order. -/
def hunk_headers (out : List UnifiedOut) : List UnifiedOut := out.filter is_hunk_header

/-- The number of maximal runs of consecutive non-Equal chunks in a list; `prev_equal`
tells that the chunk before the list, if any, is an Equal chunk, so that a non-Equal
chunk at the front starts a run. -/
def count_runs_from : Bool → List DiffChunk → Nat
  | _, [] => 0
  | prev_equal, c :: r =>
    if c.type = DIFF_EQUAL then count_runs_from true r
    else (if prev_equal = true then 1 else 0) + count_runs_from false r

/-- The number of maximal runs of consecutive non-Equal chunks of a script. -/
def count_runs (script : List DiffChunk) : Nat := count_runs_from true script

/-- The mark of a record line of the unified output; `none` for a header line. -/
def record_mark : UnifiedOut → Option Char
  | UnifiedOut.record _ mark _ => some mark
  | _ => none

/-- The records marked with `mark` in an output, in order. -/
def records_marked (mark : Char) (out : List UnifiedOut) : List UnifiedOut :=
  out.filter fun e => decide (record_mark e = some mark)

/-- A column of the side-by-side output in the words of the specification: the first
`min(length, 40)` bytes of the line, padded with spaces to the width 40. -/
def column (l : Line) : Line :=
  l.take (min l.length 40) ++ List.replicate (40 - min l.length 40) 32

/-- The blank column: 40 spaces. -/
def blank_column : Line := List.replicate 40 32

/-- The row that the specification gives to a line of a chunk of type `t`: the text in
both columns for an Equal chunk, in the left column only for a Delete chunk, in the right
column only for an Insert chunk. -/
def spec_row (t : DiffType) (l : Line) : List SideOut :=
  match t with
  | DIFF_EQUAL => [SideOut.row none (column l) (column l)]
  | DIFF_DELETE => [SideOut.row none (column l) blank_column]
  | DIFF_INSERT => [SideOut.row none blank_column (column l)]
  | DIFF_CHANGE => []

/-- One chunk for a run, in the words of the specification: the chunk `c` of the first
operation of the run put in front of the chunk `d` of the rest of the run; the lines are
in file order, the start is that of the first operation and the end that of the last. -/
def join_run (c d : DiffChunk) : DiffChunk :=
  { type := c.type, file1_start := c.file1_start, file1_end := d.file1_end,
    file2_start := c.file2_start, file2_end := d.file2_end,
    lines1 := c.lines1 ++ d.lines1, lines2 := c.lines2 ++ d.lines2,
    line_count1 := c.line_count1 + d.line_count1,
    line_count2 := c.line_count2 + d.line_count2 }

/-- The collapse of the specification (section 4.2) on one-line operations in file order:
each maximal run of consecutive same-kind operations becomes one chunk. -/
def collapse_runs : List DiffChunk → List DiffChunk
  | [] => []
  | c :: r =>
    match collapse_runs r with
    | [] => [c]
    | d :: rest => if c.type = d.type then join_run c d :: rest else c :: d :: rest

/-- The run-merge phase of the specification (section 4.2): the operations emitted by the
backtrack are reversed into file order, then collapsed. -/
def spec_run_merge (ops : List DiffChunk) : List DiffChunk := collapse_runs ops.reverse

/-- The contribution of one chunk to the number of Equal lines. -/
def eq_of (c : DiffChunk) : Nat := if c.type = DIFF_EQUAL then c.line_count1 else 0

/-! ## The table: reads, writes, shape, and the loop invariant of `compute_lcs` -/

theorem getD_set_nat (l : List Nat) (i j v : Nat) (h : i < l.length) :
    (l.set i v).getD j 0 = if j = i then v else l.getD j 0 := by
  rw [List.getD_eq_getElem?_getD, List.getD_eq_getElem?_getD, List.getElem?_set]
  by_cases hij : i = j
  · subst hij; simp [h]
  · have hji : ¬ j = i := fun e => hij e.symm
    simp [hij, hji]

theorem getD_set_row (l : List (List Nat)) (i j : Nat) (r : List Nat) (h : i < l.length) :
    (l.set i r).getD j [] = if j = i then r else l.getD j [] := by
  rw [List.getD_eq_getElem?_getD, List.getD_eq_getElem?_getD, List.getElem?_set]
  by_cases hij : i = j
  · subst hij; simp [h]
  · have hji : ¬ j = i := fun e => hij e.symm
    simp [hij, hji]

theorem tbl_set_shape {lcs : List (List Nat)} {m n : Nat} (h : Shape lcs m n) (i j v : Nat)
    (hi : i ≤ m) : Shape (tbl_set lcs i j v) m n := by
  obtain ⟨hl, hr⟩ := h
  refine ⟨by simp [tbl_set, hl], fun k hk => ?_⟩
  unfold tbl_set
  rw [getD_set_row _ _ _ _ (by omega)]
  by_cases hki : k = i
  · rw [if_pos hki, List.length_set]; exact hr i hi
  · rw [if_neg hki]; exact hr k hk

theorem tbl_tbl_set {lcs : List (List Nat)} {m n : Nat} (h : Shape lcs m n) (i j v : Nat)
    (hi : i ≤ m) (hj : j ≤ n) (i' j' : Nat) :
    tbl (tbl_set lcs i j v) i' j' = if i' = i ∧ j' = j then v else tbl lcs i' j' := by
  obtain ⟨hl, hr⟩ := h
  unfold tbl tbl_set
  rw [getD_set_row _ _ _ _ (by omega)]
  by_cases hki : i' = i
  · subst hki
    simp only [if_true, true_and]
    rw [getD_set_nat _ _ _ _ (by rw [hr i' hi]; omega)]
  · simp [hki]

theorem shape_replicate (m n : Nat) :
    Shape (List.replicate (m + 1) (List.replicate (n + 1) 0)) m n := by
  refine ⟨by simp, fun i hi => ?_⟩
  rw [List.getD_eq_getElem?_getD, List.getElem?_replicate]
  simp [Nat.lt_succ_of_le hi]

theorem tbl_replicate (m n i j : Nat) :
    tbl (List.replicate (m + 1) (List.replicate (n + 1) 0)) i j = 0 := by
  unfold tbl
  rw [List.getD_eq_getElem?_getD, List.getD_eq_getElem?_getD, List.getElem?_replicate]
  by_cases hi : i < m + 1
  · simp only [hi, if_true, Option.getD_some, List.getElem?_replicate]
    by_cases hj : j < n + 1 <;> simp [hj]
  · simp [hi]

theorem lcsRec_zero_right (A B : List Line) (opts : Options) (i : Nat) :
    lcsRec A B opts i 0 = 0 := by
  cases i <;> simp [lcsRec]

theorem lcs_cell_inv (A B : List Line) (opts : Options) (lcs : List (List Nat)) (i k : Nat)
    (hi : i + 1 ≤ A.length) (hk : k + 1 ≤ B.length) (h : LcsInv A B opts lcs (i + 1) k) :
    LcsInv A B opts (lcs_cell A B opts (i + 1) lcs (k + 1)) (i + 1) (k + 1) := by
  obtain ⟨hs, hv⟩ := h
  have h1 : tbl lcs i k = lcsRec A B opts i k := by
    rw [hv i k (by omega) (by omega)]; simp [filled]
  have h2 : tbl lcs i (k + 1) = lcsRec A B opts i (k + 1) := by
    rw [hv i (k + 1) (by omega) (by omega)]; simp [filled]
  have h3 : tbl lcs (i + 1) k = lcsRec A B opts (i + 1) k := by
    rw [hv (i + 1) k (by omega) (by omega)]; simp [filled]
  have key : ∀ v, v = lcsRec A B opts (i + 1) (k + 1) →
      LcsInv A B opts (tbl_set lcs (i + 1) (k + 1) v) (i + 1) (k + 1) := by
    intro v hvv
    refine ⟨tbl_set_shape hs _ _ _ hi, fun i' j' hi' hj' => ?_⟩
    rw [tbl_tbl_set hs _ _ _ hi hk, hv i' j' hi' hj']
    unfold filled
    by_cases hc : i' = i + 1 ∧ j' = k + 1
    · obtain ⟨rfl, rfl⟩ := hc
      simp [hvv]
    · rw [if_neg hc]
      by_cases hlt : i' < i + 1
      · simp [hlt]
      · by_cases he : i' = i + 1
        · subst he
          have : j' ≠ k + 1 := fun e => hc ⟨rfl, e⟩
          have e1 : (j' ≤ k) = (j' ≤ k + 1) := by
            apply propext; constructor <;> intro <;> omega
          simp [e1]
        · simp [hlt, he]
  unfold lcs_cell
  simp only [Nat.add_sub_cancel]
  by_cases hc : compare_lines (line_at A i) (line_at B k) opts = true
  · rw [if_pos hc]
    apply key
    rw [lcsRec, if_pos hc, h1]
  · rw [if_neg hc]
    apply key
    rw [lcsRec, if_neg hc, h2, h3]
    split_ifs with hgt
    · omega
    · omega

theorem lcs_row_inv (A B : List Line) (opts : Options) (lcs : List (List Nat)) (i : Nat)
    (hi : i + 1 ≤ A.length) (h : LcsInv A B opts lcs (i + 1) 0) (k : Nat)
    (hk : k ≤ B.length) :
    LcsInv A B opts ((List.range' 1 k).foldl (lcs_cell A B opts (i + 1)) lcs) (i + 1) k := by
  induction k with
  | zero => simpa using h
  | succ k ih =>
    rw [List.range'_concat, List.foldl_append]
    simp only [Nat.one_mul, List.foldl_cons, List.foldl_nil]
    rw [Nat.add_comm 1 k]
    exact lcs_cell_inv A B opts _ i k hi hk (ih (by omega))

theorem lcs_inv_next_row (A B : List Line) (opts : Options) (lcs : List (List Nat)) (i : Nat)
    (h : LcsInv A B opts lcs i B.length) : LcsInv A B opts lcs (i + 1) 0 := by
  obtain ⟨hs, hv⟩ := h
  refine ⟨hs, fun i' j' hi' hj' => ?_⟩
  rw [hv i' j' hi' hj']
  unfold filled
  by_cases h1 : i' < i
  · have : i' < i + 1 := by omega
    simp [h1, this]
  · by_cases h2 : i' = i
    · subst h2; simp [hj']
    · by_cases h3 : i' = i + 1
      · subst h3
        by_cases h4 : j' = 0
        · subst h4; simp [lcsRec_zero_right]
        · simp [h4]
      · have : ¬ i' < i + 1 := by omega
        simp [h1, h2, h3, this]

theorem lcs_rows_inv (A B : List Line) (opts : Options) (r : Nat) (hr : r ≤ A.length) :
    LcsInv A B opts ((List.range' 1 r).foldl (lcs_row A B opts)
      (List.replicate (A.length + 1) (List.replicate (B.length + 1) 0))) r B.length := by
  induction r with
  | zero =>
    refine ⟨shape_replicate _ _, fun i' j' _ hj' => ?_⟩
    show tbl (List.replicate (A.length + 1) (List.replicate (B.length + 1) 0)) i' j' = _
    rw [tbl_replicate]
    unfold filled
    by_cases h : i' = 0
    · subst h; simp [lcsRec]
    · simp [h]
  | succ r ih =>
    rw [List.range'_concat, List.foldl_append]
    simp only [Nat.one_mul, List.foldl_cons, List.foldl_nil]
    rw [Nat.add_comm 1 r]
    exact lcs_row_inv A B opts _ r hr (lcs_inv_next_row A B opts _ r (ih (by omega))) _
      (Nat.le_refl _)

/-- The table built by `compute_lcs` has the shape `(m+1) x (n+1)`. -/
theorem compute_lcs_shape (A B : List Line) (opts : Options) :
    Shape (compute_lcs A B opts) A.length B.length :=
  (lcs_rows_inv A B opts A.length (Nat.le_refl _)).1

/-- Every cell of the table built by `compute_lcs` holds the value of the recurrence. -/
theorem tbl_compute_lcs (A B : List Line) (opts : Options) (i j : Nat) (hi : i ≤ A.length)
    (hj : j ≤ B.length) : tbl (compute_lcs A B opts) i j = lcsRec A B opts i j := by
  unfold compute_lcs
  rw [(lcs_rows_inv A B opts A.length (Nat.le_refl _)).2 i j hi hj]
  unfold filled
  by_cases h : i < A.length
  · simp [h]
  · have : i = A.length := by omega
    simp [this, hj]

/-! ## The recurrence and common subsequences -/

theorem compare_lines_comm (a b : Line) (opts : Options) :
    compare_lines a b opts = compare_lines b a opts := by
  unfold compare_lines
  split_ifs
  · exact decide_eq_decide.mpr eq_comm
  · exact decide_eq_decide.mpr eq_comm

theorem compare_lines_refl (a : Line) (opts : Options) : compare_lines a a opts = true := by
  unfold compare_lines
  split_ifs <;> simp

theorem lcsRec_zero_left (A B : List Line) (opts : Options) (j : Nat) :
    lcsRec A B opts 0 j = 0 := by
  simp [lcsRec]

theorem lcsRec_succ (A B : List Line) (opts : Options) (i j : Nat) :
    lcsRec A B opts (i + 1) (j + 1) =
      if compare_lines (line_at A i) (line_at B j) opts = true then lcsRec A B opts i j + 1
      else max (lcsRec A B opts i (j + 1)) (lcsRec A B opts (i + 1) j) := by
  rw [lcsRec]

theorem lcsRec_symm (A B : List Line) (opts : Options) (i j : Nat) :
    lcsRec A B opts i j = lcsRec B A opts j i := by
  induction i generalizing j with
  | zero => rw [lcsRec_zero_left, lcsRec_zero_right]
  | succ i ih =>
    induction j with
    | zero => rw [lcsRec_zero_left, lcsRec_zero_right]
    | succ j ihj =>
      rw [lcsRec_succ, lcsRec_succ, compare_lines_comm (line_at B j), ih j, ih (j + 1), ihj,
        Nat.max_comm]

theorem lcsRec_mono_left_of_step (A B : List Line) (opts : Options) (i : Nat)
    (hS : ∀ j, lcsRec A B opts i (j + 1) ≤ lcsRec A B opts i j + 1) (j : Nat) :
    lcsRec A B opts i j ≤ lcsRec A B opts (i + 1) j := by
  cases j with
  | zero => rw [lcsRec_zero_right]; exact Nat.zero_le _
  | succ j =>
    rw [lcsRec_succ]
    split_ifs
    · exact hS j
    · exact Nat.le_max_left _ _

theorem lcsRec_step_right (A B : List Line) (opts : Options) (i j : Nat) :
    lcsRec A B opts i (j + 1) ≤ lcsRec A B opts i j + 1 := by
  induction i generalizing j with
  | zero => rw [lcsRec_zero_left]; exact Nat.zero_le _
  | succ i ih =>
    have hM := lcsRec_mono_left_of_step A B opts i ih
    rw [lcsRec_succ]
    split_ifs
    · exact Nat.succ_le_succ (hM j)
    · refine Nat.max_le.mpr ⟨?_, Nat.le_succ _⟩
      exact Nat.le_trans (ih j) (Nat.succ_le_succ (hM j))

theorem lcsRec_step_left (A B : List Line) (opts : Options) (i j : Nat) :
    lcsRec A B opts (i + 1) j ≤ lcsRec A B opts i j + 1 := by
  rw [lcsRec_symm A B opts (i + 1) j, lcsRec_symm A B opts i j]
  exact lcsRec_step_right B A opts j i

theorem lcsRec_mono_left (A B : List Line) (opts : Options) (i j : Nat) :
    lcsRec A B opts i j ≤ lcsRec A B opts (i + 1) j :=
  lcsRec_mono_left_of_step A B opts i (lcsRec_step_right A B opts i) j

theorem lcsRec_mono_right (A B : List Line) (opts : Options) (i j : Nat) :
    lcsRec A B opts i j ≤ lcsRec A B opts i (j + 1) := by
  rw [lcsRec_symm A B opts i j, lcsRec_symm A B opts i (j + 1)]
  exact lcsRec_mono_left B A opts j i

theorem lcsRec_le_left (A B : List Line) (opts : Options) (i j : Nat) :
    lcsRec A B opts i j ≤ i := by
  induction i with
  | zero => rw [lcsRec_zero_left]
  | succ i ih => exact Nat.le_trans (lcsRec_step_left A B opts i j) (Nat.succ_le_succ ih)

theorem lcsRec_le_right (A B : List Line) (opts : Options) (i j : Nat) :
    lcsRec A B opts i j ≤ j := by
  rw [lcsRec_symm]; exact lcsRec_le_left B A opts j i

theorem CommonSubseq.nil (A B : List Line) (opts : Options) (i j : Nat) :
    CommonSubseq A B opts i j [] [] := by
  simp [CommonSubseq]

theorem CommonSubseq.weaken {A B : List Line} {opts : Options} {i j i' j' : Nat}
    {is js : List Nat} (h : CommonSubseq A B opts i j is js) (hi : i ≤ i') (hj : j ≤ j') :
    CommonSubseq A B opts i' j' is js := by
  obtain ⟨h1, h2, h3, h4, h5, h6⟩ := h
  exact ⟨h1, h2, h3, fun p hp => Nat.lt_of_lt_of_le (h4 p hp) hi,
    fun q hq => Nat.lt_of_lt_of_le (h5 q hq) hj, h6⟩

theorem CommonSubseq.snoc {A B : List Line} {opts : Options} {i j : Nat}
    {is js : List Nat} (h : CommonSubseq A B opts i j is js)
    (hc : compare_lines (line_at A i) (line_at B j) opts = true) :
    CommonSubseq A B opts (i + 1) (j + 1) (is ++ [i]) (js ++ [j]) := by
  obtain ⟨h1, h2, h3, h4, h5, h6⟩ := h
  refine ⟨by simp [h1], ?_, ?_, ?_, ?_, ?_⟩
  · rw [List.pairwise_append]
    exact ⟨h2, List.pairwise_singleton _ _, fun a ha b hb => by
      rw [List.mem_singleton] at hb; subst hb; exact h4 a ha⟩
  · rw [List.pairwise_append]
    exact ⟨h3, List.pairwise_singleton _ _, fun a ha b hb => by
      rw [List.mem_singleton] at hb; subst hb; exact h5 a ha⟩
  · intro p hp
    rw [List.mem_append, List.mem_singleton] at hp
    rcases hp with hp | hp
    · exact Nat.lt_succ_of_lt (h4 p hp)
    · subst hp; exact Nat.lt_succ_self _
  · intro q hq
    rw [List.mem_append, List.mem_singleton] at hq
    rcases hq with hq | hq
    · exact Nat.lt_succ_of_lt (h5 q hq)
    · subst hq; exact Nat.lt_succ_self _
  · intro pq hpq
    rw [List.zip_append h1, List.mem_append] at hpq
    rcases hpq with hpq | hpq
    · exact h6 pq hpq
    · simp only [List.zip_cons_cons, List.zip_nil_right, List.mem_singleton] at hpq
      subst hpq; exact hc

/-- The recurrence value is reached by a common subsequence. -/
theorem lcsRec_attained (A B : List Line) (opts : Options) (i j : Nat) :
    ∃ is js, CommonSubseq A B opts i j is js ∧ is.length = lcsRec A B opts i j := by
  induction i generalizing j with
  | zero => exact ⟨[], [], CommonSubseq.nil _ _ _ _ _, by rw [lcsRec_zero_left]; rfl⟩
  | succ i ih =>
    induction j with
    | zero => exact ⟨[], [], CommonSubseq.nil _ _ _ _ _, by rw [lcsRec_zero_right]; rfl⟩
    | succ j ihj =>
      rw [lcsRec_succ]
      by_cases hc : compare_lines (line_at A i) (line_at B j) opts = true
      · obtain ⟨is, js, hcs, hlen⟩ := ih j
        exact ⟨is ++ [i], js ++ [j], hcs.snoc hc, by rw [if_pos hc]; simp [hlen]⟩
      · rw [if_neg hc]
        by_cases hm : lcsRec A B opts (i + 1) j ≤ lcsRec A B opts i (j + 1)
        · obtain ⟨is, js, hcs, hlen⟩ := ih (j + 1)
          exact ⟨is, js, hcs.weaken (Nat.le_succ _) (Nat.le_refl _), by
            rw [hlen, Nat.max_eq_left hm]⟩
        · obtain ⟨is, js, hcs, hlen⟩ := ihj
          exact ⟨is, js, hcs.weaken (Nat.le_refl _) (Nat.le_succ _), by
            rw [hlen, Nat.max_eq_right (Nat.le_of_not_le hm)]⟩

/-- No common subsequence is longer than the recurrence value. -/
theorem lcsRec_bound (A B : List Line) (opts : Options) (i j : Nat) (is js : List Nat)
    (h : CommonSubseq A B opts i j is js) : is.length ≤ lcsRec A B opts i j := by
  induction i generalizing j is js with
  | zero =>
    obtain ⟨_, _, _, h4, _, _⟩ := h
    cases is with
    | nil => exact Nat.zero_le _
    | cons p _ => exact absurd (h4 p (List.mem_cons_self _ _)) (Nat.not_lt_zero _)
  | succ i ih =>
    induction j generalizing is js with
    | zero =>
      obtain ⟨h1, _, _, _, h5, _⟩ := h
      cases js with
      | nil => rw [h1]; exact Nat.zero_le _
      | cons q _ => exact absurd (h5 q (List.mem_cons_self _ _)) (Nat.not_lt_zero _)
    | succ j ihj =>
      rcases List.eq_nil_or_concat is with rfl | ⟨is', p, hisEq⟩
      · exact Nat.zero_le _
      rcases List.eq_nil_or_concat js with rfl | ⟨js', q, hjsEq⟩
      · have := h.1; simp [hisEq] at this
      rw [List.concat_eq_append] at hisEq hjsEq
      subst hisEq hjsEq
      obtain ⟨h1, h2, h3, h4, h5, h6⟩ := h
      have hlen : is'.length = js'.length := by simpa using h1
      rw [List.pairwise_append] at h2 h3
      have hp : p < i + 1 := h4 p (by simp)
      have hq : q < j + 1 := h5 q (by simp)
      have hpre : ∀ a ∈ is', a < p := fun a ha => h2.2.2 a ha p (List.mem_singleton_self _)
      have hpre' : ∀ b ∈ js', b < q := fun b hb => h3.2.2 b hb q (List.mem_singleton_self _)
      by_cases hpi : p < i
      · have hcs : CommonSubseq A B opts i (j + 1) (is' ++ [p]) (js' ++ [q]) := by
          refine ⟨h1, List.pairwise_append.mpr h2, List.pairwise_append.mpr h3, ?_, h5, h6⟩
          intro a ha
          rw [List.mem_append, List.mem_singleton] at ha
          rcases ha with ha | ha
          · exact Nat.lt_trans (hpre a ha) hpi
          · subst ha; exact hpi
        exact Nat.le_trans (ih _ _ _ hcs) (lcsRec_mono_left A B opts i (j + 1))
      by_cases hqj : q < j
      · have hcs : CommonSubseq A B opts (i + 1) j (is' ++ [p]) (js' ++ [q]) := by
          refine ⟨h1, List.pairwise_append.mpr h2, List.pairwise_append.mpr h3, h4, ?_, h6⟩
          intro b hb
          rw [List.mem_append, List.mem_singleton] at hb
          rcases hb with hb | hb
          · exact Nat.lt_trans (hpre' b hb) hqj
          · subst hb; exact hqj
        exact Nat.le_trans (ihj _ _ hcs) (lcsRec_mono_right A B opts (i + 1) j)
      have hpe : p = i := by omega
      have hqe : q = j := by omega
      subst hpe hqe
      have hc : compare_lines (line_at A p) (line_at B q) opts = true := by
        apply h6 (p, q)
        rw [List.zip_append hlen]
        simp
      have hcs : CommonSubseq A B opts p q is' js' := by
        refine ⟨hlen, h2.1, h3.1, hpre, hpre', fun pq hpq => h6 pq ?_⟩
        rw [List.zip_append hlen]
        exact List.mem_append_left _ hpq
      rw [lcsRec_succ, if_pos hc, List.length_append]
      exact Nat.succ_le_succ (ih _ _ _ hcs)

/-! ## The backtrack of `extract_diff` -/

/-- In a cell other than `(0, 0)` one of the three branches is taken: the third
condition of the source holds whenever the first two fail. -/
theorem new_chunk_eq (A B : List Line) (lcs : List (List Nat)) (opts : Options) (i j : Nat)
    (h : i > 0 ∨ j > 0) :
    new_chunk A B lcs opts i j =
      if i > 0 ∧ j > 0 ∧ compare_lines (line_at A (i - 1)) (line_at B (j - 1)) opts = true then
        some (equal_chunk A i j, i - 1, j - 1)
      else if j > 0 ∧ (i = 0 ∨ tbl lcs i (j - 1) ≥ tbl lcs (i - 1) j) then
        some (insert_chunk B i j, i, j - 1)
      else some (delete_chunk A i j, i - 1, j) := by
  unfold new_chunk equal_chunk insert_chunk delete_chunk
  by_cases h1 : i > 0 ∧ j > 0 ∧ compare_lines (line_at A (i - 1)) (line_at B (j - 1)) opts = true
  · rw [if_pos h1, if_pos h1]
  · rw [if_neg h1, if_neg h1]
    by_cases h2 : j > 0 ∧ (i = 0 ∨ tbl lcs i (j - 1) ≥ tbl lcs (i - 1) j)
    · rw [if_pos h2, if_pos h2]
    · rw [if_neg h2, if_neg h2]
      have h3 : i > 0 ∧ (j = 0 ∨ tbl lcs i (j - 1) < tbl lcs (i - 1) j) := by
        by_cases hj : j = 0
        · exact ⟨by omega, Or.inl hj⟩
        · have hj' : j > 0 := Nat.pos_of_ne_zero hj
          have hi : ¬ i = 0 := fun e => h2 ⟨hj', Or.inl e⟩
          refine ⟨Nat.pos_of_ne_zero hi, Or.inr ?_⟩
          exact Nat.lt_of_not_le fun hle => h2 ⟨hj', Or.inr hle⟩
      rw [if_pos h3]

theorem new_chunk_some (A B : List Line) (lcs : List (List Nat)) (opts : Options) (i j : Nat)
    (h : i > 0 ∨ j > 0) :
    ∃ c i' j', new_chunk A B lcs opts i j = some (c, i', j') ∧ i' + j' < i + j ∧
      i' ≤ i ∧ j' ≤ j ∧ OneLine c := by
  rw [new_chunk_eq A B lcs opts i j h]
  split_ifs with h1 h2
  · exact ⟨_, _, _, rfl, by omega, by omega, by omega, Or.inl ⟨rfl, rfl, rfl, rfl, rfl⟩⟩
  · exact ⟨_, _, _, rfl, by omega, by omega, by omega,
      Or.inr (Or.inl ⟨rfl, rfl, rfl, rfl, rfl⟩)⟩
  · have hi : i > 0 := by
      by_contra hi
      have hi0 : i = 0 := by omega
      exact h2 ⟨by omega, Or.inl hi0⟩
    exact ⟨_, _, _, rfl, by omega, by omega, by omega,
      Or.inr (Or.inr ⟨rfl, rfl, rfl, rfl, rfl⟩)⟩

/-- With fuel `i + j` or more the loop ends, and its result is the list obtained by
adding the chunks of the backtrack one by one. -/
theorem extract_loop_eq (A B : List Line) (lcs : List (List Nat)) (opts : Options)
    (fuel i j : Nat) (s : ChunkList) (h : i + j ≤ fuel) :
    extract_loop A B lcs opts fuel i j s =
      some (head_list ((backtrack A B lcs opts fuel i j).foldl add_chunk s)) := by
  induction fuel generalizing i j s with
  | zero =>
    have hi : ¬ (i > 0 ∨ j > 0) := by omega
    simp [extract_loop, backtrack, hi]
  | succ fuel ih =>
    by_cases hpos : i > 0 ∨ j > 0
    · obtain ⟨c, i', j', hc, hlt, _, _, _⟩ := new_chunk_some A B lcs opts i j hpos
      simp only [extract_loop, backtrack, if_pos hpos, hc, List.foldl_cons]
      exact ih i' j' _ (by omega)
    · simp [extract_loop, backtrack, hpos]

theorem backtrack_oneLine (A B : List Line) (lcs : List (List Nat)) (opts : Options)
    (fuel i j : Nat) : ∀ c ∈ backtrack A B lcs opts fuel i j, OneLine c := by
  induction fuel generalizing i j with
  | zero => intro c hc; simp [backtrack] at hc
  | succ fuel ih =>
    intro c hc
    by_cases hpos : i > 0 ∨ j > 0
    · obtain ⟨c', i', j', hc', _, _, _, h1⟩ := new_chunk_some A B lcs opts i j hpos
      simp only [backtrack, if_pos hpos, hc', List.mem_cons] at hc
      rcases hc with rfl | hc
      · exact h1
      · exact ih i' j' c hc
    · simp [backtrack, hpos] at hc

theorem compute_lcs_ok (A B : List Line) (opts : Options) :
    TableOK A B opts (compute_lcs A B opts) :=
  fun i j hi hj => tbl_compute_lcs A B opts i j hi hj

theorem count_type_cons (t : DiffType) (c : DiffChunk) (l : List DiffChunk) :
    count_type t (c :: l) = count_type t l + if c.type = t then 1 else 0 := by
  unfold count_type
  rw [List.countP_cons]
  simp

/-- On a table that holds the recurrence, the backtrack from cell `(i, j)` builds
`lcs[i][j]` Equal chunks, `j - lcs[i][j]` Insert chunks and `i - lcs[i][j]` Delete
chunks. -/
theorem backtrack_counts (A B : List Line) (lcs : List (List Nat)) (opts : Options)
    (hT : TableOK A B opts lcs) (fuel i j : Nat) (hi : i ≤ A.length) (hj : j ≤ B.length)
    (hf : i + j ≤ fuel) :
    count_type DIFF_EQUAL (backtrack A B lcs opts fuel i j) = lcsRec A B opts i j ∧
    count_type DIFF_EQUAL (backtrack A B lcs opts fuel i j) +
      count_type DIFF_INSERT (backtrack A B lcs opts fuel i j) = j ∧
    count_type DIFF_EQUAL (backtrack A B lcs opts fuel i j) +
      count_type DIFF_DELETE (backtrack A B lcs opts fuel i j) = i ∧
    count_type DIFF_CHANGE (backtrack A B lcs opts fuel i j) = 0 := by
  induction fuel generalizing i j with
  | zero =>
    have hi0 : i = 0 := by omega
    have hj0 : j = 0 := by omega
    subst hi0 hj0
    simp [backtrack, count_type, lcsRec]
  | succ fuel ih =>
    by_cases hpos : i > 0 ∨ j > 0
    · have hnc := new_chunk_eq A B lcs opts i j hpos
      by_cases h1 : i > 0 ∧ j > 0 ∧
          compare_lines (line_at A (i - 1)) (line_at B (j - 1)) opts = true
      · rw [if_pos h1] at hnc
        obtain ⟨hi1, hj1, hc⟩ := h1
        obtain ⟨e1, e2, e3, e4⟩ := ih (i - 1) (j - 1) (by omega) (by omega) (by omega)
        obtain ⟨i0, rfl⟩ : ∃ i0, i = i0 + 1 := ⟨i - 1, by omega⟩
        obtain ⟨j0, rfl⟩ : ∃ j0, j = j0 + 1 := ⟨j - 1, by omega⟩
        simp only [Nat.add_sub_cancel] at hnc e1 e2 e3 e4 hc
        simp only [backtrack, if_pos hpos, hnc, count_type_cons]
        rw [lcsRec_succ, if_pos hc]
        simp [equal_chunk]
        omega
      · rw [if_neg h1] at hnc
        by_cases h2 : j > 0 ∧ (i = 0 ∨ tbl lcs i (j - 1) ≥ tbl lcs (i - 1) j)
        · rw [if_pos h2] at hnc
          obtain ⟨hj1, h2'⟩ := h2
          obtain ⟨e1, e2, e3, e4⟩ := ih i (j - 1) hi (by omega) (by omega)
          obtain ⟨j0, rfl⟩ : ∃ j0, j = j0 + 1 := ⟨j - 1, by omega⟩
          simp only [Nat.add_sub_cancel] at hnc e1 e2 e3 e4 h1 h2'
          simp only [backtrack, if_pos hpos, hnc, count_type_cons]
          have hval : lcsRec A B opts i (j0 + 1) = lcsRec A B opts i j0 := by
            cases i with
            | zero => rw [lcsRec_zero_left, lcsRec_zero_left]
            | succ i0 =>
              simp only [Nat.add_sub_cancel] at h1 h2'
              have hc : ¬ compare_lines (line_at A i0) (line_at B j0) opts = true :=
                fun hc => h1 ⟨Nat.succ_pos _, Nat.succ_pos _, hc⟩
              rw [lcsRec_succ, if_neg hc]
              rcases h2' with h0 | hge
              · exact absurd h0 (Nat.succ_ne_zero _)
              · rw [hT (i0 + 1) j0 hi (by omega), hT i0 (j0 + 1) (by omega) hj] at hge
                exact Nat.max_eq_right hge
          rw [hval]
          simp [insert_chunk]
          omega
        · rw [if_neg h2] at hnc
          have hi1 : i > 0 := by
            by_contra hi0
            exact h2 ⟨by omega, Or.inl (by omega)⟩
          obtain ⟨e1, e2, e3, e4⟩ := ih (i - 1) j (by omega) hj (by omega)
          obtain ⟨i0, rfl⟩ : ∃ i0, i = i0 + 1 := ⟨i - 1, by omega⟩
          simp only [Nat.add_sub_cancel] at hnc e1 e2 e3 e4 h1 h2
          simp only [backtrack, if_pos hpos, hnc, count_type_cons]
          have hval : lcsRec A B opts (i0 + 1) j = lcsRec A B opts i0 j := by
            cases j with
            | zero => rw [lcsRec_zero_right, lcsRec_zero_right]
            | succ j0 =>
              simp only [Nat.add_sub_cancel] at h1 h2
              have hc : ¬ compare_lines (line_at A i0) (line_at B j0) opts = true :=
                fun hc => h1 ⟨Nat.succ_pos _, Nat.succ_pos _, hc⟩
              rw [lcsRec_succ, if_neg hc]
              have hlt : tbl lcs (i0 + 1) j0 < tbl lcs i0 (j0 + 1) :=
                Nat.lt_of_not_le fun hle => h2 ⟨Nat.succ_pos _, Or.inr hle⟩
              rw [hT (i0 + 1) j0 hi (by omega), hT i0 (j0 + 1) (by omega) hj] at hlt
              exact Nat.max_eq_left (Nat.le_of_lt hlt)
          rw [hval]
          simp [delete_chunk]
          omega
    · have hi0 : i = 0 := by omega
      have hj0 : j = 0 := by omega
      subst hi0 hj0
      simp [backtrack, count_type, lcsRec]

/-! ## Counters of a list built by `add_chunk` -/

theorem stats_step_eq (st : Stats) (c : DiffChunk) :
    stats_step st c = { inserts := st.inserts + ins_of c, deletes := st.deletes + del_of c,
                        changes := st.changes + chg_of c } := by
  unfold stats_step ins_of del_of chg_of
  cases hc : c.type <;> simp

theorem foldl_stats_step (st : Stats) (l : List DiffChunk) :
    l.foldl stats_step st =
      { inserts := st.inserts + (l.map ins_of).sum, deletes := st.deletes + (l.map del_of).sum,
        changes := st.changes + (l.map chg_of).sum } := by
  induction l generalizing st with
  | nil => simp
  | cons c l ih =>
    rw [List.foldl_cons, ih, stats_step_eq]
    simp [Nat.add_assoc]

theorem compute_stats_eq (l : List DiffChunk) :
    compute_stats l = { inserts := (l.map ins_of).sum, deletes := (l.map del_of).sum,
                        changes := (l.map chg_of).sum } := by
  unfold compute_stats
  rw [foldl_stats_step]
  simp

theorem merge_chunk_type (t c : DiffChunk) : (merge_chunk t c).type = t.type := by
  unfold merge_chunk
  split_ifs <;> rfl

theorem OneLine.kind {c : DiffChunk} (hc : OneLine c) :
    c.type = DIFF_EQUAL ∨ c.type = DIFF_INSERT ∨ c.type = DIFF_DELETE := by
  rcases hc with h | h | h
  · exact Or.inl h.1
  · exact Or.inr (Or.inl h.1)
  · exact Or.inr (Or.inr h.1)

theorem add_chunk_merge (front : List DiffChunk) (t c : DiffChunk) (hc : OneLine c)
    (ht : t.type = c.type) : add_chunk (some (front, t)) c = some (front, merge_chunk t c) := by
  unfold add_chunk
  exact if_pos ⟨ht, hc.kind⟩

theorem add_chunk_link (front : List DiffChunk) (t c : DiffChunk) (ht : ¬ t.type = c.type) :
    add_chunk (some (front, t)) c = some (c :: front, t) := by
  unfold add_chunk
  exact if_neg fun h => ht h.1

theorem sum_head_list (f : DiffChunk → Nat) (front : List DiffChunk) (t : DiffChunk) :
    ((head_list (some (front, t))).map f).sum = (front.map f).sum + f t := by
  simp [head_list]

theorem ins_of_oneLine {c : DiffChunk} (hc : OneLine c) :
    ins_of c = if c.type = DIFF_INSERT then 1 else 0 := by
  unfold ins_of
  rcases hc with h | h | h
  · simp [h.1]
  · simp [h.1, h.2.2.1]
  · simp [h.1]

theorem del_of_oneLine {c : DiffChunk} (hc : OneLine c) :
    del_of c = if c.type = DIFF_DELETE then 1 else 0 := by
  unfold del_of
  rcases hc with h | h | h
  · simp [h.1]
  · simp [h.1]
  · simp [h.1, h.2.1]

theorem chg_of_oneLine {c : DiffChunk} (hc : OneLine c) : chg_of c = 0 := by
  unfold chg_of
  rcases hc with h | h | h <;> simp [h.1]

theorem ins_of_merge (t c : DiffChunk) (hc : OneLine c) (ht : t.type = c.type) :
    ins_of (merge_chunk t c) = ins_of t + ins_of c := by
  rw [ins_of_oneLine hc]
  unfold ins_of
  rw [merge_chunk_type]
  unfold merge_chunk
  rcases hc with h | h | h <;> simp [h.1, ht]

theorem del_of_merge (t c : DiffChunk) (hc : OneLine c) (ht : t.type = c.type) :
    del_of (merge_chunk t c) = del_of t + del_of c := by
  rw [del_of_oneLine hc]
  unfold del_of
  rw [merge_chunk_type]
  unfold merge_chunk
  rcases hc with h | h | h <;> simp [h.1, ht]

theorem chg_of_merge (t c : DiffChunk) (hc : OneLine c) (ht : t.type = c.type) :
    chg_of (merge_chunk t c) = chg_of t := by
  unfold chg_of
  rw [merge_chunk_type]
  rcases hc with h | h | h <;> simp [h.1, ht]

theorem add_chunk_sum (f : DiffChunk → Nat) (s : ChunkList) (c : DiffChunk) (hc : OneLine c)
    (hf : ∀ t, t.type = c.type → f (merge_chunk t c) = f t + f c) :
    ((head_list (add_chunk s c)).map f).sum = ((head_list s).map f).sum + f c := by
  rcases s with _ | ⟨front, t⟩
  · simp [add_chunk, head_list]
  · by_cases ht : t.type = c.type
    · rw [add_chunk_merge front t c hc ht, sum_head_list, sum_head_list, hf t ht, Nat.add_assoc]
    · rw [add_chunk_link front t c ht, sum_head_list, sum_head_list, List.map_cons,
        List.sum_cons]
      omega

theorem add_chunk_ins (s : ChunkList) (c : DiffChunk) (hc : OneLine c) :
    ((head_list (add_chunk s c)).map ins_of).sum =
      ((head_list s).map ins_of).sum + if c.type = DIFF_INSERT then 1 else 0 := by
  rw [add_chunk_sum ins_of s c hc (fun t ht => ins_of_merge t c hc ht), ins_of_oneLine hc]

theorem add_chunk_del (s : ChunkList) (c : DiffChunk) (hc : OneLine c) :
    ((head_list (add_chunk s c)).map del_of).sum =
      ((head_list s).map del_of).sum + if c.type = DIFF_DELETE then 1 else 0 := by
  rw [add_chunk_sum del_of s c hc (fun t ht => del_of_merge t c hc ht), del_of_oneLine hc]

theorem add_chunk_chg (s : ChunkList) (c : DiffChunk) (hc : OneLine c) :
    ((head_list (add_chunk s c)).map chg_of).sum = ((head_list s).map chg_of).sum := by
  rw [add_chunk_sum chg_of s c hc (fun t ht => by
    rw [chg_of_merge t c hc ht, chg_of_oneLine hc, Nat.add_zero]), chg_of_oneLine hc,
    Nat.add_zero]

/-- Adding one-line chunks one by one adds, to each counter, the number of chunks of its
kind. -/
theorem foldl_add_chunk_stats (ops : List DiffChunk) (s : ChunkList)
    (h : ∀ c ∈ ops, OneLine c) :
    ((head_list (ops.foldl add_chunk s)).map ins_of).sum =
        ((head_list s).map ins_of).sum + count_type DIFF_INSERT ops ∧
    ((head_list (ops.foldl add_chunk s)).map del_of).sum =
        ((head_list s).map del_of).sum + count_type DIFF_DELETE ops ∧
    ((head_list (ops.foldl add_chunk s)).map chg_of).sum = ((head_list s).map chg_of).sum := by
  induction ops generalizing s with
  | nil => simp [count_type]
  | cons c ops ih =>
    have hc : OneLine c := h c (List.mem_cons_self _ _)
    obtain ⟨e1, e2, e3⟩ := ih (add_chunk s c) (fun d hd => h d (List.mem_cons_of_mem _ hd))
    rw [List.foldl_cons, e1, e2, e3, add_chunk_ins s c hc, add_chunk_del s c hc,
      add_chunk_chg s c hc, count_type_cons, count_type_cons]
    refine ⟨by omega, by omega, rfl⟩

/-- The function `extract_diff` returns a script on every input and every table. -/
theorem extract_diff_total (A B : List Line) (lcs : List (List Nat)) (opts : Options) :
    extract_diff A B lcs opts = some (head_list
      ((backtrack A B lcs opts (A.length + B.length) A.length B.length).foldl add_chunk none)) :=
  extract_loop_eq A B lcs opts _ _ _ none (Nat.le_refl _)

/-- The counters of the script of `(A, B)`: with `L = lcs[m][n]`, `inserts = n - L`,
`deletes = m - L` and `changes = 0`. -/
theorem diff_script_stats (A B : List Line) (opts : Options) :
    ∃ script, diff_script A B opts = some script ∧
      lcsRec A B opts A.length B.length + (compute_stats script).inserts = B.length ∧
      lcsRec A B opts A.length B.length + (compute_stats script).deletes = A.length ∧
      (compute_stats script).changes = 0 := by
  refine ⟨_, extract_diff_total A B _ opts, ?_⟩
  obtain ⟨c1, c2, c3, -⟩ := backtrack_counts A B _ opts (compute_lcs_ok A B opts)
    (A.length + B.length) A.length B.length (Nat.le_refl _) (Nat.le_refl _) (Nat.le_refl _)
  obtain ⟨e1, e2, e3⟩ := foldl_add_chunk_stats _ none
    (backtrack_oneLine A B (compute_lcs A B opts) opts (A.length + B.length) A.length B.length)
  have h0 : ∀ f : DiffChunk → Nat, ((head_list none).map f).sum = 0 := fun f => rfl
  simp only [h0, Nat.zero_add] at e1 e2 e3
  rw [compute_stats_eq]
  show _ + List.sum _ = _ ∧ _ + List.sum _ = _ ∧ List.sum _ = 0
  rw [e1, e2, e3, ← c1]
  exact ⟨c2, c3, rfl⟩

/-! ## Stored lines against line counts -/

theorem OneLine.ok {c : DiffChunk} (hc : OneLine c) : ChunkOK c := by
  rcases hc with h | h | h
  · exact ⟨by rw [h.2.2.2.1, h.2.1], by rw [h.2.2.2.2, h.2.2.1]; rfl⟩
  · exact ⟨by rw [h.2.2.2.1, h.2.1]; rfl, by rw [h.2.2.2.2, h.2.2.1]⟩
  · exact ⟨by rw [h.2.2.2.1, h.2.1], by rw [h.2.2.2.2, h.2.2.1]; rfl⟩

theorem merge_chunk_ok (t c : DiffChunk) (ht : ChunkOK t) : ChunkOK (merge_chunk t c) := by
  obtain ⟨h1, h2⟩ := ht
  unfold merge_chunk ChunkOK
  split_ifs
  · exact ⟨by simp [h1], h2⟩
  · exact ⟨h1, by simp [h2]⟩
  · exact ⟨by simp [h1], h2⟩
  · exact ⟨h1, h2⟩

theorem add_chunk_ok (s : ChunkList) (c : DiffChunk) (hc : OneLine c)
    (hs : ∀ d ∈ head_list s, ChunkOK d) : ∀ d ∈ head_list (add_chunk s c), ChunkOK d := by
  rcases s with _ | ⟨front, t⟩
  · intro d hd
    simp only [add_chunk, head_list, List.nil_append, List.mem_singleton] at hd
    subst hd; exact hc.ok
  · have hfront : ∀ d ∈ front, ChunkOK d := fun d hd =>
      hs d (by simp only [head_list, List.mem_append]; exact Or.inl hd)
    have ht : ChunkOK t := hs t (by simp [head_list])
    by_cases hty : t.type = c.type
    · rw [add_chunk_merge front t c hc hty]
      intro d hd
      simp only [head_list, List.mem_append, List.mem_singleton] at hd
      rcases hd with hd | rfl
      · exact hfront d hd
      · exact merge_chunk_ok t c ht
    · rw [add_chunk_link front t c hty]
      intro d hd
      simp only [head_list, List.mem_append, List.mem_singleton, List.mem_cons,
        List.not_mem_nil, or_false] at hd
      rcases hd with (rfl | hd) | rfl
      · exact hc.ok
      · exact hfront d hd
      · exact ht

theorem foldl_add_chunk_ok (ops : List DiffChunk) (s : ChunkList)
    (h : ∀ c ∈ ops, OneLine c) (hs : ∀ d ∈ head_list s, ChunkOK d) :
    ∀ d ∈ head_list (ops.foldl add_chunk s), ChunkOK d := by
  induction ops generalizing s with
  | nil => exact hs
  | cons c ops ih =>
    rw [List.foldl_cons]
    exact ih (add_chunk s c) (fun d hd => h d (List.mem_cons_of_mem _ hd))
      (add_chunk_ok s c (h c (List.mem_cons_self _ _)) hs)

theorem lines_of_kind_insert (l : List DiffChunk) (h : ∀ c ∈ l, ChunkOK c) :
    lines_of_kind DIFF_INSERT l = (l.map ins_of).sum := by
  induction l with
  | nil => rfl
  | cons c l ih =>
    have hl := ih fun d hd => h d (List.mem_cons_of_mem _ hd)
    have hc := h c (List.mem_cons_self _ _)
    unfold lines_of_kind at hl ⊢
    by_cases ht : c.type = DIFF_INSERT
    · simp only [List.filter_cons, ht, decide_True, if_true, List.map_cons, List.sum_cons, hl]
      simp [stored_lines, ins_of, ht, hc.2]
    · simp only [List.filter_cons, ht, decide_False, List.map_cons, List.sum_cons, hl]
      simp [ins_of, ht, hl]

theorem lines_of_kind_delete (l : List DiffChunk) (h : ∀ c ∈ l, ChunkOK c) :
    lines_of_kind DIFF_DELETE l = (l.map del_of).sum := by
  induction l with
  | nil => rfl
  | cons c l ih =>
    have hl := ih fun d hd => h d (List.mem_cons_of_mem _ hd)
    have hc := h c (List.mem_cons_self _ _)
    unfold lines_of_kind at hl ⊢
    by_cases ht : c.type = DIFF_DELETE
    · simp only [List.filter_cons, ht, decide_True, if_true, List.map_cons, List.sum_cons, hl]
      simp [stored_lines, del_of, ht, hc.1]
    · simp only [List.filter_cons, ht, decide_False, List.map_cons, List.sum_cons, hl]
      simp [del_of, ht, hl]

/-- The script of `(A, B)`: it exists, its counts agree with its line arrays, and with
`L = lcs[m][n]` it stores `n - L` Insert lines and `m - L` Delete lines. -/
theorem diff_script_lines (A B : List Line) (opts : Options) :
    ∃ script, diff_script A B opts = some script ∧ (∀ c ∈ script, ChunkOK c) ∧
      lcsRec A B opts A.length B.length + lines_of_kind DIFF_INSERT script = B.length ∧
      lcsRec A B opts A.length B.length + lines_of_kind DIFF_DELETE script = A.length := by
  obtain ⟨script, e, a1, a2, -⟩ := diff_script_stats A B opts
  have e' := extract_diff_total A B (compute_lcs A B opts) opts
  have hs : script = _ := Option.some.inj (e.symm.trans e')
  have hok : ∀ c ∈ script, ChunkOK c := by
    rw [hs]
    exact foldl_add_chunk_ok _ none
      (backtrack_oneLine A B (compute_lcs A B opts) opts _ _ _) (fun d hd => by
        simp [head_list] at hd)
  rw [compute_stats_eq] at a1 a2
  exact ⟨script, e, hok, by rw [lines_of_kind_insert script hok]; exact a1,
    by rw [lines_of_kind_delete script hok]; exact a2⟩

/-! ## A file against itself; edit scripts -/

theorem backtrack_self (A : List Line) (lcs : List (List Nat)) (opts : Options)
    (fuel i : Nat) (h : i + i ≤ fuel) :
    backtrack A A lcs opts fuel i i = equal_run A i := by
  induction fuel generalizing i with
  | zero =>
    have hi : i = 0 := by omega
    subst hi; rfl
  | succ fuel ih =>
    cases i with
    | zero => simp [backtrack, equal_run]
    | succ i =>
      have hpos : i + 1 > 0 ∨ i + 1 > 0 := Or.inl (Nat.succ_pos _)
      have hnc := new_chunk_eq A A lcs opts (i + 1) (i + 1) hpos
      rw [if_pos ⟨Nat.succ_pos _, Nat.succ_pos _, compare_lines_refl _ _⟩] at hnc
      simp only [backtrack, if_pos hpos, hnc, equal_run, Nat.add_sub_cancel]
      rw [ih i (by omega)]

theorem foldl_equal_run (A : List Line) (i : Nat) (front : List DiffChunk) (t : DiffChunk)
    (ht : t.type = DIFF_EQUAL) :
    ∃ t', (equal_run A i).foldl add_chunk (some (front, t)) = some (front, t') ∧
      t'.type = DIFF_EQUAL ∧ t'.file1_end = t.file1_end ∧
      t'.file1_start = (if i = 0 then t.file1_start else 1) ∧
      t'.line_count1 = t.line_count1 + i := by
  induction i generalizing t with
  | zero => exact ⟨t, rfl, ht, rfl, rfl, rfl⟩
  | succ i ih =>
    have hone : OneLine (equal_chunk A (i + 1) (i + 1)) := Or.inl ⟨rfl, rfl, rfl, rfl, rfl⟩
    have hm := add_chunk_merge front t (equal_chunk A (i + 1) (i + 1)) hone ht
    obtain ⟨t', e, h1, h2, h3, h4⟩ := ih (merge_chunk t (equal_chunk A (i + 1) (i + 1)))
      (by rw [merge_chunk_type]; exact ht)
    refine ⟨t', ?_, h1, ?_, ?_, ?_⟩
    · rw [equal_run, List.foldl_cons, hm, e]
    · rw [h2]; simp [merge_chunk, equal_chunk]
    · rw [h3]
      by_cases hi : i = 0
      · subst hi; simp [merge_chunk, equal_chunk]
      · simp [hi]
    · rw [h4]; simp [merge_chunk, equal_chunk]; omega

/-- The Equal operations of a list that consumes both files pair up a common subsequence,
and the cost of the list is what the pairs leave over. -/
theorem consumes_common (A B : List Line) (opts : Options) (ops : List EditOp) (i j : Nat)
    (h : consumes A B opts i j ops = true) :
    ∃ is js : List Nat, is.length = js.length ∧ is.Pairwise (· < ·) ∧ js.Pairwise (· < ·) ∧
      (∀ p ∈ is, i ≤ p ∧ p < A.length) ∧ (∀ q ∈ js, j ≤ q ∧ q < B.length) ∧
      (∀ pq ∈ is.zip js, compare_lines (line_at A pq.1) (line_at B pq.2) opts = true) ∧
      i + j + 2 * is.length + edit_cost ops = A.length + B.length := by
  induction ops generalizing i j with
  | nil =>
    simp only [consumes, decide_eq_true_eq] at h
    exact ⟨[], [], rfl, List.Pairwise.nil, List.Pairwise.nil, by simp, by simp, by simp,
      by simp [edit_cost]; omega⟩
  | cons op r ih =>
    cases op with
    | Equal a b =>
      simp only [consumes, Bool.and_eq_true, decide_eq_true_eq] at h
      obtain ⟨⟨⟨-, -, hi, hj⟩, hc⟩, hr⟩ := h
      obtain ⟨is, js, h1, h2, h3, h4, h5, h6, h7⟩ := ih (i + 1) (j + 1) hr
      refine ⟨i :: is, j :: js, by simp [h1], ?_, ?_, ?_, ?_, ?_, ?_⟩
      · exact List.pairwise_cons.mpr ⟨fun p hp => (h4 p hp).1, h2⟩
      · exact List.pairwise_cons.mpr ⟨fun q hq => (h5 q hq).1, h3⟩
      · intro p hp
        rcases List.mem_cons.mp hp with rfl | hp
        · exact ⟨Nat.le_refl _, hi⟩
        · exact ⟨Nat.le_of_succ_le (h4 p hp).1, (h4 p hp).2⟩
      · intro q hq
        rcases List.mem_cons.mp hq with rfl | hq
        · exact ⟨Nat.le_refl _, hj⟩
        · exact ⟨Nat.le_of_succ_le (h5 q hq).1, (h5 q hq).2⟩
      · intro pq hpq
        rw [List.zip_cons_cons] at hpq
        rcases List.mem_cons.mp hpq with rfl | hpq
        · exact hc
        · exact h6 pq hpq
      · simp only [edit_cost, List.map_cons, List.sum_cons, op_cost, List.length_cons] at h7 ⊢
        omega
    | Insert b =>
      simp only [consumes, Bool.and_eq_true, decide_eq_true_eq] at h
      obtain ⟨⟨-, hj⟩, hr⟩ := h
      obtain ⟨is, js, h1, h2, h3, h4, h5, h6, h7⟩ := ih i (j + 1) hr
      refine ⟨is, js, h1, h2, h3, h4, fun q hq => ⟨Nat.le_of_succ_le (h5 q hq).1, (h5 q hq).2⟩,
        h6, ?_⟩
      simp only [edit_cost, List.map_cons, List.sum_cons, op_cost] at h7 ⊢
      omega
    | Delete a =>
      simp only [consumes, Bool.and_eq_true, decide_eq_true_eq] at h
      obtain ⟨⟨-, hi⟩, hr⟩ := h
      obtain ⟨is, js, h1, h2, h3, h4, h5, h6, h7⟩ := ih (i + 1) j hr
      refine ⟨is, js, h1, h2, h3, fun p hp => ⟨Nat.le_of_succ_le (h4 p hp).1, (h4 p hp).2⟩,
        h5, h6, ?_⟩
      simp only [edit_cost, List.map_cons, List.sum_cons, op_cost] at h7 ⊢
      omega

/-- A list of operations that consumes both files costs at least `m + n - 2 * lcs[m][n]`. -/
theorem consumes_cost (A B : List Line) (opts : Options) (ops : List EditOp)
    (h : consumes A B opts 0 0 ops = true) :
    A.length + B.length ≤ edit_cost ops + 2 * lcsRec A B opts A.length B.length := by
  obtain ⟨is, js, h1, h2, h3, h4, h5, h6, h7⟩ := consumes_common A B opts ops 0 0 h
  have hb := lcsRec_bound A B opts A.length B.length is js
    ⟨h1, h2, h3, fun p hp => (h4 p hp).2, fun q hq => (h5 q hq).2, h6⟩
  omega

/-- The predicates used for the script properties hold on the file-order script that the
specification names for `A = ["x", "y", "z"]`, `B = ["x", "z"]`: Equal `x`, Delete `y`,
Equal `z`. -/
theorem file_order_script_is_well_formed :
    TilesBothFiles 3 2 [equal_chunk [str "x", str "y", str "z"] 1 1,
      delete_chunk [str "x", str "y", str "z"] 2 1,
      equal_chunk [str "x", str "y", str "z"] 3 2] ∧
    NoAdjacentSameKind [equal_chunk [str "x", str "y", str "z"] 1 1,
      delete_chunk [str "x", str "y", str "z"] 2 1,
      equal_chunk [str "x", str "y", str "z"] 3 2] ∧
    replay_A [equal_chunk [str "x", str "y", str "z"] 1 1,
      delete_chunk [str "x", str "y", str "z"] 2 1,
      equal_chunk [str "x", str "y", str "z"] 3 2] = [str "x", str "y", str "z"] ∧
    replay_B [equal_chunk [str "x", str "y", str "z"] 1 1,
      delete_chunk [str "x", str "y", str "z"] 2 1,
      equal_chunk [str "x", str "y", str "z"] 3 2] = [str "x", str "z"] := by
  decide

/-! ## Properties of the differencing engine -/

/-- C1 (code defect). Round trip to B fails: for `A = B = ["a", "b"]` under the default
policy both backtrack steps are merged into the node `tail`, which stores the lines in
the order of the backtrack; the script is one Equal chunk holding `"b", "a"`, and
replaying it gives `["b", "a"]`, which is not `B`. -/
theorem replay_B_gives_reversed_lines :
    diff_script [str "a", str "b"] [str "a", str "b"] (init_options false) =
      some [{ type := DIFF_EQUAL, file1_start := 1, file1_end := 2, file2_start := 1,
              file2_end := 2, lines1 := [str "b", str "a"], lines2 := [], line_count1 := 2,
              line_count2 := 0 }] ∧
    replay_B [{ type := DIFF_EQUAL, file1_start := 1, file1_end := 2, file2_start := 1,
                file2_end := 2, lines1 := [str "b", str "a"], lines2 := [], line_count1 := 2,
                line_count2 := 0 }] = [str "b", str "a"] ∧
    [str "b", str "a"] ≠ [str "a", str "b"] := by
  decide

/-- C2 (code defect). Round trip to A fails: for `A = ["x", "y", "z"]`, `B = ["x", "z"]`
under the default policy the script is the Delete chunk of `"y"` followed by one Equal
chunk holding `"z", "x"`; replaying it gives `["y", "z", "x"]`, which is not `A`. -/
theorem replay_A_gives_scrambled_lines :
    diff_script [str "x", str "y", str "z"] [str "x", str "z"] (init_options false) =
      some [{ type := DIFF_DELETE, file1_start := 2, file1_end := 2, file2_start := 1,
              file2_end := 1, lines1 := [str "y"], lines2 := [], line_count1 := 1,
              line_count2 := 0 },
            { type := DIFF_EQUAL, file1_start := 1, file1_end := 3, file2_start := 1,
              file2_end := 2, lines1 := [str "z", str "x"], lines2 := [], line_count1 := 2,
              line_count2 := 0 }] ∧
    replay_A [{ type := DIFF_DELETE, file1_start := 2, file1_end := 2, file2_start := 1,
                file2_end := 1, lines1 := [str "y"], lines2 := [], line_count1 := 1,
                line_count2 := 0 },
              { type := DIFF_EQUAL, file1_start := 1, file1_end := 3, file2_start := 1,
                file2_end := 2, lines1 := [str "z", str "x"], lines2 := [], line_count1 := 2,
                line_count2 := 0 }] = [str "y", str "z", str "x"] ∧
    [str "y", str "z", str "x"] ≠ [str "x", str "y", str "z"] := by
  decide

/-- C3 (code defect). Adjacent chunks of the same kind are left unmerged: for `A = ["x"]`,
`B = ["a", "b", "x"]` under the default policy the script is Insert `"a"`, Insert `"b"`,
Equal `"x"`; the two Insert chunks are consecutive, because the merge test looks at the
node `tail` (the Equal chunk) and not at the chunk added last. -/
theorem adjacent_inserts_not_merged :
    diff_script [str "x"] [str "a", str "b", str "x"] (init_options false) =
      some [insert_chunk [str "a", str "b", str "x"] 0 1,
            insert_chunk [str "a", str "b", str "x"] 0 2,
            equal_chunk [str "x"] 1 3] ∧
    ¬ NoAdjacentSameKind [insert_chunk [str "a", str "b", str "x"] 0 1,
            insert_chunk [str "a", str "b", str "x"] 0 2,
            equal_chunk [str "x"] 1 3] := by
  decide

/-- C4 (counterexample). For the empty line sequence the script of `(A, A)` has no chunk at
all, so it is not a single Equal chunk. -/
theorem self_diff_of_empty_has_no_chunk :
    diff_script [] [] (init_options false) = some [] ∧
    ¬ ∃ c : DiffChunk, diff_script [] [] (init_options false) = some [c] := by
  refine ⟨by decide, ?_⟩
  rintro ⟨c, hc⟩
  have h0 : diff_script [] [] (init_options false) = some [] := by decide
  rw [h0] at hc
  simp at hc

/-- C4 (amended). Idempotence for a non-empty file: for every non-empty line sequence `A`
and every policy, the script of `(A, A)` is exactly one chunk, of type `DIFF_EQUAL`, with
`file1_start = 1` and `file1_end = line_count1 =` the number of lines of `A`, and
`compute_stats` gives `inserts = 0` and `deletes = 0` on it. -/
theorem self_diff_single_equal_chunk (A : List Line) (opts : Options) (hA : A ≠ []) :
    ∃ c : DiffChunk, diff_script A A opts = some [c] ∧ c.type = DIFF_EQUAL ∧
      c.file1_start = 1 ∧ c.file1_end = A.length ∧ c.line_count1 = A.length ∧
      (compute_stats [c]).inserts = 0 ∧ (compute_stats [c]).deletes = 0 := by
  obtain ⟨m, hm⟩ : ∃ m, A.length = m + 1 :=
    ⟨A.length - 1, by have := List.length_pos.mpr hA; omega⟩
  have hbt := backtrack_self A (compute_lcs A A opts) opts (A.length + A.length) A.length
    (Nat.le_refl _)
  have htot := extract_diff_total A A (compute_lcs A A opts) opts
  rw [hbt, hm, equal_run, List.foldl_cons] at htot
  obtain ⟨t', e, h1, h2, h3, h4⟩ := foldl_equal_run A m [] (equal_chunk A (m + 1) (m + 1)) rfl
  have hadd : add_chunk none (equal_chunk A (m + 1) (m + 1)) =
      some ([], equal_chunk A (m + 1) (m + 1)) := rfl
  rw [hadd, e] at htot
  refine ⟨t', htot, h1, ?_, ?_, ?_, ?_, ?_⟩
  · rw [h3]; by_cases h0 : m = 0
    · subst h0; rfl
    · rw [if_neg h0]
  · rw [h2, hm]; rfl
  · rw [h4, hm]; simp [equal_chunk]; omega
  · rw [compute_stats_eq]; simp [ins_of, h1]
  · rw [compute_stats_eq]; simp [del_of, h1]

/-- C4 (amended), at the two-line file `["a", "b"]`. -/
theorem self_diff_single_equal_chunk_witness :
    ([str "a", str "b"] : List Line) ≠ [] ∧
    ∃ c : DiffChunk, diff_script [str "a", str "b"] [str "a", str "b"] (init_options false) =
        some [c] ∧ c.type = DIFF_EQUAL ∧
      c.file1_start = 1 ∧ c.file1_end = [str "a", str "b"].length ∧
      c.line_count1 = [str "a", str "b"].length ∧
      (compute_stats [c]).inserts = 0 ∧ (compute_stats [c]).deletes = 0 :=
  ⟨by decide, self_diff_single_equal_chunk [str "a", str "b"] (init_options false) (by decide)⟩

/-- C5. Symmetry: for every `A`, `B` and policy, both scripts exist, and the `inserts` and
`deletes` counters that `compute_stats` gives on the script of `(B, A)` are the `deletes`
and `inserts` counters it gives on the script of `(A, B)`. -/
theorem stats_swap_on_swapped_files (A B : List Line) (opts : Options) :
    ∃ s1 s2, diff_script A B opts = some s1 ∧ diff_script B A opts = some s2 ∧
      (compute_stats s2).inserts = (compute_stats s1).deletes ∧
      (compute_stats s2).deletes = (compute_stats s1).inserts := by
  obtain ⟨s1, e1, a1, a2, -⟩ := diff_script_stats A B opts
  obtain ⟨s2, e2, b1, b2, -⟩ := diff_script_stats B A opts
  rw [lcsRec_symm B A opts] at b1 b2
  exact ⟨s1, s2, e1, e2, by omega, by omega⟩

/-- C6. The table of `compute_lcs`: it has `m + 1` rows of `n + 1` entries, column 0 and
row 0 hold 0, every other cell `(i, j)` holds `table[i-1][j-1] + 1` when the lines
`A[i-1]` and `B[j-1]` compare equal and `max(table[i-1][j], table[i][j-1])` otherwise, and
when `m = 0` or `n = 0` every entry is 0. -/
theorem compute_lcs_table (A B : List Line) (opts : Options) :
    (compute_lcs A B opts).length = A.length + 1 ∧
    (∀ row ∈ compute_lcs A B opts, row.length = B.length + 1) ∧
    (∀ i, i ≤ A.length → tbl (compute_lcs A B opts) i 0 = 0) ∧
    (∀ j, j ≤ B.length → tbl (compute_lcs A B opts) 0 j = 0) ∧
    (∀ i j, 1 ≤ i → i ≤ A.length → 1 ≤ j → j ≤ B.length →
      tbl (compute_lcs A B opts) i j =
        if compare_lines (line_at A (i - 1)) (line_at B (j - 1)) opts = true then
          tbl (compute_lcs A B opts) (i - 1) (j - 1) + 1
        else
          max (tbl (compute_lcs A B opts) (i - 1) j) (tbl (compute_lcs A B opts) i (j - 1))) ∧
    (A.length = 0 ∨ B.length = 0 →
      ∀ i j, i ≤ A.length → j ≤ B.length → tbl (compute_lcs A B opts) i j = 0) := by
  have hs := compute_lcs_shape A B opts
  have hT := tbl_compute_lcs A B opts
  refine ⟨hs.1, ?_, ?_, ?_, ?_, ?_⟩
  · intro row hrow
    obtain ⟨i, hi, rfl⟩ := List.getElem_of_mem hrow
    have := hs.2 i (by have := hs.1; omega)
    rwa [List.getD_eq_getElem _ _ hi] at this
  · intro i hi
    rw [hT i 0 hi (Nat.zero_le _), lcsRec_zero_right]
  · intro j hj
    rw [hT 0 j (Nat.zero_le _) hj, lcsRec_zero_left]
  · intro i j hi1 hi hj1 hj
    obtain ⟨i0, rfl⟩ : ∃ i0, i = i0 + 1 := ⟨i - 1, by omega⟩
    obtain ⟨j0, rfl⟩ : ∃ j0, j = j0 + 1 := ⟨j - 1, by omega⟩
    simp only [Nat.add_sub_cancel]
    rw [hT _ _ hi hj, hT i0 j0 (by omega) (by omega), hT i0 (j0 + 1) (by omega) hj,
      hT (i0 + 1) j0 hi (by omega), lcsRec_succ]
  · intro h i j hi hj
    rw [hT i j hi hj]
    rcases h with h | h
    · have : i = 0 := by omega
      subst this; exact lcsRec_zero_left _ _ _ _
    · have : j = 0 := by omega
      subst this; exact lcsRec_zero_right _ _ _ _

/-- C7. LCS optimality: for every `i <= m` and `j <= n` the entry `table[i][j]` of
`compute_lcs` is the largest length of a common subsequence of the first `i` lines of `A`
and the first `j` lines of `B`: one of that length exists and none is longer. -/
theorem compute_lcs_optimal (A B : List Line) (opts : Options) (i j : Nat)
    (hi : i ≤ A.length) (hj : j ≤ B.length) :
    (∃ is js, CommonSubseq A B opts i j is js ∧
      is.length = tbl (compute_lcs A B opts) i j) ∧
    ∀ is js, CommonSubseq A B opts i j is js →
      is.length ≤ tbl (compute_lcs A B opts) i j := by
  rw [tbl_compute_lcs A B opts i j hi hj]
  exact ⟨lcsRec_attained A B opts i j, lcsRec_bound A B opts i j⟩

/-- C7, at `A = ["a", "b"]`, `B = ["b", "a"]` and the cell `(2, 2)`. -/
theorem compute_lcs_optimal_witness :
    (2 ≤ [str "a", str "b"].length ∧ 2 ≤ [str "b", str "a"].length) ∧
    ((∃ is js, CommonSubseq [str "a", str "b"] [str "b", str "a"] (init_options false) 2 2
        is js ∧
      is.length =
        tbl (compute_lcs [str "a", str "b"] [str "b", str "a"] (init_options false)) 2 2) ∧
    ∀ is js, CommonSubseq [str "a", str "b"] [str "b", str "a"] (init_options false) 2 2
        is js →
      is.length ≤
        tbl (compute_lcs [str "a", str "b"] [str "b", str "a"] (init_options false)) 2 2) :=
  ⟨by decide, compute_lcs_optimal [str "a", str "b"] [str "b", str "a"] (init_options false)
    2 2 (by decide) (by decide)⟩

/-- C8. Minimal edit script: the script of `(A, B)` exists; with `L = table[m][n]`, which is
the length of a longest common subsequence of `A` and `B` under the policy, the number of
lines stored in its Insert chunks plus the number stored in its Delete chunks is
`m + n - 2 * L` (and `2 * L <= m + n`); and every list of edit operations that consumes
`A` and `B` in order has at least that many Insert and Delete operations. -/
theorem extract_diff_minimal (A B : List Line) (opts : Options) :
    ∃ script, diff_script A B opts = some script ∧
      IsLcsLength A B opts (tbl (compute_lcs A B opts) A.length B.length) ∧
      lines_of_kind DIFF_INSERT script + lines_of_kind DIFF_DELETE script =
        A.length + B.length - 2 * tbl (compute_lcs A B opts) A.length B.length ∧
      2 * tbl (compute_lcs A B opts) A.length B.length ≤ A.length + B.length ∧
      ∀ ops, consumes A B opts 0 0 ops = true →
        lines_of_kind DIFF_INSERT script + lines_of_kind DIFF_DELETE script ≤
          edit_cost ops := by
  obtain ⟨script, e, -, a1, a2⟩ := diff_script_lines A B opts
  rw [tbl_compute_lcs A B opts _ _ (Nat.le_refl _) (Nat.le_refl _)]
  refine ⟨script, e, ⟨lcsRec_attained A B opts _ _, lcsRec_bound A B opts _ _⟩,
    by omega, by omega, fun ops hops => ?_⟩
  have := consumes_cost A B opts ops hops
  omega

/-- C9. Backtrack step and tie-break: in every cell other than `(0, 0)`, and for every
table, the loop body builds a chunk (a branch is taken: when the first two conditions
fail the third one holds); the chunk and the next cell are the operation and the next
cell of the three-case rule of the specification, whose third case is unconditional; the
chunk stores the line of that operation; and when the lines differ and
`table[i][j-1] = table[i-1][j]` the chunk is an Insert. -/
theorem backtrack_step_tie_break (A B : List Line) (lcs : List (List Nat)) (opts : Options)
    (i j : Nat) (h : i > 0 ∨ j > 0) :
    (∃ c, new_chunk A B lcs opts i j = some (c, (spec_step A B lcs opts i j).2) ∧
      chunk_op c = some (spec_step A B lcs opts i j).1 ∧
      stored_lines c = [op_line A B (spec_step A B lcs opts i j).1] ∧
      (i > 0 → j > 0 →
        compare_lines (line_at A (i - 1)) (line_at B (j - 1)) opts = false →
        tbl lcs i (j - 1) = tbl lcs (i - 1) j → c.type = DIFF_INSERT)) ∧
    (¬ (i > 0 ∧ j > 0 ∧ compare_lines (line_at A (i - 1)) (line_at B (j - 1)) opts = true) →
      ¬ (j > 0 ∧ (i = 0 ∨ tbl lcs i (j - 1) ≥ tbl lcs (i - 1) j)) →
      i > 0 ∧ (j = 0 ∨ tbl lcs i (j - 1) < tbl lcs (i - 1) j)) := by
  constructor
  · rw [new_chunk_eq A B lcs opts i j h]
    unfold spec_step
    by_cases h1 : i > 0 ∧ j > 0 ∧
        compare_lines (line_at A (i - 1)) (line_at B (j - 1)) opts = true
    · rw [if_pos h1, if_pos h1]
      refine ⟨_, rfl, rfl, rfl, fun _ _ hne _ => ?_⟩
      rw [h1.2.2] at hne
      exact absurd hne (by decide)
    · rw [if_neg h1, if_neg h1]
      by_cases h2 : j > 0 ∧ (i = 0 ∨ tbl lcs i (j - 1) ≥ tbl lcs (i - 1) j)
      · rw [if_pos h2, if_pos h2]
        exact ⟨_, rfl, rfl, rfl, fun _ _ _ _ => rfl⟩
      · rw [if_neg h2, if_neg h2]
        refine ⟨_, rfl, rfl, rfl, fun _ hj _ heq => ?_⟩
        exact absurd ⟨hj, Or.inr (Nat.le_of_eq heq.symm)⟩ h2
  · intro h1 h2
    by_cases hj : j = 0
    · exact ⟨by omega, Or.inl hj⟩
    · have hj' : j > 0 := Nat.pos_of_ne_zero hj
      have hi : ¬ i = 0 := fun e => h2 ⟨hj', Or.inl e⟩
      exact ⟨Nat.pos_of_ne_zero hi, Or.inr (Nat.lt_of_not_le fun hle => h2 ⟨hj', Or.inr hle⟩)⟩

/-- C10 (code defect). The chunk ranges do not tile the files: for `A = ["x", "y", "z"]`,
`B = ["x", "z"]` under the default policy the script is the Delete chunk of line 2
followed by an Equal chunk with `file1_start = 1`, `file1_end = 3` and `line_count1 = 2`;
the count is not `file1_end - file1_start + 1`, and the file-1 range `1..3` of the Equal
chunk comes after, and contains, the range `2..2` of the Delete chunk. -/
theorem chunk_ranges_overlap :
    diff_script [str "x", str "y", str "z"] [str "x", str "z"] (init_options false) =
      some [delete_chunk [str "x", str "y", str "z"] 2 1,
            { type := DIFF_EQUAL, file1_start := 1, file1_end := 3, file2_start := 1,
              file2_end := 2, lines1 := [str "z", str "x"], lines2 := [], line_count1 := 2,
              line_count2 := 0 }] ∧
    ¬ TilesBothFiles 3 2 [delete_chunk [str "x", str "y", str "z"] 2 1,
            { type := DIFF_EQUAL, file1_start := 1, file1_end := 3, file2_start := 1,
              file2_end := 2, lines1 := [str "z", str "x"], lines2 := [], line_count1 := 2,
              line_count2 := 0 }] ∧
    file1_ranges [delete_chunk [str "x", str "y", str "z"] 2 1,
            { type := DIFF_EQUAL, file1_start := 1, file1_end := 3, file2_start := 1,
              file2_end := 2, lines1 := [str "z", str "x"], lines2 := [], line_count1 := 2,
              line_count2 := 0 }] = [(2, 2), (1, 3)] := by
  decide

/-- C9, at the cell `(2, 2)` of `A = ["a", "b"]`, `B = ["b", "a"]`, where the lines differ
and `table[2][1] = table[1][2] = 1`: the Insert of `"a"` is emitted. -/
theorem backtrack_step_tie_break_witness :
    ((2 : Nat) > 0 ∨ (2 : Nat) > 0) ∧
    ((∃ c, new_chunk [str "a", str "b"] [str "b", str "a"]
          (compute_lcs [str "a", str "b"] [str "b", str "a"] (init_options false))
          (init_options false) 2 2 =
        some (c, (spec_step [str "a", str "b"] [str "b", str "a"]
          (compute_lcs [str "a", str "b"] [str "b", str "a"] (init_options false))
          (init_options false) 2 2).2) ∧
      chunk_op c = some (spec_step [str "a", str "b"] [str "b", str "a"]
          (compute_lcs [str "a", str "b"] [str "b", str "a"] (init_options false))
          (init_options false) 2 2).1 ∧
      stored_lines c = [op_line [str "a", str "b"] [str "b", str "a"]
        (spec_step [str "a", str "b"] [str "b", str "a"]
          (compute_lcs [str "a", str "b"] [str "b", str "a"] (init_options false))
          (init_options false) 2 2).1] ∧
      ((2 : Nat) > 0 → (2 : Nat) > 0 →
        compare_lines (line_at [str "a", str "b"] (2 - 1)) (line_at [str "b", str "a"] (2 - 1))
          (init_options false) = false →
        tbl (compute_lcs [str "a", str "b"] [str "b", str "a"] (init_options false)) 2 (2 - 1) =
          tbl (compute_lcs [str "a", str "b"] [str "b", str "a"] (init_options false)) (2 - 1) 2 →
        c.type = DIFF_INSERT)) ∧
    (¬ ((2 : Nat) > 0 ∧ (2 : Nat) > 0 ∧
        compare_lines (line_at [str "a", str "b"] (2 - 1)) (line_at [str "b", str "a"] (2 - 1))
          (init_options false) = true) →
      ¬ ((2 : Nat) > 0 ∧ ((2 : Nat) = 0 ∨
        tbl (compute_lcs [str "a", str "b"] [str "b", str "a"] (init_options false)) 2 (2 - 1) ≥
          tbl (compute_lcs [str "a", str "b"] [str "b", str "a"] (init_options false)) (2 - 1) 2)) →
      (2 : Nat) > 0 ∧ ((2 : Nat) = 0 ∨
        tbl (compute_lcs [str "a", str "b"] [str "b", str "a"] (init_options false)) 2 (2 - 1) <
          tbl (compute_lcs [str "a", str "b"] [str "b", str "a"] (init_options false)) (2 - 1) 2))) :=
  ⟨by decide, backtrack_step_tie_break [str "a", str "b"] [str "b", str "a"]
    (compute_lcs [str "a", str "b"] [str "b", str "a"] (init_options false))
    (init_options false) 2 2 (by decide)⟩

/-! ## Termination, policy, statistics and verdicts -/

theorem strip_whitespace_eq (l : Line) :
    strip_whitespace l = l.filter fun c => !isspace c := by
  induction l with
  | nil => rfl
  | cons c r ih =>
    by_cases h : isspace c = true
    · simp [strip_whitespace, h, ih]
    · simp [strip_whitespace, h, ih]

theorem case_fold_eq (l : Line) : case_fold l = l.map tolower := by
  induction l with
  | nil => rfl
  | cons c r ih => simp [case_fold, ih]

theorem preprocess_line_eq_norm (l : Line) (opts : Options) :
    preprocess_line l opts = norm opts l := by
  unfold preprocess_line norm
  cases hw : opts.ignore_whitespace <;> cases hc : opts.ignore_case <;>
    simp [strip_whitespace_eq, case_fold_eq]

theorem new_chunk_decrease (A B : List Line) (lcs : List (List Nat)) (opts : Options)
    (i j : Nat) (h : i > 0 ∨ j > 0) :
    ∃ c i' j', new_chunk A B lcs opts i j = some (c, i', j') ∧
      ((c.type = DIFF_EQUAL ∧ i' + 1 = i ∧ j' + 1 = j) ∨
       (c.type = DIFF_INSERT ∧ i' = i ∧ j' + 1 = j) ∨
       (c.type = DIFF_DELETE ∧ i' + 1 = i ∧ j' = j)) := by
  rw [new_chunk_eq A B lcs opts i j h]
  split_ifs with h1 h2
  · exact ⟨_, _, _, rfl, Or.inl ⟨rfl, by omega, by omega⟩⟩
  · exact ⟨_, _, _, rfl, Or.inr (Or.inl ⟨rfl, rfl, by omega⟩)⟩
  · have hi : i > 0 := by
      by_contra hi
      exact h2 ⟨by omega, Or.inl (by omega)⟩
    exact ⟨_, _, _, rfl, Or.inr (Or.inr ⟨rfl, by omega, rfl⟩)⟩

theorem loop_run_ends (A B : List Line) (lcs : List (List Nat)) (opts : Options)
    (fuel k i j : Nat) (h : i + j ≤ fuel) :
    ∃ k', loop_run A B lcs opts fuel k i j = some (k', 0, 0) ∧ k ≤ k' ∧ k' ≤ k + i + j := by
  induction fuel generalizing k i j with
  | zero =>
    have hi : i = 0 := by omega
    have hj : j = 0 := by omega
    subst hi hj
    exact ⟨k, by simp [loop_run], Nat.le_refl _, by omega⟩
  | succ fuel ih =>
    by_cases hpos : i > 0 ∨ j > 0
    · obtain ⟨c, i', j', hc, hlt, _, _, _⟩ := new_chunk_some A B lcs opts i j hpos
      obtain ⟨k', e, h1, h2⟩ := ih (k + 1) i' j' (by omega)
      refine ⟨k', ?_, by omega, by omega⟩
      simp only [loop_run, if_pos hpos, hc]
      exact e
    · have hi : i = 0 := by omega
      have hj : j = 0 := by omega
      subst hi hj
      exact ⟨k, by simp [loop_run], Nat.le_refl _, by omega⟩

theorem sum_ins_of (l : List DiffChunk) :
    (l.map ins_of).sum =
      ((l.filter fun c => decide (c.type = DIFF_INSERT)).map fun c => c.line_count2).sum := by
  induction l with
  | nil => rfl
  | cons c l ih =>
    by_cases h : c.type = DIFF_INSERT
    · simp [List.filter_cons, h, ins_of, ih]
    · simp [List.filter_cons, h, ins_of, ih]

theorem sum_del_of (l : List DiffChunk) :
    (l.map del_of).sum =
      ((l.filter fun c => decide (c.type = DIFF_DELETE)).map fun c => c.line_count1).sum := by
  induction l with
  | nil => rfl
  | cons c l ih =>
    by_cases h : c.type = DIFF_DELETE
    · simp [List.filter_cons, h, del_of, ih]
    · simp [List.filter_cons, h, del_of, ih]

theorem sum_filter_not_equal (f : DiffChunk → Nat) (hf : ∀ c, c.type = DIFF_EQUAL → f c = 0)
    (l : List DiffChunk) :
    ((l.filter fun c => decide (c.type ≠ DIFF_EQUAL)).map f).sum = (l.map f).sum := by
  induction l with
  | nil => rfl
  | cons c l ih =>
    simp only [ne_eq, decide_not] at ih
    by_cases h : c.type = DIFF_EQUAL
    · simp [List.filter_cons, h, hf c h, ih]
    · simp [List.filter_cons, h, ih]

/-- C11. Termination of the backtrack: for every table, in every cell other than `(0, 0)`
an iteration moves to a cell whose `i + j` is smaller by 2 (Equal) or by 1 (Insert,
Delete); started at `(m, n)` the loop ends at the cell `(0, 0)` after at most `m + n`
iterations, and `extract_diff` returns a script. -/
theorem extract_diff_terminates (A B : List Line) (lcs : List (List Nat)) (opts : Options) :
    (∀ i j, i > 0 ∨ j > 0 →
      ∃ c i' j', new_chunk A B lcs opts i j = some (c, i', j') ∧
        ((c.type = DIFF_EQUAL ∧ i' + j' + 2 = i + j) ∨
         ((c.type = DIFF_INSERT ∨ c.type = DIFF_DELETE) ∧ i' + j' + 1 = i + j))) ∧
    (∃ k, loop_run A B lcs opts (A.length + B.length) 0 A.length B.length = some (k, 0, 0) ∧
      k ≤ A.length + B.length) ∧
    ∃ script, extract_diff A B lcs opts = some script := by
  refine ⟨fun i j h => ?_, ?_, _, extract_diff_total A B lcs opts⟩
  · obtain ⟨c, i', j', e, hd⟩ := new_chunk_decrease A B lcs opts i j h
    refine ⟨c, i', j', e, ?_⟩
    rcases hd with ⟨ht, h1, h2⟩ | ⟨ht, h1, h2⟩ | ⟨ht, h1, h2⟩
    · exact Or.inl ⟨ht, by omega⟩
    · exact Or.inr ⟨Or.inl ht, by omega⟩
    · exact Or.inr ⟨Or.inr ht, by omega⟩
  · obtain ⟨k, e, -, h2⟩ := loop_run_ends A B lcs opts (A.length + B.length) 0 A.length
      B.length (Nat.le_refl _)
    exact ⟨k, e, by omega⟩

/-- C12. Comparison policy: `compare_lines` holds exactly when the two lines have the same
normal form, where the normal form strips the whitespace bytes if `ignore_whitespace` is
set and then lower-cases if `ignore_case` is set; with both flags clear it is equality of
the lines; and with `ignore_case` set `"SAME"` and `"same"` compare equal. -/
theorem compare_lines_semantics (l1 l2 : Line) (opts : Options) :
    (compare_lines l1 l2 opts = true ↔ norm opts l1 = norm opts l2) ∧
    (opts.ignore_case = false → opts.ignore_whitespace = false →
      (compare_lines l1 l2 opts = true ↔ l1 = l2)) ∧
    compare_lines (str "SAME") (str "same")
      { init_options false with ignore_case := true } = true := by
  refine ⟨?_, ?_, by decide⟩
  · unfold compare_lines
    by_cases h : (opts.ignore_whitespace || opts.ignore_case) = true
    · rw [if_pos h, preprocess_line_eq_norm, preprocess_line_eq_norm]
      exact decide_eq_true_iff
    · rw [if_neg h]
      have h' : opts.ignore_whitespace = false ∧ opts.ignore_case = false := by
        simpa using h
      simp [norm, h'.1, h'.2]
  · intro hc hw
    unfold compare_lines
    simp [hc, hw]

/-- C14. Statistics: for every chunk list `compute_stats` returns as `inserts` the sum of
`line_count2` over the `DIFF_INSERT` chunks and as `deletes` the sum of `line_count1`
over the `DIFF_DELETE` chunks; a `DIFF_EQUAL` chunk changes no counter, so the list
without its Equal chunks has the same counters. -/
theorem compute_stats_definition (diff : List DiffChunk) :
    (compute_stats diff).inserts =
      ((diff.filter fun c => decide (c.type = DIFF_INSERT)).map fun c => c.line_count2).sum ∧
    (compute_stats diff).deletes =
      ((diff.filter fun c => decide (c.type = DIFF_DELETE)).map fun c => c.line_count1).sum ∧
    (∀ st c, c.type = DIFF_EQUAL → stats_step st c = st) ∧
    compute_stats (diff.filter fun c => decide (c.type ≠ DIFF_EQUAL)) = compute_stats diff := by
  refine ⟨?_, ?_, ?_, ?_⟩
  · rw [compute_stats_eq]; exact sum_ins_of diff
  · rw [compute_stats_eq]; exact sum_del_of diff
  · intro st c hc
    simp [stats_step, hc]
  · rw [compute_stats_eq, compute_stats_eq,
      sum_filter_not_equal ins_of (fun c hc => by simp [ins_of, hc]),
      sum_filter_not_equal del_of (fun c hc => by simp [del_of, hc]),
      sum_filter_not_equal chg_of (fun c hc => by simp [chg_of, hc])]

/-- C16. Identical verdict: for every script `show_stats` prints the line that reports the
files as identical exactly when the three counters of `compute_stats` are all zero;
`show_brief` says "same" under exactly that condition and "different" otherwise; so
`show_stats` reports identical files exactly when `show_brief` says "same". -/
theorem identical_verdict (A B : List Line) (diff : List DiffChunk) (opts : Options) :
    (reports_identical (show_stats A B diff opts) ↔
      (compute_stats diff).inserts = 0 ∧ (compute_stats diff).deletes = 0 ∧
        (compute_stats diff).changes = 0) ∧
    (reports_same (show_brief diff opts) ↔
      (compute_stats diff).inserts = 0 ∧ (compute_stats diff).deletes = 0 ∧
        (compute_stats diff).changes = 0) ∧
    (reports_different (show_brief diff opts) ↔
      ¬ ((compute_stats diff).inserts = 0 ∧ (compute_stats diff).deletes = 0 ∧
        (compute_stats diff).changes = 0)) ∧
    (reports_identical (show_stats A B diff opts) ↔ reports_same (show_brief diff opts)) := by
  have hs : reports_identical (show_stats A B diff opts) ↔
      (compute_stats diff).inserts = 0 ∧ (compute_stats diff).deletes = 0 ∧
        (compute_stats diff).changes = 0 := by
    unfold reports_identical show_stats
    by_cases h : (compute_stats diff).inserts + (compute_stats diff).deletes +
        (compute_stats diff).changes = 0
    · have h3 : (compute_stats diff).inserts = 0 ∧ (compute_stats diff).deletes = 0 ∧
          (compute_stats diff).changes = 0 := by omega
      simp [h, h3]
    · have h3 : ¬ ((compute_stats diff).inserts = 0 ∧ (compute_stats diff).deletes = 0 ∧
          (compute_stats diff).changes = 0) := by omega
      simp only [h, if_false, h3, iff_false, not_exists]
      intro color hmem
      simp only [List.mem_append, List.mem_cons, List.mem_singleton, List.not_mem_nil,
        or_false] at hmem
      rcases hmem with ((h1 | h1 | h1 | h1 | h1) | (((h1 | h1) | h1) | h1)) | h1 <;>
        first
        | exact StatsOut.noConfusion h1
        | (split_ifs at h1 <;> simp at h1)
        | (rcases h1 with h1 | h1 <;> exact StatsOut.noConfusion h1)
  have hb : reports_same (show_brief diff opts) ↔
      (compute_stats diff).inserts = 0 ∧ (compute_stats diff).deletes = 0 ∧
        (compute_stats diff).changes = 0 := by
    unfold reports_same show_brief
    by_cases h : (compute_stats diff).inserts = 0 ∧ (compute_stats diff).deletes = 0 ∧
        (compute_stats diff).changes = 0
    · simp [h]
    · simp [h]
  have hd : reports_different (show_brief diff opts) ↔
      ¬ ((compute_stats diff).inserts = 0 ∧ (compute_stats diff).deletes = 0 ∧
        (compute_stats diff).changes = 0) := by
    unfold reports_different show_brief
    by_cases h : (compute_stats diff).inserts = 0 ∧ (compute_stats diff).deletes = 0 ∧
        (compute_stats diff).changes = 0
    · simp [h]
    · simp [h]
  exact ⟨hs, hb, hd, hs.trans hb.symm⟩

/-! ## What the chunks of a script hold -/

theorem line_at_mem (A : List Line) (k : Nat) (h : k < A.length) : line_at A k ∈ A := by
  unfold line_at
  rw [List.getD_eq_getElem _ _ h]
  exact List.getElem_mem h

theorem line_at_eq_getElem? (A : List Line) (k : Nat) (h : k < A.length) :
    A[k]? = some (line_at A k) := by
  unfold line_at
  rw [List.getD_eq_getElem _ _ h, List.getElem?_eq_getElem h]

theorem line_at_singleton (l : List Line) (h : l.length = 1) : l = [line_at l 0] := by
  match l, h with
  | [x], _ => rfl

theorem backtrack_fromFiles (A B : List Line) (lcs : List (List Nat)) (opts : Options)
    (fuel i j : Nat) (hi : i ≤ A.length) (hj : j ≤ B.length) :
    ∀ c ∈ backtrack A B lcs opts fuel i j, FromFiles A B c := by
  induction fuel generalizing i j with
  | zero => intro c hc; simp [backtrack] at hc
  | succ fuel ih =>
    intro c hc
    by_cases hpos : i > 0 ∨ j > 0
    · have hnc := new_chunk_eq A B lcs opts i j hpos
      by_cases h1 : i > 0 ∧ j > 0 ∧
          compare_lines (line_at A (i - 1)) (line_at B (j - 1)) opts = true
      · rw [if_pos h1] at hnc
        simp only [backtrack, if_pos hpos, hnc, List.mem_cons] at hc
        rcases hc with rfl | hc
        · refine Or.inl ⟨Or.inl rfl, fun l hl => ?_, rfl⟩
          simp only [equal_chunk, List.mem_singleton] at hl
          subst hl
          exact line_at_mem A (i - 1) (by omega)
        · exact ih (i - 1) (j - 1) (by omega) (by omega) c hc
      · rw [if_neg h1] at hnc
        by_cases h2 : j > 0 ∧ (i = 0 ∨ tbl lcs i (j - 1) ≥ tbl lcs (i - 1) j)
        · rw [if_pos h2] at hnc
          simp only [backtrack, if_pos hpos, hnc, List.mem_cons] at hc
          rcases hc with rfl | hc
          · refine Or.inr ⟨rfl, fun l hl => ?_, rfl⟩
            simp only [insert_chunk, List.mem_singleton] at hl
            subst hl
            exact line_at_mem B (j - 1) (by omega)
          · exact ih i (j - 1) hi (by omega) c hc
        · rw [if_neg h2] at hnc
          have hi1 : i > 0 := by
            by_contra hi0
            exact h2 ⟨by omega, Or.inl (by omega)⟩
          simp only [backtrack, if_pos hpos, hnc, List.mem_cons] at hc
          rcases hc with rfl | hc
          · refine Or.inl ⟨Or.inr rfl, fun l hl => ?_, rfl⟩
            simp only [delete_chunk, List.mem_singleton] at hl
            subst hl
            exact line_at_mem A (i - 1) (by omega)
          · exact ih (i - 1) j (by omega) hj c hc
    · simp [backtrack, hpos] at hc

theorem merge_chunk_fromFiles (A B : List Line) (t c : DiffChunk) (ht : FromFiles A B t)
    (hc : FromFiles A B c) (hone : OneLine c) (hty : t.type = c.type) :
    FromFiles A B (merge_chunk t c) := by
  have hmem1 : ∀ l ∈ t.lines1.take t.line_count1, l ∈ t.lines1 :=
    fun l hl => List.mem_of_mem_take hl
  have hmem2 : ∀ l ∈ t.lines2.take t.line_count2, l ∈ t.lines2 :=
    fun l hl => List.mem_of_mem_take hl
  rcases hone with h | h | h
  · -- Equal
    have hct := h.1
    rcases ht with ⟨-, ht1, ht2⟩ | ⟨hti, -⟩
    · rcases hc with ⟨-, hc1, -⟩ | ⟨hci, -⟩
      · refine Or.inl ⟨Or.inl (by rw [merge_chunk_type, hty, hct]), fun l hl => ?_, ?_⟩
        · simp only [merge_chunk, hct, if_true, List.mem_append, List.mem_singleton] at hl
          rcases hl with hl | rfl
          · exact ht1 l (hmem1 l hl)
          · exact hc1 _ (by rw [line_at_singleton c.lines1 h.2.2.2.1]; simp [line_at])
        · simp only [merge_chunk, hct, if_true]; exact ht2
      · rw [hct] at hci; exact absurd hci (by decide)
    · rw [hty, hct] at hti; exact absurd hti (by decide)
  · -- Insert
    have hct := h.1
    rcases ht with ⟨hte, -⟩ | ⟨-, ht1, ht2⟩
    · rw [hty, hct] at hte
      rcases hte with hte | hte <;> exact absurd hte (by decide)
    · rcases hc with ⟨hce, -⟩ | ⟨-, hc1, -⟩
      · rw [hct] at hce
        rcases hce with hce | hce <;> exact absurd hce (by decide)
      · refine Or.inr ⟨by rw [merge_chunk_type, hty, hct], fun l hl => ?_, ?_⟩
        · simp only [merge_chunk, hct, if_true, List.mem_append, List.mem_singleton,
            show ¬ (DIFF_INSERT = DIFF_EQUAL) by decide, if_false] at hl
          rcases hl with hl | rfl
          · exact ht1 l (hmem2 l hl)
          · exact hc1 _ (by rw [line_at_singleton c.lines2 h.2.2.2.2]; simp [line_at])
        · simp only [merge_chunk, hct, if_true,
            show ¬ (DIFF_INSERT = DIFF_EQUAL) by decide, if_false]
          exact ht2
  · -- Delete
    have hct := h.1
    rcases ht with ⟨-, ht1, ht2⟩ | ⟨hti, -⟩
    · rcases hc with ⟨-, hc1, -⟩ | ⟨hci, -⟩
      · refine Or.inl ⟨Or.inr (by rw [merge_chunk_type, hty, hct]), fun l hl => ?_, ?_⟩
        · simp only [merge_chunk, hct, if_true, List.mem_append, List.mem_singleton,
            show ¬ (DIFF_DELETE = DIFF_EQUAL) by decide,
            show ¬ (DIFF_DELETE = DIFF_INSERT) by decide, if_false] at hl
          rcases hl with hl | rfl
          · exact ht1 l (hmem1 l hl)
          · exact hc1 _ (by rw [line_at_singleton c.lines1 h.2.2.2.1]; simp [line_at])
        · simp only [merge_chunk, hct, if_true,
            show ¬ (DIFF_DELETE = DIFF_EQUAL) by decide,
            show ¬ (DIFF_DELETE = DIFF_INSERT) by decide, if_false]
          exact ht2
      · rw [hct] at hci; exact absurd hci (by decide)
    · rw [hty, hct] at hti; exact absurd hti (by decide)

/-- A property of chunks that one-line chunks have and merging keeps holds for every
chunk of a list built by `add_chunk`. -/
theorem foldl_add_chunk_inv (P : DiffChunk → Prop)
    (hmerge : ∀ t c, P t → P c → OneLine c → t.type = c.type → P (merge_chunk t c))
    (ops : List DiffChunk) (s : ChunkList) (h : ∀ c ∈ ops, OneLine c ∧ P c)
    (hs : ∀ d ∈ head_list s, P d) : ∀ d ∈ head_list (ops.foldl add_chunk s), P d := by
  induction ops generalizing s with
  | nil => exact hs
  | cons c ops ih =>
    rw [List.foldl_cons]
    apply ih (add_chunk s c) (fun d hd => h d (List.mem_cons_of_mem _ hd))
    obtain ⟨hone, hPc⟩ := h c (List.mem_cons_self _ _)
    rcases s with _ | ⟨front, t⟩
    · intro d hd
      simp only [add_chunk, head_list, List.nil_append, List.mem_singleton] at hd
      subst hd; exact hPc
    · have hfront : ∀ d ∈ front, P d := fun d hd =>
        hs d (by simp only [head_list, List.mem_append]; exact Or.inl hd)
      have ht : P t := hs t (by simp [head_list])
      by_cases hty : t.type = c.type
      · rw [add_chunk_merge front t c hone hty]
        intro d hd
        simp only [head_list, List.mem_append, List.mem_singleton] at hd
        rcases hd with hd | rfl
        · exact hfront d hd
        · exact hmerge t c ht hPc hone hty
      · rw [add_chunk_link front t c hty]
        intro d hd
        simp only [head_list, List.mem_append, List.mem_singleton, List.mem_cons,
          List.not_mem_nil, or_false] at hd
        rcases hd with (rfl | hd) | rfl
        · exact hPc
        · exact hfront d hd
        · exact ht

/-- Every chunk of the script of `extract_diff` holds lines of the files, for every
table. -/
theorem extract_diff_fromFiles (A B : List Line) (lcs : List (List Nat)) (opts : Options) :
    ∃ script, extract_diff A B lcs opts = some script ∧ ∀ c ∈ script, FromFiles A B c := by
  refine ⟨_, extract_diff_total A B lcs opts, ?_⟩
  apply foldl_add_chunk_inv (FromFiles A B) (merge_chunk_fromFiles A B)
  · intro c hc
    exact ⟨backtrack_oneLine A B lcs opts _ _ _ c hc,
      backtrack_fromFiles A B lcs opts _ _ _ (Nat.le_refl _) (Nat.le_refl _) c hc⟩
  · intro d hd
    simp [head_list] at hd

theorem stored_lines_merge (t c : DiffChunk) (hone : OneLine c) (ht : ChunkOK t)
    (hty : t.type = c.type) :
    stored_lines (merge_chunk t c) = stored_lines t ++ stored_lines c := by
  obtain ⟨h1, h2⟩ := ht
  have e1 : t.lines1.take t.line_count1 = t.lines1 := by
    rw [← h1]; exact List.take_length _
  have e2 : t.lines2.take t.line_count2 = t.lines2 := by
    rw [← h2]; exact List.take_length _
  unfold stored_lines
  rw [merge_chunk_type, hty]
  rcases hone with h | h | h
  · simp only [merge_chunk, h.1, if_true, show ¬ (DIFF_EQUAL = DIFF_INSERT) by decide,
      if_false, e1]
    rw [← line_at_singleton c.lines1 h.2.2.2.1]
  · simp only [merge_chunk, h.1, if_true, show ¬ (DIFF_INSERT = DIFF_EQUAL) by decide,
      if_false, e2]
    rw [← line_at_singleton c.lines2 h.2.2.2.2]
  · simp only [merge_chunk, h.1, if_true, show ¬ (DIFF_DELETE = DIFF_EQUAL) by decide,
      show ¬ (DIFF_DELETE = DIFF_INSERT) by decide, if_false, e1]
    rw [← line_at_singleton c.lines1 h.2.2.2.1]

/-- The lines stored in a list built by `add_chunk` are, up to their order, the lines of
the chunks that were added. -/
theorem foldl_add_chunk_perm (ops : List DiffChunk) (s : ChunkList)
    (h : ∀ c ∈ ops, OneLine c) (hs : ∀ d ∈ head_list s, ChunkOK d) :
    List.Perm ((head_list (ops.foldl add_chunk s)).flatMap stored_lines)
      ((head_list s).flatMap stored_lines ++ ops.flatMap stored_lines) := by
  induction ops generalizing s with
  | nil => simp
  | cons c ops ih =>
    have hone := h c (List.mem_cons_self _ _)
    rw [List.foldl_cons]
    refine (ih (add_chunk s c) (fun d hd => h d (List.mem_cons_of_mem _ hd))
      (add_chunk_ok s c hone hs)).trans ?_
    rw [List.flatMap_cons, ← List.append_assoc]
    refine List.Perm.append_right _ ?_
    rcases s with _ | ⟨front, t⟩
    · simp [add_chunk, head_list]
    · by_cases hty : t.type = c.type
      · rw [add_chunk_merge front t c hone hty]
        have ht : ChunkOK t := hs t (by simp [head_list])
        simp [head_list, List.flatMap_append, stored_lines_merge t c hone ht hty]
      · rw [add_chunk_link front t c hty]
        simp only [head_list, List.cons_append, List.flatMap_cons]
        exact List.perm_append_comm

/-! ## An empty first file; the unified renderer -/

theorem backtrack_empty_left (B : List Line) (lcs : List (List Nat)) (opts : Options)
    (fuel j : Nat) (h : j ≤ fuel) : backtrack [] B lcs opts fuel 0 j = insert_run B j := by
  induction fuel generalizing j with
  | zero =>
    have hj : j = 0 := by omega
    subst hj; rfl
  | succ fuel ih =>
    cases j with
    | zero => simp [backtrack, insert_run]
    | succ j =>
      have hpos : 0 > 0 ∨ j + 1 > 0 := Or.inr (Nat.succ_pos _)
      have hnc := new_chunk_eq [] B lcs opts 0 (j + 1) hpos
      rw [if_neg (fun h => absurd h.1 (Nat.lt_irrefl 0)),
        if_pos ⟨Nat.succ_pos _, Or.inl rfl⟩] at hnc
      simp only [backtrack, if_pos hpos, hnc, insert_run, Nat.add_sub_cancel]
      rw [ih j (by omega)]

theorem foldl_insert_run (B : List Line) (j : Nat) (front : List DiffChunk) (t : DiffChunk)
    (ht : t.type = DIFF_INSERT) (hlen : t.lines2.length = t.line_count2) :
    ∃ t', (insert_run B j).foldl add_chunk (some (front, t)) = some (front, t') ∧
      t'.type = DIFF_INSERT ∧ t'.file2_end = t.file2_end ∧
      t'.file2_start = (if j = 0 then t.file2_start else 1) ∧
      t'.line_count2 = t.line_count2 + j ∧ t'.lines2 = t.lines2 ++ rev_lines B j := by
  induction j generalizing t with
  | zero => exact ⟨t, rfl, ht, rfl, rfl, rfl, by simp [rev_lines]⟩
  | succ j ih =>
    have hone : OneLine (insert_chunk B 0 (j + 1)) :=
      Or.inr (Or.inl ⟨rfl, rfl, rfl, rfl, rfl⟩)
    have hm := add_chunk_merge front t (insert_chunk B 0 (j + 1)) hone ht
    have hl2 : (merge_chunk t (insert_chunk B 0 (j + 1))).lines2 = t.lines2 ++ [line_at B j] := by
      have e2 : t.lines2.take t.line_count2 = t.lines2 := by
        rw [← hlen]; exact List.take_length _
      simp [merge_chunk, insert_chunk, e2, line_at]
    have hc2 : (merge_chunk t (insert_chunk B 0 (j + 1))).line_count2 = t.line_count2 + 1 := by
      simp [merge_chunk, insert_chunk]
    obtain ⟨t', e, h1, h2, h3, h4, h5⟩ := ih (merge_chunk t (insert_chunk B 0 (j + 1)))
      (by rw [merge_chunk_type]; exact ht) (by rw [hl2, hc2]; simp [hlen])
    refine ⟨t', ?_, h1, ?_, ?_, ?_, ?_⟩
    · rw [insert_run, List.foldl_cons, hm, e]
    · rw [h2]; simp [merge_chunk, insert_chunk]
    · rw [h3]
      by_cases hj : j = 0
      · subst hj; simp [merge_chunk, insert_chunk]
      · simp [hj]
    · rw [h4, hc2]; omega
    · rw [h5, hl2, rev_lines, List.append_assoc]; rfl

theorem rev_lines_eq (B : List Line) (j : Nat) (h : j ≤ B.length) :
    rev_lines B j = (B.take j).reverse := by
  induction j with
  | zero => simp [rev_lines]
  | succ j ih =>
    have hj : j < B.length := by omega
    rw [rev_lines, ih (by omega), List.take_succ, line_at_eq_getElem? B j hj]
    simp

theorem unified_records_total (current : DiffChunk) (opts : Options) (fuel i j : Nat)
    (h : (current.line_count1 - i) + (current.line_count2 - j) ≤ fuel) :
    ∃ r, unified_records current opts fuel i j = some r ∧
      ∀ e ∈ r, is_hunk_header e = false := by
  induction fuel generalizing i j with
  | zero =>
    have hc : ¬ (i < current.line_count1 ∨ j < current.line_count2) := by omega
    exact ⟨[], by simp [unified_records, hc], by simp⟩
  | succ fuel ih =>
    have hrec : ∀ color mark line, is_hunk_header (print_record opts color mark line) = false := by
      intro color mark line
      unfold print_record
      split_ifs <;> rfl
    by_cases hc : i < current.line_count1 ∨ j < current.line_count2
    · by_cases h1 : i < current.line_count1 ∧ j < current.line_count2
      · obtain ⟨r, e, hr⟩ := ih (i + 1) j (by omega)
        refine ⟨print_record opts COLOR_BRIGHT_YELLOW '!' (line_at current.lines1 i) :: r, by
          simp only [unified_records, if_pos hc, if_pos h1, e, Option.map_some'],
          fun x hx => ?_⟩
        rcases List.mem_cons.mp hx with rfl | hx
        · exact hrec _ _ _
        · exact hr x hx
      · by_cases h2 : i < current.line_count1
        · obtain ⟨r, e, hr⟩ := ih (i + 1) j (by omega)
          refine ⟨print_record opts COLOR_BRIGHT_RED '-' (line_at current.lines1 i) :: r, by
            simp only [unified_records, if_pos hc, if_neg h1, if_pos h2, e, Option.map_some'],
            fun x hx => ?_⟩
          rcases List.mem_cons.mp hx with rfl | hx
          · exact hrec _ _ _
          · exact hr x hx
        · have h3 : j < current.line_count2 := by omega
          obtain ⟨r, e, hr⟩ := ih i (j + 1) (by omega)
          refine ⟨print_record opts COLOR_BRIGHT_GREEN '+' (line_at current.lines2 j) :: r, by
            simp only [unified_records, if_pos hc, if_neg h1, if_neg h2, if_pos h3, e,
              Option.map_some'],
            fun x hx => ?_⟩
          rcases List.mem_cons.mp hx with rfl | hx
          · exact hrec _ _ _
          · exact hr x hx
    · exact ⟨[], by simp [unified_records, hc], by simp⟩

theorem unified_chunks_headers (opts : Options) (diff : List DiffChunk) :
    ∃ out, unified_chunks opts diff = some out ∧
      hunk_headers out = (diff.filter fun c => decide (c.type ≠ DIFF_EQUAL)).map fun c =>
        UnifiedOut.hunk_header opts.color_output c.file1_start c.line_count1 c.file2_start
          c.line_count2 := by
  induction diff with
  | nil => exact ⟨[], rfl, rfl⟩
  | cons c l ih =>
    obtain ⟨rest, e, hrest⟩ := ih
    by_cases hc : c.type = DIFF_EQUAL
    · refine ⟨rest, by simp only [unified_chunks, if_pos hc, e], ?_⟩
      rw [hrest]; simp [List.filter_cons, hc]
    · obtain ⟨r, er, hr⟩ := unified_records_total c opts (c.line_count1 + c.line_count2) 0 0
        (by omega)
      refine ⟨UnifiedOut.hunk_header opts.color_output c.file1_start c.line_count1
        c.file2_start c.line_count2 :: (r ++ rest), by
        simp only [unified_chunks, if_neg hc, er, e], ?_⟩
      have hnone : r.filter is_hunk_header = [] := by
        rw [List.filter_eq_nil_iff]
        intro x hx; rw [hr x hx]; exact Bool.false_ne_true
      unfold hunk_headers at hrest ⊢
      rw [List.filter_cons, List.filter_append, hnone, hrest]
      simp [is_hunk_header, List.filter_cons, hc]

theorem unified_chunks_skip_equal (opts : Options) (diff : List DiffChunk) :
    unified_chunks opts (diff.filter fun c => decide (c.type ≠ DIFF_EQUAL)) =
      unified_chunks opts diff := by
  induction diff with
  | nil => rfl
  | cons c l ih =>
    by_cases hc : c.type = DIFF_EQUAL
    · simp only [ne_eq, decide_not] at ih
      simp [List.filter_cons, hc, unified_chunks, ih]
    · simp only [ne_eq, decide_not] at ih
      simp [List.filter_cons, hc, unified_chunks, ih]

/-! ## Further properties of the differencing engine -/

/-- C13. Original text is stored: for every table and every policy the script exists; every
Equal or Delete chunk holds only lines of `A` and every Insert chunk only lines of `B`;
the lines stored in the script are, up to their order, the lines put into the one-line
chunks by the backtrack steps; in a cell `(i, j)` of the files a step stores the line
`A[i-1]` (Equal, Delete) or `B[j-1]` (Insert) itself; and diffing `["SAME"]` against
`["same"]` with `ignore_case` stores `"SAME"` in the Equal chunk. -/
theorem stored_text_is_original (A B : List Line) (lcs : List (List Nat)) (opts : Options) :
    (∃ script, extract_diff A B lcs opts = some script ∧
      (∀ c ∈ script,
        ((c.type = DIFF_EQUAL ∨ c.type = DIFF_DELETE) ∧ (∀ l ∈ c.lines1, l ∈ A) ∧
            c.lines2 = []) ∨
        (c.type = DIFF_INSERT ∧ (∀ l ∈ c.lines2, l ∈ B) ∧ c.lines1 = [])) ∧
      List.Perm (script.flatMap stored_lines)
        ((backtrack A B lcs opts (A.length + B.length) A.length B.length).flatMap
          stored_lines)) ∧
    (∀ i j, i > 0 ∨ j > 0 → i ≤ A.length → j ≤ B.length →
      ∃ c i' j', new_chunk A B lcs opts i j = some (c, i', j') ∧
        ((c.type = DIFF_INSERT ∧ B[j - 1]? = some (line_at B (j - 1)) ∧
            stored_lines c = [line_at B (j - 1)]) ∨
         ((c.type = DIFF_EQUAL ∨ c.type = DIFF_DELETE) ∧
            A[i - 1]? = some (line_at A (i - 1)) ∧ stored_lines c = [line_at A (i - 1)]))) ∧
    diff_script [str "SAME"] [str "same"] { init_options false with ignore_case := true } =
      some [{ type := DIFF_EQUAL, file1_start := 1, file1_end := 1, file2_start := 1,
              file2_end := 1, lines1 := [str "SAME"], lines2 := [], line_count1 := 1,
              line_count2 := 0 }] := by
  refine ⟨?_, ?_, by decide⟩
  · obtain ⟨script, e, hff⟩ := extract_diff_fromFiles A B lcs opts
    refine ⟨script, e, hff, ?_⟩
    have e' := extract_diff_total A B lcs opts
    have hs : script = _ := Option.some.inj (e.symm.trans e')
    rw [hs]
    have hp := foldl_add_chunk_perm
      (backtrack A B lcs opts (A.length + B.length) A.length B.length) none
      (backtrack_oneLine A B lcs opts _ _ _) (fun d hd => by simp [head_list] at hd)
    simpa [head_list] using hp
  · intro i j hpos hi hj
    rw [new_chunk_eq A B lcs opts i j hpos]
    by_cases h1 : i > 0 ∧ j > 0 ∧
        compare_lines (line_at A (i - 1)) (line_at B (j - 1)) opts = true
    · rw [if_pos h1]
      exact ⟨_, _, _, rfl, Or.inr ⟨Or.inl rfl, line_at_eq_getElem? A (i - 1) (by omega), rfl⟩⟩
    · rw [if_neg h1]
      by_cases h2 : j > 0 ∧ (i = 0 ∨ tbl lcs i (j - 1) ≥ tbl lcs (i - 1) j)
      · rw [if_pos h2]
        exact ⟨_, _, _, rfl, Or.inl ⟨rfl, line_at_eq_getElem? B (j - 1) (by omega), rfl⟩⟩
      · rw [if_neg h2]
        have hi1 : i > 0 := by
          by_contra hi0
          exact h2 ⟨by omega, Or.inl (by omega)⟩
        exact ⟨_, _, _, rfl,
          Or.inr ⟨Or.inr rfl, line_at_eq_getElem? A (i - 1) (by omega), rfl⟩⟩

/-- C15. The extractor never emits a change chunk: for every table and every policy the
script exists, each of its chunks has type `DIFF_EQUAL`, `DIFF_INSERT` or `DIFF_DELETE`
and none has type `DIFF_CHANGE`, and `compute_stats` gives `changes = 0` on it. -/
theorem no_change_chunk (A B : List Line) (lcs : List (List Nat)) (opts : Options) :
    ∃ script, extract_diff A B lcs opts = some script ∧
      (∀ c ∈ script, (c.type = DIFF_EQUAL ∨ c.type = DIFF_INSERT ∨ c.type = DIFF_DELETE) ∧
        c.type ≠ DIFF_CHANGE) ∧
      (compute_stats script).changes = 0 := by
  obtain ⟨script, e, hff⟩ := extract_diff_fromFiles A B lcs opts
  refine ⟨script, e, fun c hc => ?_, ?_⟩
  · rcases hff c hc with ⟨h | h, -⟩ | ⟨h, -⟩
    · exact ⟨Or.inl h, by rw [h]; decide⟩
    · exact ⟨Or.inr (Or.inr h), by rw [h]; decide⟩
    · exact ⟨Or.inr (Or.inl h), by rw [h]; decide⟩
  · have e' := extract_diff_total A B lcs opts
    have hs : script = _ := Option.some.inj (e.symm.trans e')
    obtain ⟨-, -, e3⟩ := foldl_add_chunk_stats
      (backtrack A B lcs opts (A.length + B.length) A.length B.length) none
      (backtrack_oneLine A B lcs opts _ _ _)
    rw [compute_stats_eq, hs]
    exact e3

/-- C17 (code defect). Example 1 fails: for `A = ["x", "y", "z"]`, `B = ["x", "z"]` under
the default policy the script is not Equal `x`, Delete `y`, Equal `z`; it has two chunks,
the Delete chunk of `"y"` followed by one Equal chunk holding `"z", "x"`. -/
theorem example_one_script_differs :
    diff_script [str "x", str "y", str "z"] [str "x", str "z"] (init_options false) =
      some [delete_chunk [str "x", str "y", str "z"] 2 1,
            { type := DIFF_EQUAL, file1_start := 1, file1_end := 3, file2_start := 1,
              file2_end := 2, lines1 := [str "z", str "x"], lines2 := [], line_count1 := 2,
              line_count2 := 0 }] ∧
    diff_script [str "x", str "y", str "z"] [str "x", str "z"] (init_options false) ≠
      some [equal_chunk [str "x", str "y", str "z"] 1 1,
            delete_chunk [str "x", str "y", str "z"] 2 1,
            equal_chunk [str "x", str "y", str "z"] 3 2] ∧
    ¬ ∃ c1 c2 c3 : DiffChunk,
      diff_script [str "x", str "y", str "z"] [str "x", str "z"] (init_options false) =
        some [c1, c2, c3] := by
  have h : diff_script [str "x", str "y", str "z"] [str "x", str "z"] (init_options false) =
      some [delete_chunk [str "x", str "y", str "z"] 2 1,
            { type := DIFF_EQUAL, file1_start := 1, file1_end := 3, file2_start := 1,
              file2_end := 2, lines1 := [str "z", str "x"], lines2 := [], line_count1 := 2,
              line_count2 := 0 }] := by decide
  refine ⟨h, ?_, ?_⟩
  · rw [h]; decide
  · rintro ⟨c1, c2, c3, hc⟩
    rw [h] at hc
    simp at hc

/-- C18. Example 4: for `A = ["a", "b"]`, `B = ["b", "a"]` under the default policy
`table[2][2] = 1`; at the cell `(2, 2)` the lines differ and `table[2][1] = table[1][2]`,
so the step is the Insert of `"a"`; and the script is the Delete chunk of `"a"`, the Equal
chunk of `"b"` and the Insert chunk of `"a"`, each of one line: one Delete chunk, one
Insert chunk and one Equal chunk. -/
theorem example_four_script :
    tbl (compute_lcs [str "a", str "b"] [str "b", str "a"] (init_options false)) 2 2 = 1 ∧
    tbl (compute_lcs [str "a", str "b"] [str "b", str "a"] (init_options false)) 2 1 =
      tbl (compute_lcs [str "a", str "b"] [str "b", str "a"] (init_options false)) 1 2 ∧
    new_chunk [str "a", str "b"] [str "b", str "a"]
        (compute_lcs [str "a", str "b"] [str "b", str "a"] (init_options false))
        (init_options false) 2 2 =
      some (insert_chunk [str "b", str "a"] 2 2, 2, 1) ∧
    diff_script [str "a", str "b"] [str "b", str "a"] (init_options false) =
      some [delete_chunk [str "a", str "b"] 1 0, equal_chunk [str "a", str "b"] 2 1,
            insert_chunk [str "b", str "a"] 2 2] ∧
    count_type DIFF_DELETE [delete_chunk [str "a", str "b"] 1 0,
      equal_chunk [str "a", str "b"] 2 1, insert_chunk [str "b", str "a"] 2 2] = 1 ∧
    count_type DIFF_INSERT [delete_chunk [str "a", str "b"] 1 0,
      equal_chunk [str "a", str "b"] 2 1, insert_chunk [str "b", str "a"] 2 2] = 1 ∧
    count_type DIFF_EQUAL [delete_chunk [str "a", str "b"] 1 0,
      equal_chunk [str "a", str "b"] 2 1, insert_chunk [str "b", str "a"] 2 2] ≤ 1 ∧
    (delete_chunk [str "a", str "b"] 1 0).line_count1 = 1 ∧
    (insert_chunk [str "b", str "a"] 2 2).line_count2 = 1 := by
  decide

/-- C19. Empty first file: for `A = []` and every non-empty `B` of `n` lines the script is
exactly one Insert chunk with `file2_start = 1`, `file2_end = n` and `line_count2 = n`
(it holds the lines of `B` in reverse order), and `compute_stats` gives `inserts = n`,
`deletes = 0`; for `B = ["a"]` the script is the single Insert chunk holding `"a"`, with
`inserts = 1` and `deletes = 0`. -/
theorem empty_first_file_single_insert (B : List Line) (opts : Options) (hB : B ≠ []) :
    (∃ c : DiffChunk, diff_script [] B opts = some [c] ∧ c.type = DIFF_INSERT ∧
      c.file2_start = 1 ∧ c.file2_end = B.length ∧ c.line_count2 = B.length ∧
      c.lines2 = B.reverse ∧
      (compute_stats [c]).inserts = B.length ∧ (compute_stats [c]).deletes = 0) ∧
    diff_script [] [str "a"] (init_options false) = some [insert_chunk [str "a"] 0 1] ∧
    stored_lines (insert_chunk [str "a"] 0 1) = [str "a"] ∧
    compute_stats [insert_chunk [str "a"] 0 1] = { inserts := 1, deletes := 0, changes := 0 } := by
  refine ⟨?_, by decide, by decide, by decide⟩
  obtain ⟨n, hn⟩ : ∃ n, B.length = n + 1 :=
    ⟨B.length - 1, by have := List.length_pos.mpr hB; omega⟩
  have hbt := backtrack_empty_left B (compute_lcs [] B opts) opts
    (([] : List Line).length + B.length) B.length (by simp)
  have htot := extract_diff_total [] B (compute_lcs [] B opts) opts
  rw [show ([] : List Line).length = 0 from rfl] at htot hbt
  rw [hbt, hn, insert_run, List.foldl_cons] at htot
  obtain ⟨t', e, h1, h2, h3, h4, h5⟩ :=
    foldl_insert_run B n [] (insert_chunk B 0 (n + 1)) rfl rfl
  have hadd : add_chunk none (insert_chunk B 0 (n + 1)) =
      some ([], insert_chunk B 0 (n + 1)) := rfl
  rw [hadd, e] at htot
  have hc2 : t'.line_count2 = B.length := by
    rw [h4, hn]; simp [insert_chunk]; omega
  refine ⟨t', htot, h1, ?_, ?_, hc2, ?_, ?_, ?_⟩
  · rw [h3]; by_cases h0 : n = 0
    · subst h0; rfl
    · rw [if_neg h0]
  · rw [h2, hn]; rfl
  · rw [h5]
    have hr := rev_lines_eq B (n + 1) (by omega)
    rw [rev_lines] at hr
    have ht : B.take (n + 1) = B := by rw [← hn]; exact List.take_length _
    rw [ht] at hr
    simpa [insert_chunk] using hr
  · rw [compute_stats_eq]; simp [ins_of, h1, hc2]
  · rw [compute_stats_eq]; simp [del_of, h1]

/-- C19, at `B = ["a"]`. -/
theorem empty_first_file_single_insert_witness :
    ([str "a"] : List Line) ≠ [] ∧
    ((∃ c : DiffChunk, diff_script [] [str "a"] (init_options false) = some [c] ∧
      c.type = DIFF_INSERT ∧
      c.file2_start = 1 ∧ c.file2_end = [str "a"].length ∧ c.line_count2 = [str "a"].length ∧
      c.lines2 = [str "a"].reverse ∧
      (compute_stats [c]).inserts = [str "a"].length ∧ (compute_stats [c]).deletes = 0) ∧
    diff_script [] [str "a"] (init_options false) = some [insert_chunk [str "a"] 0 1] ∧
    stored_lines (insert_chunk [str "a"] 0 1) = [str "a"] ∧
    compute_stats [insert_chunk [str "a"] 0 1] =
      { inserts := 1, deletes := 0, changes := 0 }) :=
  ⟨by decide, empty_first_file_single_insert [str "a"] (init_options false) (by decide)⟩

/-- C20 (counterexample). For `A = ["a"]`, `B = ["b"]` under the default policy the script
is a Delete chunk immediately followed by an Insert chunk, one maximal run of non-Equal
chunks, and `show_unified_diff` prints two hunk headers for it, `@@ -1,1 +0,0 @@` and
`@@ -1,0 +1,1 @@`. -/
theorem unified_prints_two_headers_for_one_run :
    diff_script [str "a"] [str "b"] (init_options false) =
      some [delete_chunk [str "a"] 1 0, insert_chunk [str "b"] 1 1] ∧
    count_runs [delete_chunk [str "a"] 1 0, insert_chunk [str "b"] 1 1] = 1 ∧
    show_unified_diff [delete_chunk [str "a"] 1 0, insert_chunk [str "b"] 1 1]
        (init_options false) =
      some [UnifiedOut.file_header false false, UnifiedOut.file_header true false,
            UnifiedOut.hunk_header false 1 1 0 0, UnifiedOut.record none '-' (str "a"),
            UnifiedOut.hunk_header false 1 0 1 1, UnifiedOut.record none '+' (str "b")] ∧
    (hunk_headers [UnifiedOut.file_header false false, UnifiedOut.file_header true false,
            UnifiedOut.hunk_header false 1 1 0 0, UnifiedOut.record none '-' (str "a"),
            UnifiedOut.hunk_header false 1 0 1 1, UnifiedOut.record none '+' (str "b")]).length
      = 2 := by
  decide

/-- C20 (amended). Unified hunks: for every script `show_unified_diff` returns, and it
prints exactly one hunk header `@@ -file1_start,line_count1 +file2_start,line_count2 @@`
for each non-Equal chunk, in script order, with the values of that chunk; it prints
nothing for Equal chunks: the output is that of the script without them. -/
theorem unified_header_per_chunk (diff : List DiffChunk) (opts : Options) :
    ∃ out, show_unified_diff diff opts = some out ∧
      hunk_headers out = ((diff.filter fun c => decide (c.type ≠ DIFF_EQUAL)).map fun c =>
        UnifiedOut.hunk_header opts.color_output c.file1_start c.line_count1 c.file2_start
          c.line_count2) ∧
      show_unified_diff (diff.filter fun c => decide (c.type ≠ DIFF_EQUAL)) opts = some out := by
  obtain ⟨out, e, hh⟩ := unified_chunks_headers opts diff
  refine ⟨UnifiedOut.file_header false opts.color_output ::
    UnifiedOut.file_header true opts.color_output :: out, ?_, ?_, ?_⟩
  · simp [show_unified_diff, e]
  · unfold hunk_headers at hh ⊢
    simp only [List.filter_cons, is_hunk_header]
    exact hh
  · unfold show_unified_diff
    rw [unified_chunks_skip_equal, e]
    rfl

/-! ## The records of a hunk; the side-by-side renderer -/

theorem record_mark_print (opts : Options) (color : Color) (mark : Char) (line : Line) :
    record_mark (print_record opts color mark line) = some mark := by
  unfold print_record
  split_ifs <;> rfl

/-- The records of one chunk: with fuel enough, the loop prints the lines `lines1[i..]`,
marked `!` while an insert line remains (`j < count2`) and `-` otherwise, and then the
lines `lines2[j..]` marked `+`. -/
theorem unified_records_eq (current : DiffChunk) (opts : Options) (fuel i j : Nat)
    (h : (current.line_count1 - i) + (current.line_count2 - j) ≤ fuel) :
    unified_records current opts fuel i j =
      some (((List.range' i (current.line_count1 - i)).map fun k =>
          if j < current.line_count2 then
            print_record opts COLOR_BRIGHT_YELLOW '!' (line_at current.lines1 k)
          else print_record opts COLOR_BRIGHT_RED '-' (line_at current.lines1 k)) ++
        (List.range' j (current.line_count2 - j)).map fun k =>
          print_record opts COLOR_BRIGHT_GREEN '+' (line_at current.lines2 k)) := by
  induction fuel generalizing i j with
  | zero =>
    have h1 : current.line_count1 - i = 0 := by omega
    have h2 : current.line_count2 - j = 0 := by omega
    have hc : ¬ (i < current.line_count1 ∨ j < current.line_count2) := by omega
    simp [unified_records, hc, h1, h2]
  | succ fuel ih =>
    by_cases hc : i < current.line_count1 ∨ j < current.line_count2
    · by_cases h1 : i < current.line_count1 ∧ j < current.line_count2
      · have e1 : current.line_count1 - i = (current.line_count1 - (i + 1)) + 1 := by omega
        simp only [unified_records, if_pos hc, if_pos h1, ih (i + 1) j (by omega),
          Option.map_some']
        rw [e1, List.range'_succ]
        simp [h1.2]
      · by_cases h2 : i < current.line_count1
        · have hj : ¬ j < current.line_count2 := fun hj => h1 ⟨h2, hj⟩
          have e1 : current.line_count1 - i = (current.line_count1 - (i + 1)) + 1 := by omega
          simp only [unified_records, if_pos hc, if_neg h1, if_pos h2, ih (i + 1) j (by omega),
            Option.map_some']
          rw [e1, List.range'_succ]
          simp [hj]
        · have h3 : j < current.line_count2 := by omega
          have e1 : current.line_count1 - i = 0 := by omega
          have e2 : current.line_count2 - j = (current.line_count2 - (j + 1)) + 1 := by omega
          simp only [unified_records, if_pos hc, if_neg h1, if_neg h2, if_pos h3,
            ih i (j + 1) (by omega), Option.map_some']
          rw [e2, List.range'_succ, e1]
          simp
    · have h1 : current.line_count1 - i = 0 := by omega
      have h2 : current.line_count2 - j = 0 := by omega
      simp [unified_records, hc, h1, h2]

/-- The records of a chunk without insert lines: its `count1` lines, all marked `-`. -/
theorem unified_records_delete_only (current : DiffChunk) (opts : Options)
    (h2 : current.line_count2 = 0) :
    ∃ r, unified_records current opts (current.line_count1 + current.line_count2) 0 0 =
        some r ∧ r.length = current.line_count1 + current.line_count2 ∧
      ∀ e ∈ r, record_mark e = some '-' := by
  refine ⟨_, unified_records_eq current opts _ 0 0 (by omega), ?_, ?_⟩
  · simp [h2]
  · intro e he
    simp only [h2, Nat.lt_irrefl, if_false, Nat.sub_zero, List.range'_zero, List.map_nil,
      List.append_nil, List.mem_map] at he
    obtain ⟨k, -, rfl⟩ := he
    exact record_mark_print _ _ _ _

/-- The records of a chunk without delete lines: its `count2` lines, all marked `+`. -/
theorem unified_records_insert_only (current : DiffChunk) (opts : Options)
    (h1 : current.line_count1 = 0) :
    ∃ r, unified_records current opts (current.line_count1 + current.line_count2) 0 0 =
        some r ∧ r.length = current.line_count1 + current.line_count2 ∧
      ∀ e ∈ r, record_mark e = some '+' := by
  refine ⟨_, unified_records_eq current opts _ 0 0 (by omega), ?_, ?_⟩
  · simp [h1]
  · intro e he
    simp only [h1, Nat.sub_zero, List.range'_zero, List.map_nil, List.nil_append,
      List.mem_map] at he
    obtain ⟨k, -, rfl⟩ := he
    exact record_mark_print _ _ _ _

theorem unified_chunks_no_pair_mark (opts : Options) (diff : List DiffChunk)
    (h : ∀ c ∈ diff, c.line_count1 = 0 ∨ c.line_count2 = 0) :
    ∃ out, unified_chunks opts diff = some out ∧ ∀ e ∈ out, record_mark e ≠ some '!' := by
  induction diff with
  | nil => exact ⟨[], rfl, by simp⟩
  | cons c l ih =>
    obtain ⟨rest, e, hrest⟩ := ih fun d hd => h d (List.mem_cons_of_mem _ hd)
    by_cases hc : c.type = DIFF_EQUAL
    · exact ⟨rest, by simp only [unified_chunks, if_pos hc, e], hrest⟩
    · have hr : ∃ r, unified_records c opts (c.line_count1 + c.line_count2) 0 0 = some r ∧
          ∀ x ∈ r, record_mark x ≠ some '!' := by
        rcases h c (List.mem_cons_self _ _) with h1 | h2
        · obtain ⟨r, er, -, hm⟩ := unified_records_insert_only c opts h1
          exact ⟨r, er, fun x hx => by rw [hm x hx]; decide⟩
        · obtain ⟨r, er, -, hm⟩ := unified_records_delete_only c opts h2
          exact ⟨r, er, fun x hx => by rw [hm x hx]; decide⟩
      obtain ⟨r, er, hm⟩ := hr
      refine ⟨UnifiedOut.hunk_header opts.color_output c.file1_start c.line_count1
        c.file2_start c.line_count2 :: (r ++ rest), by
        simp only [unified_chunks, if_neg hc, er, e], fun x hx => ?_⟩
      rcases List.mem_cons.mp hx with rfl | hx
      · simp [record_mark]
      · rcases List.mem_append.mp hx with hx | hx
        · exact hm x hx
        · exact hrest x hx

theorem map_range_line_at {β : Type} (f : Line → β) (l : List Line) (n : Nat)
    (h : l.length = n) : (List.range n).map (fun i => f (line_at l i)) = l.map f := by
  subst h
  apply List.ext_getElem
  · simp
  · intro k h1 h2
    simp only [List.getElem_map, List.getElem_range]
    unfold line_at
    rw [List.getD_eq_getElem _ _ (by simpa using h2)]

theorem flatMap_single {α β : Type} (f : α → β) (l : List α) :
    l.flatMap (fun x => [f x]) = l.map f := by
  induction l with
  | nil => rfl
  | cons x xs ih => rw [List.flatMap_cons, ih]; rfl

theorem left_justify_strncpy (l : Line) :
    left_justify 40 (strncpy_line l 40) = column l := by
  unfold left_justify strncpy_line column
  by_cases h : l.length ≤ 40
  · have hm : min l.length 40 = l.length := Nat.min_eq_left h
    rw [hm, List.take_of_length_le h, List.take_of_length_le (Nat.le_refl _)]
  · have hm : min l.length 40 = 40 := Nat.min_eq_right (by omega)
    rw [hm, List.length_take, Nat.min_eq_left (by omega : 40 ≤ l.length)]

theorem left_justify_nil : left_justify 40 [] = blank_column := by
  simp [left_justify, blank_column]

theorem column_length (l : Line) : (column l).length = 40 := by
  unfold column
  rw [List.length_append, List.length_take, List.length_replicate]
  omega

theorem side_rows_eq (c : DiffChunk) (opts : Options) (hcol : opts.color_output = false)
    (hok : ChunkOK c) :
    side_rows c opts 40 = (stored_lines c).flatMap (spec_row c.type) := by
  have hrc : ∀ color, row_color opts color = none := by
    intro color; simp [row_color, hcol]
  unfold side_rows stored_lines
  cases ht : c.type
  · simp only [if_true, hrc, left_justify_strncpy, show ¬ (DIFF_EQUAL = DIFF_INSERT) by decide,
      if_false]
    rw [map_range_line_at (fun l => SideOut.row none (column l) (column l)) c.lines1 _ hok.1]
    exact (flatMap_single _ _).symm
  · simp only [if_true, hrc, left_justify_strncpy, left_justify_nil,
      show ¬ (DIFF_INSERT = DIFF_EQUAL) by decide,
      show ¬ (DIFF_INSERT = DIFF_DELETE) by decide, if_false]
    rw [map_range_line_at (fun l => SideOut.row none blank_column (column l)) c.lines2 _ hok.2]
    exact (flatMap_single _ _).symm
  · simp only [if_true, hrc, left_justify_strncpy, left_justify_nil,
      show ¬ (DIFF_DELETE = DIFF_EQUAL) by decide,
      show ¬ (DIFF_DELETE = DIFF_INSERT) by decide, if_false]
    rw [map_range_line_at (fun l => SideOut.row none (column l) blank_column) c.lines1 _ hok.1]
    exact (flatMap_single _ _).symm
  · simp [spec_row]

/-- The inner loop of `show_unified_diff` on a chunk that holds both delete and insert
lines, which no script of `extract_diff` has and which the program therefore never
prints: for the delete lines `"a", "b"` and the insert line `"c"` it prints `! a`, `! b`,
`+ c`, since the branch of the pair advances `i` but not `j`. -/
theorem unified_marks_every_delete_line :
    show_unified_diff
        [{ type := DIFF_CHANGE, file1_start := 1, file1_end := 2, file2_start := 1,
           file2_end := 1, lines1 := [str "a", str "b"], lines2 := [str "c"],
           line_count1 := 2, line_count2 := 1 }] (init_options false) =
      some [UnifiedOut.file_header false false, UnifiedOut.file_header true false,
            UnifiedOut.hunk_header false 1 2 1 1, UnifiedOut.record none '!' (str "a"),
            UnifiedOut.record none '!' (str "b"), UnifiedOut.record none '+' (str "c")] ∧
    (records_marked '!' [UnifiedOut.file_header false false, UnifiedOut.file_header true false,
            UnifiedOut.hunk_header false 1 2 1 1, UnifiedOut.record none '!' (str "a"),
            UnifiedOut.record none '!' (str "b"), UnifiedOut.record none '+' (str "c")]).length
      = 2 ∧
    (records_marked '-' [UnifiedOut.file_header false false, UnifiedOut.file_header true false,
            UnifiedOut.hunk_header false 1 2 1 1, UnifiedOut.record none '!' (str "a"),
            UnifiedOut.record none '!' (str "b"), UnifiedOut.record none '+' (str "c")]).length
      = 0 ∧
    (records_marked '+' [UnifiedOut.file_header false false, UnifiedOut.file_header true false,
            UnifiedOut.hunk_header false 1 2 1 1, UnifiedOut.record none '!' (str "a"),
            UnifiedOut.record none '!' (str "b"), UnifiedOut.record none '+' (str "c")]).length
      = 1 ∧
    min 2 1 = 1 := by
  decide

/-- C22. Side-by-side columns: in no-colour mode, for every script whose chunks are Equal,
Delete or Insert chunks holding as many lines as their counts say, the output is the
title, the rule of 83 characters and one row per stored line, in script order; the row of
an Equal line has its text in both columns, the row of a Delete line has it in the left
column and a blank right column, the row of an Insert line has a blank left column and
the text in the right one; the text of a column is the first `min(length, 40)` bytes of
the line padded to 40, and every column is 40 wide. -/
theorem side_by_side_columns (diff : List DiffChunk) (opts : Options)
    (hcol : opts.color_output = false)
    (hwf : ∀ c ∈ diff, ChunkOK c ∧ c.type ≠ DIFF_CHANGE) :
    show_side_by_side_diff diff opts =
      [SideOut.title false, SideOut.rule false 83] ++
        diff.flatMap (fun c => (stored_lines c).flatMap (spec_row c.type)) ∧
    (diff.flatMap fun c => (stored_lines c).flatMap (spec_row c.type)).length =
      (diff.map fun c => (stored_lines c).length).sum ∧
    (∀ l : Line, spec_row DIFF_EQUAL l = [SideOut.row none (column l) (column l)] ∧
      spec_row DIFF_DELETE l = [SideOut.row none (column l) blank_column] ∧
      spec_row DIFF_INSERT l = [SideOut.row none blank_column (column l)] ∧
      column l = l.take (min l.length 40) ++ List.replicate (40 - min l.length 40) 32 ∧
      (column l).length = 40 ∧ blank_column.length = 40) := by
  refine ⟨?_, ?_, fun l => ⟨rfl, rfl, rfl, rfl, column_length l, by simp [blank_column]⟩⟩
  · unfold show_side_by_side_diff
    simp only [hcol]
    congr 1
    have : ∀ l : List DiffChunk, (∀ c ∈ l, ChunkOK c ∧ c.type ≠ DIFF_CHANGE) →
        l.flatMap (fun current => side_rows current opts 40) =
          l.flatMap (fun c => (stored_lines c).flatMap (spec_row c.type)) := by
      intro l hl
      induction l with
      | nil => rfl
      | cons c r ih =>
        rw [List.flatMap_cons, List.flatMap_cons,
          side_rows_eq c opts hcol (hl c (List.mem_cons_self _ _)).1,
          ih fun d hd => hl d (List.mem_cons_of_mem _ hd)]
    exact this diff hwf
  · induction diff with
    | nil => rfl
    | cons c r ih =>
      have hc := (hwf c (List.mem_cons_self _ _)).2
      rw [List.flatMap_cons, List.length_append, ih fun d hd => hwf d (List.mem_cons_of_mem _ hd),
        List.map_cons, List.sum_cons]
      congr 1
      have : ∀ ls : List Line, (ls.flatMap (spec_row c.type)).length = ls.length := by
        intro ls
        induction ls with
        | nil => rfl
        | cons x xs ihx =>
          rw [List.flatMap_cons, List.length_append, ihx, List.length_cons]
          cases ht : c.type
          · simp [spec_row]; omega
          · simp [spec_row]; omega
          · simp [spec_row]; omega
          · exact absurd ht hc
      exact this _

/-- C22, at the script of one Equal chunk holding a line of 41 bytes and one Delete chunk
holding `"y"`, without colour. -/
theorem side_by_side_columns_witness :
    ((init_options false).color_output = false ∧
      ∀ c ∈ [equal_chunk [List.replicate 41 120] 1 1, delete_chunk [str "x", str "y"] 2 1],
        ChunkOK c ∧ c.type ≠ DIFF_CHANGE) ∧
    (show_side_by_side_diff
        [equal_chunk [List.replicate 41 120] 1 1, delete_chunk [str "x", str "y"] 2 1]
        (init_options false) =
      [SideOut.title false, SideOut.rule false 83] ++
        [equal_chunk [List.replicate 41 120] 1 1, delete_chunk [str "x", str "y"] 2 1].flatMap
          (fun c => (stored_lines c).flatMap (spec_row c.type)) ∧
    ([equal_chunk [List.replicate 41 120] 1 1, delete_chunk [str "x", str "y"] 2 1].flatMap
        fun c => (stored_lines c).flatMap (spec_row c.type)).length =
      ([equal_chunk [List.replicate 41 120] 1 1, delete_chunk [str "x", str "y"] 2 1].map
        fun c => (stored_lines c).length).sum ∧
    (∀ l : Line, spec_row DIFF_EQUAL l = [SideOut.row none (column l) (column l)] ∧
      spec_row DIFF_DELETE l = [SideOut.row none (column l) blank_column] ∧
      spec_row DIFF_INSERT l = [SideOut.row none blank_column (column l)] ∧
      column l = l.take (min l.length 40) ++ List.replicate (40 - min l.length 40) 32 ∧
      (column l).length = 40 ∧ blank_column.length = 40)) :=
  ⟨⟨rfl, fun c hc => by
      simp only [List.mem_cons, List.mem_singleton, List.not_mem_nil, or_false] at hc
      rcases hc with rfl | rfl <;> exact ⟨⟨rfl, rfl⟩, by decide⟩⟩,
    side_by_side_columns
      [equal_chunk [List.replicate 41 120] 1 1, delete_chunk [str "x", str "y"] 2 1]
      (init_options false) rfl (fun c hc => by
        simp only [List.mem_cons, List.mem_singleton, List.not_mem_nil, or_false] at hc
        rcases hc with rfl | rfl <;> exact ⟨⟨rfl, rfl⟩, by decide⟩)⟩

/-! ## The shape of an extracted script -/

theorem eq_of_oneLine {c : DiffChunk} (hc : OneLine c) :
    eq_of c = if c.type = DIFF_EQUAL then 1 else 0 := by
  unfold eq_of
  rcases hc with h | h | h
  · simp [h.1, h.2.1]
  · simp [h.1]
  · simp [h.1]

theorem eq_of_merge (t c : DiffChunk) (hc : OneLine c) (ht : t.type = c.type) :
    eq_of (merge_chunk t c) = eq_of t + eq_of c := by
  rw [eq_of_oneLine hc]
  unfold eq_of
  rw [merge_chunk_type]
  unfold merge_chunk
  rcases hc with h | h | h <;> simp [h.1, ht]

theorem foldl_add_chunk_eq (ops : List DiffChunk) (s : ChunkList)
    (h : ∀ c ∈ ops, OneLine c) :
    ((head_list (ops.foldl add_chunk s)).map eq_of).sum =
      ((head_list s).map eq_of).sum + count_type DIFF_EQUAL ops := by
  induction ops generalizing s with
  | nil => simp [count_type]
  | cons c ops ih =>
    have hc : OneLine c := h c (List.mem_cons_self _ _)
    rw [List.foldl_cons, ih (add_chunk s c) (fun d hd => h d (List.mem_cons_of_mem _ hd)),
      add_chunk_sum eq_of s c hc (fun t ht => eq_of_merge t c hc ht), eq_of_oneLine hc,
      count_type_cons]
    omega

theorem lines_of_kind_equal (l : List DiffChunk) (h : ∀ c ∈ l, ChunkOK c) :
    lines_of_kind DIFF_EQUAL l = (l.map eq_of).sum := by
  induction l with
  | nil => rfl
  | cons c l ih =>
    have hl := ih fun d hd => h d (List.mem_cons_of_mem _ hd)
    have hc := h c (List.mem_cons_self _ _)
    unfold lines_of_kind at hl ⊢
    by_cases ht : c.type = DIFF_EQUAL
    · simp only [List.filter_cons, ht, decide_True, if_true, List.map_cons, List.sum_cons, hl]
      simp [stored_lines, eq_of, ht, hc.1]
    · simp only [List.filter_cons, ht, decide_False, List.map_cons, List.sum_cons, hl]
      simp [eq_of, ht, hl]

/-- The script of `(A, B)` stores `lcs[m][n]` Equal lines. -/
theorem diff_script_equal_lines (A B : List Line) (opts : Options) :
    ∃ script, diff_script A B opts = some script ∧
      lines_of_kind DIFF_EQUAL script = lcsRec A B opts A.length B.length := by
  obtain ⟨script, e, hok, -, -⟩ := diff_script_lines A B opts
  have e' := extract_diff_total A B (compute_lcs A B opts) opts
  have hs : script = _ := Option.some.inj (e.symm.trans e')
  refine ⟨script, e, ?_⟩
  rw [lines_of_kind_equal script hok, hs]
  have hf := foldl_add_chunk_eq
    (backtrack A B (compute_lcs A B opts) opts (A.length + B.length) A.length B.length) none
    (backtrack_oneLine A B (compute_lcs A B opts) opts _ _ _)
  rw [hf]
  obtain ⟨c1, -, -, -⟩ := backtrack_counts A B _ opts (compute_lcs_ok A B opts)
    (A.length + B.length) A.length B.length (Nat.le_refl _) (Nat.le_refl _) (Nat.le_refl _)
  rw [c1]
  simp [head_list]

/-- The diagonal entry `lcs[i][i]` is `i` exactly when the first `i` lines of the two
files compare equal pairwise. -/
theorem lcsRec_diag (A B : List Line) (opts : Options) (i : Nat) :
    lcsRec A B opts i i = i ↔
      ∀ k, k < i → compare_lines (line_at A k) (line_at B k) opts = true := by
  induction i with
  | zero => simp [lcsRec_zero_left]
  | succ i ih =>
    rw [lcsRec_succ]
    by_cases hc : compare_lines (line_at A i) (line_at B i) opts = true
    · rw [if_pos hc]
      constructor
      · intro h k hk
        have hi : lcsRec A B opts i i = i := by omega
        by_cases hki : k = i
        · subst hki; exact hc
        · exact ih.mp hi k (by omega)
      · intro h
        have := ih.mpr fun k hk => h k (by omega)
        omega
    · rw [if_neg hc]
      constructor
      · intro h
        have h1 := lcsRec_le_left A B opts i (i + 1)
        have h2 := lcsRec_le_right A B opts (i + 1) i
        have := Nat.max_le.mpr ⟨h1, h2⟩
        omega
      · intro h
        exact absurd (h i (Nat.lt_succ_self _)) hc

theorem reports_same_iff (diff : List DiffChunk) (opts : Options) :
    reports_same (show_brief diff opts) ↔
      (compute_stats diff).inserts = 0 ∧ (compute_stats diff).deletes = 0 ∧
        (compute_stats diff).changes = 0 := by
  unfold reports_same show_brief
  by_cases h : (compute_stats diff).inserts = 0 ∧ (compute_stats diff).deletes = 0 ∧
      (compute_stats diff).changes = 0
  · simp [h]
  · simp [h]

theorem compare_lines_iff_norm (a b : Line) (opts : Options) :
    compare_lines a b opts = true ↔ norm opts a = norm opts b := by
  unfold compare_lines
  by_cases h : (opts.ignore_whitespace || opts.ignore_case) = true
  · rw [if_pos h, preprocess_line_eq_norm, preprocess_line_eq_norm]
    exact decide_eq_true_iff
  · rw [if_neg h]
    have h' : opts.ignore_whitespace = false ∧ opts.ignore_case = false := by
      simpa using h
    simp [norm, h'.1, h'.2]

theorem compare_lines_exact (a b : Line) (opts : Options) (hc : opts.ignore_case = false)
    (hw : opts.ignore_whitespace = false) : compare_lines a b opts = true ↔ a = b := by
  unfold compare_lines
  simp [hc, hw]

/-- The table entries do not shrink when the policy is relaxed from exact comparison. -/
theorem lcsRec_relax (A B : List Line) (opts opts0 : Options)
    (hc : opts0.ignore_case = false) (hw : opts0.ignore_whitespace = false) (i j : Nat) :
    lcsRec A B opts0 i j ≤ lcsRec A B opts i j := by
  obtain ⟨is, js, hcs, hlen⟩ := lcsRec_attained A B opts0 i j
  rw [← hlen]
  apply lcsRec_bound A B opts i j is js
  obtain ⟨h1, h2, h3, h4, h5, h6⟩ := hcs
  refine ⟨h1, h2, h3, h4, h5, fun pq hpq => ?_⟩
  have := (compare_lines_exact _ _ opts0 hc hw).mp (h6 pq hpq)
  rw [this]
  exact compare_lines_refl _ _

/-- The list built by `add_chunk` from a non-empty list: the chunks of another type than
`tail` are linked in front, last added first, and `tail` takes the lines of the chunks of
its type in the order in which they are added. -/
theorem foldl_add_chunk_shape (ops : List DiffChunk) (front : List DiffChunk) (t : DiffChunk)
    (hops : ∀ c ∈ ops, OneLine c) (ht : ChunkOK t) :
    ∃ t', ops.foldl add_chunk (some (front, t)) =
        some ((ops.filter fun c => decide (c.type ≠ t.type)).reverse ++ front, t') ∧
      t'.type = t.type ∧ ChunkOK t' ∧
      stored_lines t' = stored_lines t ++
        (ops.filter fun c => decide (c.type = t.type)).flatMap stored_lines := by
  induction ops generalizing front t with
  | nil => exact ⟨t, rfl, rfl, ht, by simp⟩
  | cons c ops ih =>
    have hone := hops c (List.mem_cons_self _ _)
    have hrest : ∀ d ∈ ops, OneLine d := fun d hd => hops d (List.mem_cons_of_mem _ hd)
    by_cases hty : t.type = c.type
    · obtain ⟨t', e, h1, h2, h3⟩ := ih front (merge_chunk t c) hrest (merge_chunk_ok t c ht)
      rw [merge_chunk_type] at e h1 h3
      refine ⟨t', ?_, h1, h2, ?_⟩
      · rw [List.foldl_cons, add_chunk_merge front t c hone hty, e]
        simp [List.filter_cons, hty]
      · rw [h3, stored_lines_merge t c hone ht hty]
        simp [List.filter_cons, hty]
    · obtain ⟨t', e, h1, h2, h3⟩ := ih (c :: front) t hrest ht
      have hty' : ¬ c.type = t.type := fun h => hty h.symm
      refine ⟨t', ?_, h1, h2, ?_⟩
      · rw [List.foldl_cons, add_chunk_link front t c hty, e]
        simp [List.filter_cons, hty']
      · rw [h3]
        simp [List.filter_cons, hty']

theorem backtrack_positions (A B : List Line) (lcs : List (List Nat)) (opts : Options)
    (fuel i j : Nat) :
    ∀ c ∈ backtrack A B lcs opts fuel i j, c.file1_start ≤ i ∧ c.file2_start ≤ j ∧
      (c = equal_chunk A c.file1_start c.file2_start ∨
       c = insert_chunk B c.file1_start c.file2_start ∨
       c = delete_chunk A c.file1_start c.file2_start) := by
  induction fuel generalizing i j with
  | zero => intro c hc; simp [backtrack] at hc
  | succ fuel ih =>
    intro c hc
    by_cases hpos : i > 0 ∨ j > 0
    · have hnc := new_chunk_eq A B lcs opts i j hpos
      split_ifs at hnc with h1 h2
      · simp only [backtrack, if_pos hpos, hnc, List.mem_cons] at hc
        rcases hc with rfl | hc
        · exact ⟨Nat.le_refl _, Nat.le_refl _, Or.inl rfl⟩
        · obtain ⟨a, b, d⟩ := ih (i - 1) (j - 1) c hc
          exact ⟨by omega, by omega, d⟩
      · simp only [backtrack, if_pos hpos, hnc, List.mem_cons] at hc
        rcases hc with rfl | hc
        · exact ⟨Nat.le_refl _, Nat.le_refl _, Or.inr (Or.inl rfl)⟩
        · obtain ⟨a, b, d⟩ := ih i (j - 1) c hc
          exact ⟨by omega, by omega, d⟩
      · simp only [backtrack, if_pos hpos, hnc, List.mem_cons] at hc
        rcases hc with rfl | hc
        · exact ⟨Nat.le_refl _, Nat.le_refl _, Or.inr (Or.inr rfl)⟩
        · obtain ⟨a, b, d⟩ := ih (i - 1) j c hc
          exact ⟨by omega, by omega, d⟩
    · simp [backtrack, hpos] at hc

/-- The backtrack runs in reverse file order: a chunk that takes a line of `A` is followed
only by chunks of smaller `file1_start`, a chunk that takes a line of `B` only by chunks
of smaller `file2_start`. -/
theorem backtrack_reverse_order (A B : List Line) (lcs : List (List Nat)) (opts : Options)
    (fuel i j : Nat) :
    (backtrack A B lcs opts fuel i j).Pairwise fun c d =>
      (c.type ≠ DIFF_INSERT → d.file1_start < c.file1_start) ∧
      (c.type ≠ DIFF_DELETE → d.file2_start < c.file2_start) := by
  induction fuel generalizing i j with
  | zero => simp [backtrack]
  | succ fuel ih =>
    by_cases hpos : i > 0 ∨ j > 0
    · have hnc := new_chunk_eq A B lcs opts i j hpos
      split_ifs at hnc with h1 h2
      · simp only [backtrack, if_pos hpos, hnc]
        refine List.pairwise_cons.mpr ⟨fun d hd => ?_, ih (i - 1) (j - 1)⟩
        obtain ⟨a, b, -⟩ := backtrack_positions A B lcs opts fuel (i - 1) (j - 1) d hd
        exact ⟨fun _ => by simp only [equal_chunk]; omega,
          fun _ => by simp only [equal_chunk]; omega⟩
      · simp only [backtrack, if_pos hpos, hnc]
        refine List.pairwise_cons.mpr ⟨fun d hd => ?_, ih i (j - 1)⟩
        obtain ⟨a, b, -⟩ := backtrack_positions A B lcs opts fuel i (j - 1) d hd
        exact ⟨fun hne => absurd rfl hne, fun _ => by simp only [insert_chunk]; omega⟩
      · have hi1 : i > 0 := by
          by_contra hi0
          exact h2 ⟨by omega, Or.inl (by omega)⟩
        simp only [backtrack, if_pos hpos, hnc]
        refine List.pairwise_cons.mpr ⟨fun d hd => ?_, ih (i - 1) j⟩
        obtain ⟨a, b, -⟩ := backtrack_positions A B lcs opts fuel (i - 1) j d hd
        exact ⟨fun _ => by simp only [delete_chunk]; omega, fun hne => absurd rfl hne⟩
    · simp [backtrack, hpos]

/-- Every chunk of the script of `extract_diff` holds lines of the files, as many as its
counts say, for every table. -/
theorem extract_diff_chunks (A B : List Line) (lcs : List (List Nat)) (opts : Options) :
    ∃ script, extract_diff A B lcs opts = some script ∧
      ∀ c ∈ script, FromFiles A B c ∧ ChunkOK c := by
  obtain ⟨script, e, hff⟩ := extract_diff_fromFiles A B lcs opts
  refine ⟨script, e, fun c hc => ⟨hff c hc, ?_⟩⟩
  have e' := extract_diff_total A B lcs opts
  have hs : script = _ := Option.some.inj (e.symm.trans e')
  rw [hs] at hc
  exact foldl_add_chunk_ok _ none (backtrack_oneLine A B lcs opts _ _ _)
    (fun d hd => by simp [head_list] at hd) c hc

/-! ## Properties of extracted scripts -/

/-- C23 (code defect). The run merge is not reverse-then-collapse: for `A = ["x"]`,
`B = ["a", "b", "x"]` under the default policy the backtrack emits Equal `x`, Insert `b`,
Insert `a`; reversing and collapsing gives the Insert chunk of lines 1..2 holding
`"a", "b"` followed by the Equal chunk of `"x"`, while `extract_diff` returns the three
chunks Insert `a`, Insert `b`, Equal `x`. -/
theorem run_merge_differs_from_collapse :
    backtrack [str "x"] [str "a", str "b", str "x"]
        (compute_lcs [str "x"] [str "a", str "b", str "x"] (init_options false))
        (init_options false) 4 1 3 =
      [equal_chunk [str "x"] 1 3, insert_chunk [str "a", str "b", str "x"] 0 2,
       insert_chunk [str "a", str "b", str "x"] 0 1] ∧
    spec_run_merge [equal_chunk [str "x"] 1 3, insert_chunk [str "a", str "b", str "x"] 0 2,
        insert_chunk [str "a", str "b", str "x"] 0 1] =
      [{ type := DIFF_INSERT, file1_start := 0, file1_end := 0, file2_start := 1,
         file2_end := 2, lines1 := [], lines2 := [str "a", str "b"], line_count1 := 0,
         line_count2 := 2 },
       equal_chunk [str "x"] 1 3] ∧
    diff_script [str "x"] [str "a", str "b", str "x"] (init_options false) =
      some [insert_chunk [str "a", str "b", str "x"] 0 1,
            insert_chunk [str "a", str "b", str "x"] 0 2,
            equal_chunk [str "x"] 1 3] ∧
    diff_script [str "x"] [str "a", str "b", str "x"] (init_options false) ≠
      some (spec_run_merge [equal_chunk [str "x"] 1 3,
        insert_chunk [str "a", str "b", str "x"] 0 2,
        insert_chunk [str "a", str "b", str "x"] 0 1]) := by
  decide

/-- C24. Line-count conservation: the script of `(A, B)` exists; it stores `table[m][n]`
lines in its Equal chunks, `m` lines in its Equal and Delete chunks together and `n` lines
in its Equal and Insert chunks together; and `compute_stats` returns
`inserts = n - table[m][n]` and `deletes = m - table[m][n]`. -/
theorem line_count_conservation (A B : List Line) (opts : Options) :
    ∃ script, diff_script A B opts = some script ∧
      lines_of_kind DIFF_EQUAL script = tbl (compute_lcs A B opts) A.length B.length ∧
      lines_of_kind DIFF_EQUAL script + lines_of_kind DIFF_DELETE script = A.length ∧
      lines_of_kind DIFF_EQUAL script + lines_of_kind DIFF_INSERT script = B.length ∧
      (compute_stats script).inserts =
        B.length - tbl (compute_lcs A B opts) A.length B.length ∧
      (compute_stats script).deletes =
        A.length - tbl (compute_lcs A B opts) A.length B.length := by
  obtain ⟨s1, e1, heq⟩ := diff_script_equal_lines A B opts
  obtain ⟨s2, e2, -, hins, hdel⟩ := diff_script_lines A B opts
  obtain ⟨s3, e3, a1, a2, -⟩ := diff_script_stats A B opts
  have h12 : s2 = s1 := Option.some.inj (e2.symm.trans e1)
  have h13 : s3 = s1 := Option.some.inj (e3.symm.trans e1)
  rw [h12] at hins hdel
  rw [h13] at a1 a2
  rw [tbl_compute_lcs A B opts _ _ (Nat.le_refl _) (Nat.le_refl _)]
  exact ⟨s1, e1, heq, by omega, by omega, by omega, by omega⟩

/-- C25. Brief verdict: the script of `(A, B)` exists, and `show_brief` says "same" on it
exactly when `A` and `B` have the same number of lines and the lines `A[k]` and `B[k]`
compare equal under the policy for every index `k`. -/
theorem brief_same_iff_files_equal (A B : List Line) (opts : Options) :
    ∃ script, diff_script A B opts = some script ∧
      (reports_same (show_brief script opts) ↔
        A.length = B.length ∧
          ∀ k, k < A.length → compare_lines (line_at A k) (line_at B k) opts = true) := by
  obtain ⟨script, e, a1, a2, a3⟩ := diff_script_stats A B opts
  refine ⟨script, e, ?_⟩
  rw [reports_same_iff]
  have hl := lcsRec_le_left A B opts A.length B.length
  have hr := lcsRec_le_right A B opts A.length B.length
  constructor
  · rintro ⟨hi, hd, -⟩
    have hmn : A.length = B.length := by omega
    refine ⟨hmn, ?_⟩
    have hL : lcsRec A B opts A.length A.length = A.length := by
      rw [← hmn] at a1; omega
    exact (lcsRec_diag A B opts A.length).mp hL
  · rintro ⟨hmn, hall⟩
    have hL := (lcsRec_diag A B opts A.length).mpr hall
    rw [← hmn] at a1 a2
    exact ⟨by omega, by omega, a3⟩

/-- C26. Shape of the extracted list: when `m + n > 0`, for every table, the backtrack
emits a first chunk and the script is the chunks of another type than the first, each of
one line, last emitted first, followed by one last chunk of the type of the first; the
last chunk holds the lines of all emitted chunks of that type in the order of the
backtrack, which is reverse file order: every emitted chunk is the one-line chunk of its
cell, and a later one has a smaller line number in the file it takes a line from. -/
theorem extracted_list_shape (A B : List Line) (lcs : List (List Nat)) (opts : Options)
    (h : A.length + B.length > 0) :
    ∃ first rest last,
      backtrack A B lcs opts (A.length + B.length) A.length B.length = first :: rest ∧
      extract_diff A B lcs opts =
        some ((rest.filter fun c => decide (c.type ≠ first.type)).reverse ++ [last]) ∧
      (∀ c ∈ (rest.filter fun c => decide (c.type ≠ first.type)).reverse,
        c.line_count1 + c.line_count2 = 1 ∧ c.type ≠ last.type) ∧
      last.type = first.type ∧
      stored_lines last =
        ((first :: rest).filter fun c => decide (c.type = first.type)).flatMap stored_lines ∧
      (∀ c ∈ first :: rest, c = equal_chunk A c.file1_start c.file2_start ∨
        c = insert_chunk B c.file1_start c.file2_start ∨
        c = delete_chunk A c.file1_start c.file2_start) ∧
      (first :: rest).Pairwise fun c d =>
        (c.type ≠ DIFF_INSERT → d.file1_start < c.file1_start) ∧
        (c.type ≠ DIFF_DELETE → d.file2_start < c.file2_start) := by
  have hpos : A.length > 0 ∨ B.length > 0 := by omega
  obtain ⟨c, i', j', hc, -, -, -, hone⟩ := new_chunk_some A B lcs opts A.length B.length hpos
  obtain ⟨f, hf⟩ : ∃ f, A.length + B.length = f + 1 := ⟨A.length + B.length - 1, by omega⟩
  have hbt : backtrack A B lcs opts (A.length + B.length) A.length B.length =
      c :: backtrack A B lcs opts f i' j' := by
    rw [hf]
    simp only [backtrack, if_pos hpos, hc]
  have hall := backtrack_oneLine A B lcs opts (A.length + B.length) A.length B.length
  have hposn := backtrack_positions A B lcs opts (A.length + B.length) A.length B.length
  have hord := backtrack_reverse_order A B lcs opts (A.length + B.length) A.length B.length
  rw [hbt] at hall hposn hord
  have hrest : ∀ d ∈ backtrack A B lcs opts f i' j', OneLine d :=
    fun d hd => hall d (List.mem_cons_of_mem _ hd)
  obtain ⟨t', e, h1, -, h3⟩ :=
    foldl_add_chunk_shape (backtrack A B lcs opts f i' j') [] c hrest hone.ok
  refine ⟨c, backtrack A B lcs opts f i' j', t', hbt, ?_, ?_, h1, ?_,
    fun d hd => (hposn d hd).2.2, hord⟩
  · rw [extract_diff_total, hbt, List.foldl_cons]
    have hadd : add_chunk none c = some ([], c) := rfl
    rw [hadd, e]
    simp [head_list]
  · intro d hd
    rw [List.mem_reverse, List.mem_filter] at hd
    obtain ⟨hd1, hd2⟩ := hd
    refine ⟨?_, ?_⟩
    · rcases hrest d hd1 with hh | hh | hh
      · rw [hh.2.1, hh.2.2.1]
      · rw [hh.2.1, hh.2.2.1]
      · rw [hh.2.1, hh.2.2.1]
    · rw [h1]; simpa using hd2
  · rw [h3]
    simp [List.filter_cons]

/-- C26, at `A = ["x", "y", "z"]`, `B = ["x", "z"]` and the table of `compute_lcs`. -/
theorem extracted_list_shape_witness :
    [str "x", str "y", str "z"].length + [str "x", str "z"].length > 0 ∧
    ∃ first rest last,
      backtrack [str "x", str "y", str "z"] [str "x", str "z"]
          (compute_lcs [str "x", str "y", str "z"] [str "x", str "z"] (init_options false))
          (init_options false)
          ([str "x", str "y", str "z"].length + [str "x", str "z"].length)
          [str "x", str "y", str "z"].length [str "x", str "z"].length = first :: rest ∧
      extract_diff [str "x", str "y", str "z"] [str "x", str "z"]
          (compute_lcs [str "x", str "y", str "z"] [str "x", str "z"] (init_options false))
          (init_options false) =
        some ((rest.filter fun c => decide (c.type ≠ first.type)).reverse ++ [last]) ∧
      (∀ c ∈ (rest.filter fun c => decide (c.type ≠ first.type)).reverse,
        c.line_count1 + c.line_count2 = 1 ∧ c.type ≠ last.type) ∧
      last.type = first.type ∧
      stored_lines last =
        ((first :: rest).filter fun c => decide (c.type = first.type)).flatMap stored_lines ∧
      (∀ c ∈ first :: rest,
        c = equal_chunk [str "x", str "y", str "z"] c.file1_start c.file2_start ∨
        c = insert_chunk [str "x", str "z"] c.file1_start c.file2_start ∨
        c = delete_chunk [str "x", str "y", str "z"] c.file1_start c.file2_start) ∧
      (first :: rest).Pairwise fun c d =>
        (c.type ≠ DIFF_INSERT → d.file1_start < c.file1_start) ∧
        (c.type ≠ DIFF_DELETE → d.file2_start < c.file2_start) :=
  ⟨by decide, extracted_list_shape [str "x", str "y", str "z"] [str "x", str "z"]
    (compute_lcs [str "x", str "y", str "z"] [str "x", str "z"] (init_options false))
    (init_options false) (by decide)⟩

/-- C28. Policy equality is an equivalence coarser than equality: for every setting of the
flags `compare_lines` is reflexive, symmetric and transitive, and two equal lines compare
equal. -/
theorem compare_lines_equivalence (opts : Options) :
    (∀ a, compare_lines a a opts = true) ∧
    (∀ a b, compare_lines a b opts = true → compare_lines b a opts = true) ∧
    (∀ a b c, compare_lines a b opts = true → compare_lines b c opts = true →
      compare_lines a c opts = true) ∧
    (∀ a b, a = b → compare_lines a b opts = true) := by
  refine ⟨fun a => compare_lines_refl a opts, fun a b h => ?_, fun a b c h1 h2 => ?_,
    fun a b h => ?_⟩
  · rw [compare_lines_comm]; exact h
  · rw [compare_lines_iff_norm] at h1 h2 ⊢
    exact h1.trans h2
  · rw [h]; exact compare_lines_refl b opts

/-- C29. Relaxing the policy never reports more differences: when `opts0` has both flags
clear, for any flags of `opts` the entry `table[m][n]` computed under `opts` is at least
the one computed under `opts0`, both scripts exist, and the `inserts` and `deletes`
counters of the script under `opts` are at most those of the script under `opts0`. -/
theorem relaxed_policy_fewer_differences (A B : List Line) (opts opts0 : Options)
    (hc : opts0.ignore_case = false) (hw : opts0.ignore_whitespace = false) :
    tbl (compute_lcs A B opts0) A.length B.length ≤
      tbl (compute_lcs A B opts) A.length B.length ∧
    ∃ s0 s, diff_script A B opts0 = some s0 ∧ diff_script A B opts = some s ∧
      (compute_stats s).inserts ≤ (compute_stats s0).inserts ∧
      (compute_stats s).deletes ≤ (compute_stats s0).deletes := by
  have hle := lcsRec_relax A B opts opts0 hc hw A.length B.length
  obtain ⟨s0, e0, a1, a2, -⟩ := diff_script_stats A B opts0
  obtain ⟨s, e, b1, b2, -⟩ := diff_script_stats A B opts
  rw [tbl_compute_lcs A B opts0 _ _ (Nat.le_refl _) (Nat.le_refl _),
    tbl_compute_lcs A B opts _ _ (Nat.le_refl _) (Nat.le_refl _)]
  exact ⟨hle, s0, s, e0, e, by omega, by omega⟩

/-- C29, at `A = ["SAME"]`, `B = ["same"]`, with `ignore_case` set against the default
policy. -/
theorem relaxed_policy_fewer_differences_witness :
    ((init_options false).ignore_case = false ∧
      (init_options false).ignore_whitespace = false) ∧
    (tbl (compute_lcs [str "SAME"] [str "same"] (init_options false))
        [str "SAME"].length [str "same"].length ≤
      tbl (compute_lcs [str "SAME"] [str "same"]
        { init_options false with ignore_case := true })
        [str "SAME"].length [str "same"].length ∧
    ∃ s0 s, diff_script [str "SAME"] [str "same"] (init_options false) = some s0 ∧
      diff_script [str "SAME"] [str "same"]
        { init_options false with ignore_case := true } = some s ∧
      (compute_stats s).inserts ≤ (compute_stats s0).inserts ∧
      (compute_stats s).deletes ≤ (compute_stats s0).deletes) :=
  ⟨⟨rfl, rfl⟩, relaxed_policy_fewer_differences [str "SAME"] [str "same"]
    { init_options false with ignore_case := true } (init_options false) rfl rfl⟩

/-- C30. No paired-change marker on extracted scripts: for every table and every policy
the script exists and each of its chunks has `line_count1 = 0` or `line_count2 = 0`;
`show_unified_diff` returns on it and prints no record marked `!`; and each non-Equal
chunk yields exactly `line_count1 + line_count2` records, all marked `-` for a Delete
chunk and all marked `+` for an Insert chunk. -/
theorem no_paired_marker_on_extracted (A B : List Line) (lcs : List (List Nat))
    (opts : Options) :
    ∃ script out, extract_diff A B lcs opts = some script ∧
      (∀ c ∈ script, c.line_count1 = 0 ∨ c.line_count2 = 0) ∧
      show_unified_diff script opts = some out ∧
      (∀ e ∈ out, record_mark e ≠ some '!') ∧
      ∀ c ∈ script, c.type ≠ DIFF_EQUAL →
        ∃ r, unified_records c opts (c.line_count1 + c.line_count2) 0 0 = some r ∧
          r.length = c.line_count1 + c.line_count2 ∧
          (c.type = DIFF_DELETE → ∀ e ∈ r, record_mark e = some '-') ∧
          (c.type = DIFF_INSERT → ∀ e ∈ r, record_mark e = some '+') := by
  obtain ⟨script, e, hch⟩ := extract_diff_chunks A B lcs opts
  have hzero : ∀ c ∈ script,
      ((c.type = DIFF_EQUAL ∨ c.type = DIFF_DELETE) ∧ c.line_count2 = 0) ∨
      (c.type = DIFF_INSERT ∧ c.line_count1 = 0) := by
    intro c hc
    obtain ⟨hff, hok⟩ := hch c hc
    rcases hff with ⟨ht, -, h2⟩ | ⟨ht, -, h1⟩
    · exact Or.inl ⟨ht, by rw [← hok.2, h2]; rfl⟩
    · exact Or.inr ⟨ht, by rw [← hok.1, h1]; rfl⟩
  have hor : ∀ c ∈ script, c.line_count1 = 0 ∨ c.line_count2 = 0 := by
    intro c hc
    rcases hzero c hc with ⟨-, h⟩ | ⟨-, h⟩
    · exact Or.inr h
    · exact Or.inl h
  obtain ⟨out, eo, hout⟩ := unified_chunks_no_pair_mark opts script hor
  refine ⟨script, UnifiedOut.file_header false opts.color_output ::
    UnifiedOut.file_header true opts.color_output :: out, e, hor, ?_, ?_, ?_⟩
  · simp [show_unified_diff, eo]
  · intro x hx
    rcases List.mem_cons.mp hx with rfl | hx
    · simp [record_mark]
    · rcases List.mem_cons.mp hx with rfl | hx
      · simp [record_mark]
      · exact hout x hx
  · intro c hc hne
    rcases hzero c hc with ⟨ht, h2⟩ | ⟨ht, h1⟩
    · obtain ⟨r, er, hlen, hm⟩ := unified_records_delete_only c opts h2
      refine ⟨r, er, hlen, fun _ => hm, fun hi => ?_⟩
      rcases ht with ht | ht
      · exact absurd ht hne
      · rw [hi] at ht; exact absurd ht (by decide)
    · obtain ⟨r, er, hlen, hm⟩ := unified_records_insert_only c opts h1
      refine ⟨r, er, hlen, fun hd => ?_, fun _ => hm⟩
      rw [hd] at ht; exact absurd ht (by decide)

/-! ## Bounds of the accesses -/

theorem read_line_eq (l : List Line) (k : Nat) (h : k < l.length) :
    read_line l k = some (line_at l k) :=
  line_at_eq_getElem? l k h

theorem row_eq_of_shape {lcs : List (List Nat)} {m n : Nat} (h : Shape lcs m n) (i : Nat)
    (hi : i ≤ m) : lcs[i]? = some (lcs.getD i []) ∧ (lcs.getD i []).length = n + 1 := by
  have hlt : i < lcs.length := by rw [h.1]; omega
  refine ⟨?_, h.2 i hi⟩
  rw [List.getD_eq_getElem _ _ hlt, List.getElem?_eq_getElem hlt]

theorem read_tbl_eq {lcs : List (List Nat)} {m n : Nat} (h : Shape lcs m n) (i j : Nat)
    (hi : i ≤ m) (hj : j ≤ n) : read_tbl lcs i j = some (tbl lcs i j) := by
  obtain ⟨hrow, hlen⟩ := row_eq_of_shape h i hi
  unfold read_tbl tbl
  rw [hrow]
  have hlt : j < (lcs.getD i []).length := by rw [hlen]; omega
  show (lcs.getD i [])[j]? = _
  rw [List.getD_eq_getElem (lcs.getD i []) 0 hlt, List.getElem?_eq_getElem hlt]

theorem write_tbl_eq {lcs : List (List Nat)} {m n : Nat} (h : Shape lcs m n) (i j v : Nat)
    (hi : i ≤ m) (hj : j ≤ n) : write_tbl lcs i j v = some (tbl_set lcs i j v) := by
  obtain ⟨hrow, hlen⟩ := row_eq_of_shape h i hi
  unfold write_tbl tbl_set
  rw [hrow]
  have hlt : j < (lcs.getD i []).length := by rw [hlen]; omega
  simp only [hlt, if_true]

theorem lcs_cell_shape (A B : List Line) (opts : Options) (lcs : List (List Nat)) (i j : Nat)
    (h : Shape lcs A.length B.length) (hi : i ≤ A.length) :
    Shape (lcs_cell A B opts i lcs j) A.length B.length := by
  unfold lcs_cell
  split_ifs
  · exact tbl_set_shape h _ _ _ hi
  · exact tbl_set_shape h _ _ _ hi
  · exact tbl_set_shape h _ _ _ hi

theorem lcs_cell_checked_eq (A B : List Line) (opts : Options) (lcs : List (List Nat))
    (i j : Nat) (h : Shape lcs A.length B.length) (hi1 : 1 ≤ i) (hi : i ≤ A.length)
    (hj1 : 1 ≤ j) (hj : j ≤ B.length) :
    lcs_cell_checked A B opts i lcs j = some (lcs_cell A B opts i lcs j) := by
  unfold lcs_cell_checked lcs_cell
  rw [if_pos ⟨hi1, hj1⟩, read_line_eq A (i - 1) (by omega), read_line_eq B (j - 1) (by omega)]
  simp only
  by_cases hc : compare_lines (line_at A (i - 1)) (line_at B (j - 1)) opts = true
  · rw [if_pos hc, if_pos hc, read_tbl_eq h (i - 1) (j - 1) (by omega) (by omega)]
    exact write_tbl_eq h i j _ hi hj
  · rw [if_neg hc, if_neg hc, read_tbl_eq h (i - 1) j (by omega) hj,
      read_tbl_eq h i (j - 1) hi (by omega)]
    exact write_tbl_eq h i j _ hi hj

theorem lcs_row_checked_fold (A B : List Line) (opts : Options) (i : Nat) (hi1 : 1 ≤ i)
    (hi : i ≤ A.length) (js : List Nat) (hjs : ∀ j ∈ js, 1 ≤ j ∧ j ≤ B.length)
    (lcs : List (List Nat)) (h : Shape lcs A.length B.length) :
    js.foldlM (lcs_cell_checked A B opts i) lcs = some (js.foldl (lcs_cell A B opts i) lcs) ∧
      Shape (js.foldl (lcs_cell A B opts i) lcs) A.length B.length := by
  induction js generalizing lcs with
  | nil => exact ⟨rfl, h⟩
  | cons j js ih =>
    obtain ⟨hj1, hj⟩ := hjs j (List.mem_cons_self _ _)
    obtain ⟨e, hs⟩ := ih (fun k hk => hjs k (List.mem_cons_of_mem _ hk))
      (lcs_cell A B opts i lcs j) (lcs_cell_shape A B opts lcs i j h hi)
    refine ⟨?_, hs⟩
    rw [List.foldlM_cons, lcs_cell_checked_eq A B opts lcs i j h hi1 hi hj1 hj]
    exact e

theorem lcs_row_checked_eq (A B : List Line) (opts : Options) (i : Nat) (hi1 : 1 ≤ i)
    (hi : i ≤ A.length) (lcs : List (List Nat)) (h : Shape lcs A.length B.length) :
    lcs_row_checked A B opts lcs i = some (lcs_row A B opts lcs i) ∧
      Shape (lcs_row A B opts lcs i) A.length B.length := by
  unfold lcs_row_checked lcs_row
  apply lcs_row_checked_fold A B opts i hi1 hi _ _ lcs h
  intro j hj
  rw [List.mem_range'_1] at hj
  omega

theorem lcs_rows_checked_fold (A B : List Line) (opts : Options) (is : List Nat)
    (his : ∀ i ∈ is, 1 ≤ i ∧ i ≤ A.length) (lcs : List (List Nat))
    (h : Shape lcs A.length B.length) :
    is.foldlM (lcs_row_checked A B opts) lcs = some (is.foldl (lcs_row A B opts) lcs) := by
  induction is generalizing lcs with
  | nil => rfl
  | cons i is ih =>
    obtain ⟨hi1, hi⟩ := his i (List.mem_cons_self _ _)
    obtain ⟨e, hs⟩ := lcs_row_checked_eq A B opts i hi1 hi lcs h
    rw [List.foldlM_cons, e]
    exact ih (fun k hk => his k (List.mem_cons_of_mem _ hk)) _ hs

/-- Every index read or written by `compute_lcs` is within its array. -/
theorem compute_lcs_checked_eq (A B : List Line) (opts : Options) :
    compute_lcs_checked A B opts = some (compute_lcs A B opts) := by
  unfold compute_lcs_checked compute_lcs
  apply lcs_rows_checked_fold A B opts _ _ _ (shape_replicate _ _)
  intro i hi
  rw [List.mem_range'_1] at hi
  omega

/-- In a cell of the table other than `(0, 0)` every index read by the loop body of
`extract_diff` is within its array, so the checked body does what the body does. -/
theorem new_chunk_checked_eq (A B : List Line) (lcs : List (List Nat)) (opts : Options)
    (h : Shape lcs A.length B.length) (i j : Nat) (hi : i ≤ A.length) (hj : j ≤ B.length) :
    new_chunk_checked A B lcs opts i j = new_chunk A B lcs opts i j := by
  have hce : cond_equal_checked A B opts i j = some (decide (i > 0 ∧ j > 0 ∧
      compare_lines (line_at A (i - 1)) (line_at B (j - 1)) opts = true)) := by
    unfold cond_equal_checked
    by_cases hp : i > 0 ∧ j > 0
    · rw [if_pos hp, read_line_eq A (i - 1) (by omega), read_line_eq B (j - 1) (by omega)]
      simp [hp.1, hp.2]
    · rw [if_neg hp]
      have : ¬ (i > 0 ∧ j > 0 ∧
          compare_lines (line_at A (i - 1)) (line_at B (j - 1)) opts = true) :=
        fun hh => hp ⟨hh.1, hh.2.1⟩
      simp [this]
  have hci : cond_insert_checked lcs i j = some (decide (j > 0 ∧
      (i = 0 ∨ tbl lcs i (j - 1) ≥ tbl lcs (i - 1) j))) := by
    unfold cond_insert_checked
    by_cases hj0 : j > 0
    · rw [if_pos hj0]
      by_cases hi0 : i = 0
      · rw [if_pos hi0]; simp [hj0, hi0]
      · rw [if_neg hi0, read_tbl_eq h i (j - 1) hi (by omega),
          read_tbl_eq h (i - 1) j (by omega) hj]
        simp [hj0, hi0]
    · rw [if_neg hj0]; simp [hj0]
  have hcd : cond_delete_checked lcs i j = some (decide (i > 0 ∧
      (j = 0 ∨ tbl lcs i (j - 1) < tbl lcs (i - 1) j))) := by
    unfold cond_delete_checked
    by_cases hi0 : i > 0
    · rw [if_pos hi0]
      by_cases hj0 : j = 0
      · rw [if_pos hj0]; simp [hi0, hj0]
      · rw [if_neg hj0, read_tbl_eq h i (j - 1) hi (by omega),
          read_tbl_eq h (i - 1) j (by omega) hj]
        simp [hi0, hj0]
    · rw [if_neg hi0]; simp [hi0]
  unfold new_chunk_checked new_chunk
  rw [hce]
  by_cases h1 : i > 0 ∧ j > 0 ∧
      compare_lines (line_at A (i - 1)) (line_at B (j - 1)) opts = true
  · rw [if_pos h1, decide_eq_true h1]
    simp only
    rw [read_line_eq A (i - 1) (by omega)]
  · rw [if_neg h1, decide_eq_false h1]
    simp only
    rw [hci]
    by_cases h2 : j > 0 ∧ (i = 0 ∨ tbl lcs i (j - 1) ≥ tbl lcs (i - 1) j)
    · rw [if_pos h2, decide_eq_true h2]
      simp only
      rw [read_line_eq B (j - 1) (by omega)]
    · rw [if_neg h2, decide_eq_false h2]
      simp only
      rw [hcd]
      by_cases h3 : i > 0 ∧ (j = 0 ∨ tbl lcs i (j - 1) < tbl lcs (i - 1) j)
      · rw [if_pos h3, decide_eq_true h3]
        simp only
        rw [read_line_eq A (i - 1) (by omega)]
      · rw [if_neg h3, decide_eq_false h3]

theorem extract_loop_checked_eq (A B : List Line) (lcs : List (List Nat)) (opts : Options)
    (h : Shape lcs A.length B.length) (fuel i j : Nat) (s : ChunkList) (hi : i ≤ A.length)
    (hj : j ≤ B.length) :
    extract_loop_checked A B lcs opts fuel i j s = extract_loop A B lcs opts fuel i j s := by
  induction fuel generalizing i j s with
  | zero => rfl
  | succ fuel ih =>
    by_cases hpos : i > 0 ∨ j > 0
    · obtain ⟨c, i', j', hc, -, hi', hj', -⟩ := new_chunk_some A B lcs opts i j hpos
      simp only [extract_loop_checked, extract_loop, if_pos hpos,
        new_chunk_checked_eq A B lcs opts h i j hi hj, hc]
      exact ih i' j' _ (by omega) (by omega)
    · simp only [extract_loop_checked, extract_loop, if_neg hpos]

/-- C27. Backtrack safety: with the table of `compute_lcs`, in every cell `(i, j)` of the
table other than `(0, 0)` the loop body of `extract_diff` takes a branch and builds its
chunk with every index (`table[i][j-1]`, `table[i-1][j]`, `A[i-1]`, `B[j-1]`) inside its
array; the whole loop, which only visits such cells, runs with every index checked and
returns the script; and every index read or written by `compute_lcs` is inside its
array. -/
theorem backtrack_safety (A B : List Line) (opts : Options) :
    compute_lcs_checked A B opts = some (compute_lcs A B opts) ∧
    (∀ i j, i ≤ A.length → j ≤ B.length → i > 0 ∨ j > 0 →
      ∃ r, new_chunk_checked A B (compute_lcs A B opts) opts i j = some r ∧
        new_chunk A B (compute_lcs A B opts) opts i j = some r ∧
        r.2.1 ≤ A.length ∧ r.2.2 ≤ B.length) ∧
    ∃ script, extract_diff_checked A B (compute_lcs A B opts) opts = some script ∧
      extract_diff A B (compute_lcs A B opts) opts = some script := by
  have hs := compute_lcs_shape A B opts
  refine ⟨compute_lcs_checked_eq A B opts, fun i j hi hj hpos => ?_, ?_⟩
  · obtain ⟨c, i', j', hc, -, hi', hj', -⟩ :=
      new_chunk_some A B (compute_lcs A B opts) opts i j hpos
    refine ⟨(c, i', j'), ?_, hc, by simp only; omega, by simp only; omega⟩
    rw [new_chunk_checked_eq A B _ opts hs i j hi hj, hc]
  · refine ⟨_, ?_, extract_diff_total A B _ opts⟩
    unfold extract_diff_checked
    rw [extract_loop_checked_eq A B _ opts hs _ _ _ _ (Nat.le_refl _) (Nat.le_refl _)]
    exact extract_diff_total A B _ opts

/-! ## The records of the chunks of an extracted script -/

end TkDiff
